import Mathlib

/-!
Verification of the Clef music language front end.

This file is a shallow embedding of the Clef core pipeline:

* the AST value types of `clef/ast/nodes.py`;
* the semantic analyzer of `clef/semantic/analyzer.py`;
* the event compiler of `clef/engine/compiler.py`;
* the event graph and its sort of `clef/engine/events.py`;

together with theorems that settle the specification's claims about these
components.

Python `fractions.Fraction` values (exact rationals) are embedded as the type
`Q` below: a rational stored in lowest terms with a positive denominator,
which is exactly the normal form `Fraction` maintains.  Storing the
denominator as `pden` with value `pden + 1` makes positivity structural, so
equality of `Q` values is definitional equality of reduced fractions, the
same equality `Fraction.__eq__` decides.  `toRat` maps `Q` to Mathlib's `ℚ`
for algebraic reasoning.
-/

namespace Clef

/-- Fuel-driven Euclidean gcd.  `gcdFuel f a b` equals `Nat.gcd a b` whenever
`a ≤ f`; the fuel only makes the recursion structural so that the kernel can
evaluate it. -/
def gcdFuel : Nat → Nat → Nat → Nat
  | 0, _, b => b
  | _ + 1, 0, b => b
  | f + 1, a + 1, b => gcdFuel f (b % (a + 1)) (a + 1)

/-- Greatest common divisor used to keep fractions reduced. -/
def natGcd (a b : Nat) : Nat := gcdFuel (a + 1) a b

theorem gcdFuel_eq (f : Nat) : ∀ a b : Nat, a ≤ f → gcdFuel f a b = Nat.gcd a b := by
  induction f with
  | zero =>
    intro a b h
    obtain rfl : a = 0 := Nat.le_zero.mp h
    simp [gcdFuel]
  | succ f ih =>
    intro a b h
    cases a with
    | zero => simp [gcdFuel]
    | succ a =>
      rw [gcdFuel, ih _ _ ?_, Nat.gcd_succ]
      exact Nat.le_of_lt_succ (Nat.lt_of_lt_of_le (Nat.mod_lt _ (Nat.succ_pos a)) h)

theorem natGcd_eq (a b : Nat) : natGcd a b = Nat.gcd a b :=
  gcdFuel_eq (a + 1) a b (Nat.le_succ a)

/-- Exact rational in lowest terms with positive denominator `pden + 1`: the
embedding of Python `fractions.Fraction`. -/
structure Q where
  num : Int
  pden : Nat
deriving DecidableEq

namespace Q

/-- The (always positive) denominator. -/
def den (q : Q) : Nat := q.pden + 1

/-- Reduced fraction `n / d` for a positive natural denominator, mirroring the
`Fraction(n, d)` constructor.  Python raises `ZeroDivisionError` for `d = 0`;
that unreachable case is totalised to `0` here. -/
def frac (n : Int) (d : Nat) : Q :=
  if d = 0 then ⟨0, 0⟩
  else
    let g := natGcd n.natAbs d
    ⟨n / (g : Int), d / g - 1⟩

/-- Reduced fraction with an integer denominator; the sign moves to the
numerator as `Fraction` does. -/
def fracInt (n d : Int) : Q :=
  if d < 0 then frac (-n) (-d).toNat else frac n d.toNat

/-- Embedding of an integer. -/
def ofInt (n : Int) : Q := ⟨n, 0⟩

instance (n : Nat) : OfNat Q n := ⟨ofInt n⟩

/-- Sum of two fractions (`Fraction.__add__`). -/
def add (a b : Q) : Q := frac (a.num * b.den + b.num * a.den) (a.den * b.den)

/-- Difference of two fractions (`Fraction.__sub__`). -/
def sub (a b : Q) : Q := frac (a.num * b.den - b.num * a.den) (a.den * b.den)

/-- Product of two fractions (`Fraction.__mul__`). -/
def mul (a b : Q) : Q := frac (a.num * b.num) (a.den * b.den)

/-- Quotient of two fractions (`Fraction.__truediv__`); division by zero is
totalised where Python raises. -/
def div (a b : Q) : Q := fracInt (a.num * (b.den : Int)) (b.num * (a.den : Int))

instance : Add Q := ⟨add⟩
instance : Sub Q := ⟨sub⟩
instance : Mul Q := ⟨mul⟩
instance : Div Q := ⟨div⟩

/-- Boolean `a ≤ b` by cross multiplication (denominators are positive), the
order `Fraction.__le__` decides. -/
def ble (a b : Q) : Bool := decide (a.num * (b.den : Int) ≤ b.num * (a.den : Int))

/-- Boolean `a < b` by cross multiplication. -/
def blt (a b : Q) : Bool := decide (a.num * (b.den : Int) < b.num * (a.den : Int))

/-- Boolean `a == b` by cross multiplication: the value equality
`Fraction.__eq__` decides (on reduced representations it coincides with
structural equality). -/
def beq (a b : Q) : Bool := decide (a.num * (b.den : Int) = b.num * (a.den : Int))

/-- Interpretation of `Q` in Mathlib's rationals. -/
def toRat (q : Q) : ℚ := (q.num : ℚ) / (q.den : ℚ)

theorem den_pos (q : Q) : 0 < q.den := Nat.succ_pos q.pden

theorem den_cast_ne_zero (q : Q) : ((q.den : ℚ)) ≠ 0 := by
  exact_mod_cast Nat.pos_iff_ne_zero.mp q.den_pos

theorem toRat_ofInt (n : Int) : toRat (ofInt n) = (n : ℚ) := by
  simp [toRat, ofInt, den]

theorem toRat_frac (n : Int) (d : Nat) (hd : d ≠ 0) :
    toRat (frac n d) = (n : ℚ) / (d : ℚ) := by
  rw [frac, if_neg hd]
  set g : Nat := natGcd n.natAbs d with hg
  have hgd : g ∣ d := by rw [hg, natGcd_eq]; exact Nat.gcd_dvd_right _ _
  have hgn : (g : Int) ∣ n := by
    refine dvd_trans ?_ (Int.natAbs_dvd.mpr dvd_rfl)
    exact_mod_cast Int.ofNat_dvd.mpr (by rw [hg, natGcd_eq]; exact Nat.gcd_dvd_left _ _)
  have hg0 : g ≠ 0 := by
    rw [hg, natGcd_eq]
    intro h
    exact hd (Nat.eq_zero_of_gcd_eq_zero_right h)
  obtain ⟨c, hc⟩ := hgn
  obtain ⟨e, he⟩ := hgd
  have he0 : e ≠ 0 := by rintro rfl; exact hd (by simp [he])
  have hdiv1 : n / (g : Int) = c := by
    rw [hc]
    exact Int.mul_ediv_cancel_left c (by exact_mod_cast hg0)
  have hdiv2 : d / g = e := by rw [he]; exact Nat.mul_div_cancel_left e (Nat.pos_of_ne_zero hg0)
  have hden : (d / g - 1) + 1 = e := by
    rw [hdiv2]
    exact Nat.succ_pred_eq_of_pos (Nat.pos_of_ne_zero he0)
  show ((n / (g : Int) : Int) : ℚ) / (((d / g - 1 : Nat) + 1 : Nat) : ℚ) = (n : ℚ) / (d : ℚ)
  rw [hdiv1, hden, hc, he]
  have hgq : ((g : ℚ)) ≠ 0 := by exact_mod_cast hg0
  push_cast
  rw [mul_comm (g : ℚ) (c : ℚ), mul_comm (g : ℚ) (e : ℚ)]
  rw [mul_div_mul_right _ _ hgq]

theorem toRat_fracInt (n d : Int) (hd : d ≠ 0) :
    toRat (fracInt n d) = (n : ℚ) / (d : ℚ) := by
  rw [fracInt]
  by_cases h : d < 0
  · rw [if_pos h]
    have hpos : (0 : Int) < -d := by omega
    have htn : ((-d).toNat : Int) = -d := Int.toNat_of_nonneg (le_of_lt hpos)
    have htn0 : (-d).toNat ≠ 0 := by omega
    rw [toRat_frac _ _ htn0]
    have : (((-d).toNat : Nat) : ℚ) = ((-d : Int) : ℚ) := by exact_mod_cast htn
    rw [this]
    push_cast
    rw [neg_div_neg_eq]
  · rw [if_neg h]
    have hnn : (0 : Int) ≤ d := by omega
    have htn : (d.toNat : Int) = d := Int.toNat_of_nonneg hnn
    have htn0 : d.toNat ≠ 0 := by omega
    rw [toRat_frac _ _ htn0]
    have : ((d.toNat : Nat) : ℚ) = ((d : Int) : ℚ) := by exact_mod_cast htn
    rw [this]

theorem toRat_den_mul_den_ne_zero (a b : Q) : (a.den * b.den : Nat) ≠ 0 :=
  Nat.mul_ne_zero (Nat.pos_iff_ne_zero.mp a.den_pos) (Nat.pos_iff_ne_zero.mp b.den_pos)

theorem toRat_add (a b : Q) : toRat (a + b) = toRat a + toRat b := by
  show toRat (add a b) = _
  rw [add, toRat_frac _ _ (toRat_den_mul_den_ne_zero a b)]
  simp only [toRat]
  have ha := a.den_cast_ne_zero
  have hb := b.den_cast_ne_zero
  field_simp
  try push_cast
  try ring

theorem toRat_sub (a b : Q) : toRat (a - b) = toRat a - toRat b := by
  show toRat (sub a b) = _
  rw [sub, toRat_frac _ _ (toRat_den_mul_den_ne_zero a b)]
  simp only [toRat]
  have ha := a.den_cast_ne_zero
  have hb := b.den_cast_ne_zero
  field_simp
  try push_cast
  try ring

theorem toRat_mul (a b : Q) : toRat (a * b) = toRat a * toRat b := by
  show toRat (mul a b) = _
  rw [mul, toRat_frac _ _ (toRat_den_mul_den_ne_zero a b)]
  simp only [toRat]
  have ha := a.den_cast_ne_zero
  have hb := b.den_cast_ne_zero
  field_simp
  try push_cast
  try ring

theorem toRat_div (a b : Q) (hb : b.num ≠ 0) : toRat (a / b) = toRat a / toRat b := by
  show toRat (div a b) = _
  have hd : b.num * (a.den : Int) ≠ 0 :=
    mul_ne_zero hb (by exact_mod_cast Nat.pos_iff_ne_zero.mp a.den_pos)
  rw [div, toRat_fracInt _ _ hd]
  simp only [toRat]
  push_cast
  rw [div_div_div_comm, div_div_div_eq]

theorem ble_iff_toRat (a b : Q) : ble a b = true ↔ toRat a ≤ toRat b := by
  rw [ble, decide_eq_true_iff, toRat, toRat]
  have ha : (0 : ℚ) < (a.den : ℚ) := by exact_mod_cast a.den_pos
  have hb : (0 : ℚ) < (b.den : ℚ) := by exact_mod_cast b.den_pos
  rw [div_le_div_iff₀ ha hb]
  constructor
  · intro h; exact_mod_cast h
  · intro h; exact_mod_cast h

theorem blt_iff_toRat (a b : Q) : blt a b = true ↔ toRat a < toRat b := by
  rw [blt, decide_eq_true_iff, toRat, toRat]
  have ha : (0 : ℚ) < (a.den : ℚ) := by exact_mod_cast a.den_pos
  have hb : (0 : ℚ) < (b.den : ℚ) := by exact_mod_cast b.den_pos
  rw [div_lt_div_iff₀ ha hb]
  constructor
  · intro h; exact_mod_cast h
  · intro h; exact_mod_cast h

theorem beq_iff_toRat (a b : Q) : beq a b = true ↔ toRat a = toRat b := by
  rw [beq, decide_eq_true_iff, toRat, toRat]
  rw [div_eq_div_iff a.den_cast_ne_zero b.den_cast_ne_zero]
  constructor
  · intro h; exact_mod_cast h
  · intro h; exact_mod_cast h

end Q

/-! ## AST nodes (`clef/ast/nodes.py`)

Source `Location` fields are declared with `compare=False` in every dataclass,
so they never take part in equality; they are omitted here.  The
`Articulation` dataclass is a bare wrapper around its `type` field, so
articulation lists are embedded directly as lists of `ArticulationType`. -/

/-- Letter names accepted by `Pitch` (`base_notes` keys in `midi_number`). -/
inductive NoteName where
  | C | D | E | F | G | A | B
deriving DecidableEq

/-- Semitone of the letter within the octave (`base_notes` in `Pitch.midi_number`). -/
def NoteName.base_note : NoteName → Int
  | .C => 0 | .D => 2 | .E => 4 | .F => 5 | .G => 7 | .A => 9 | .B => 11

/-- Accidental types (`Accidental` enum). -/
inductive Accidental where
  | natural | sharp | double_sharp | flat | double_flat
deriving DecidableEq

/-- Semitone offset of an accidental (`Accidental.semitone_offset`). -/
def Accidental.semitone_offset : Accidental → Int
  | .double_flat => -2 | .flat => -1 | .natural => 0 | .sharp => 1 | .double_sharp => 2

/-- A musical pitch (`Pitch`). -/
structure Pitch where
  name : NoteName
  octave : Int
  accidental : Option Accidental := none
deriving DecidableEq

/-- MIDI note number (`Pitch.midi_number`); C4 is 60. -/
def Pitch.midi_number (p : Pitch) : Int :=
  (p.octave + 1) * 12 + p.name.base_note +
    (match p.accidental with
     | some a => a.semitone_offset
     | none => 0)

/-- Enharmonic equivalence (`Pitch.enharmonic_equal`): equality of MIDI numbers. -/
def Pitch.enharmonic_equal (p other : Pitch) : Bool :=
  p.midi_number == other.midi_number

/-- A duration as a fraction of a whole note plus dots (`Duration`). -/
structure Duration where
  base_value : Q
  dots : Nat := 0
deriving DecidableEq

/-- The loop body of `Duration.total_value`: repeatedly halve `dot_value` and
add it to `value`, once per dot. -/
def totalValueGo : Q → Q → Nat → Q
  | value, _, 0 => value
  | value, dot_value, n + 1 =>
      totalValueGo (value + dot_value / Q.ofInt 2) (dot_value / Q.ofInt 2) n

/-- Total duration including dots (`Duration.total_value`). -/
def Duration.total_value (d : Duration) : Q :=
  totalValueGo d.base_value d.base_value d.dots

/-- Articulation types (`ArticulationType` enum). -/
inductive ArticulationType where
  | staccato | staccatissimo | legato | accent | tenuto | marcato | fermata
deriving DecidableEq

/-- Lower-cased enum member name, as `art.type.name.lower()` computes it. -/
def ArticulationType.lower_name : ArticulationType → String
  | .staccato => "staccato" | .staccatissimo => "staccatissimo" | .legato => "legato"
  | .accent => "accent" | .tenuto => "tenuto" | .marcato => "marcato" | .fermata => "fermata"

/-- Ornament types (`OrnamentType` enum). -/
inductive OrnamentType where
  | mordent | turn | inverted_turn | shake | trill
deriving DecidableEq

/-- An ornament: either the base `Ornament` dataclass with a type tag, or the
`Trill` subclass carrying an optional auxiliary pitch. -/
inductive Ornament where
  | mark (type : OrnamentType)
  | trill (auxiliary_pitch : Option Pitch)
deriving DecidableEq

/-- The `type` field: `Trill` defaults it to `OrnamentType.TRILL`. -/
def Ornament.type : Ornament → OrnamentType
  | .mark t => t
  | .trill _ => OrnamentType.trill

/-- A grace note (`GraceNote`). -/
structure GraceNote where
  pitch : Pitch
  slashed : Bool := false
deriving DecidableEq

/-- A single note (`Note`). -/
structure Note where
  pitch : Pitch
  duration : Duration
  articulations : List ArticulationType := []
  ornaments : List Ornament := []
  tied : Bool := false
  grace_notes : List GraceNote := []
deriving DecidableEq

/-- A rest (`Rest`). -/
structure Rest where
  duration : Duration
deriving DecidableEq

/-- A chord (`Chord`). -/
structure Chord where
  pitches : List Pitch
  duration : Duration
  articulations : List ArticulationType := []
  ornaments : List Ornament := []
  tied : Bool := false
  grace_notes : List GraceNote := []
deriving DecidableEq

/-- A dynamic marking (`Dynamic`). -/
structure Dynamic where
  marking : String
deriving DecidableEq

/-- The velocity table of `Dynamic.velocity`. -/
def dynamicVelocityTable : List (String × Nat) :=
  [("ppp", 16), ("pp", 33), ("p", 49), ("mp", 64), ("mf", 80), ("f", 96),
   ("ff", 112), ("fff", 127), ("fp", 96), ("sfz", 127), ("sf", 112)]

/-- MIDI velocity of a dynamic marking (`Dynamic.velocity`), defaulting to 80. -/
def Dynamic.velocity (d : Dynamic) : Nat :=
  (dynamicVelocityTable.lookup d.marking).getD 80

/-- Hairpin kinds (`HairpinType` enum). -/
inductive HairpinType where
  | crescendo | decrescendo | diminuendo
deriving DecidableEq

/-- Lower-cased enum member name, as `hairpin.type.name.lower()` computes it. -/
def HairpinType.lower_name : HairpinType → String
  | .crescendo => "crescendo" | .decrescendo => "decrescendo" | .diminuendo => "diminuendo"

/-- A crescendo/decrescendo hairpin (`Hairpin`). -/
structure Hairpin where
  type : HairpinType
  duration : Q
deriving DecidableEq

/-- Pedal marking kinds (`PedalType` enum). -/
inductive PedalType where
  | down | up | change
deriving DecidableEq

/-- A sustain pedal marking (`Pedal`). -/
structure Pedal where
  type : PedalType
deriving DecidableEq

/-- A time signature (`TimeSignature`). -/
structure TimeSignature where
  numerator : Int
  denominator : Int
deriving DecidableEq

/-- Whole-note duration of one measure (`TimeSignature.beats_per_measure`),
`Fraction(numerator, denominator)`. -/
def TimeSignature.beats_per_measure (t : TimeSignature) : Q :=
  Q.fracInt t.numerator t.denominator

/-- A tempo marking (`TempoMark`). -/
structure TempoMark where
  bpm : Int
  beat_unit : Duration := { base_value := Q.frac 1 4 }
deriving DecidableEq

/-- A key signature (`KeySignature`). -/
structure KeySignature where
  root : String
  mode : String
  accidental : Option Accidental := none
deriving DecidableEq

/-- An instrument change (`InstrumentChange`). -/
structure InstrumentChange where
  instrument : String
deriving DecidableEq

mutual

/-- Content that can appear inside measures, voices, tuplets and slurs.  The
`Tuplet` and `Measure` dataclasses are inlined as constructors carrying their
fields.  The untyped `("voice", n, content)` tuples that the parser can slip
into a measure's content list are not representable here; embedded measures
always take the sequential branch of the analyzer and the compiler. -/
inductive Content where
  | note (n : Note)
  | rest (r : Rest)
  | chord (c : Chord)
  | tuplet (actual normal : Int) (contents : Contents)
  | slur (contents : Contents)
  | dynamic (d : Dynamic)
  | hairpin (h : Hairpin)
  | pedal (p : Pedal)
  | tempoMark (t : TempoMark)
  | timeSignature (t : TimeSignature)
  | keySignature (k : KeySignature)
  | instrumentChange (i : InstrumentChange)
  | measure (number : Option Int) (contents : Contents)
deriving DecidableEq

/-- A list of `Content`, as its own inductive so that structural recursion
and induction stay primitive. -/
inductive Contents where
  | nil
  | cons (c : Content) (cs : Contents)
deriving DecidableEq

end

/-- The tuplet duration multiplier (`Tuplet.ratio`), `Fraction(normal, actual)`. -/
def tupletScale (normal actual : Int) : Q := Q.fracInt normal actual

/-- One element of `Staff.contents`: either a `Voice` block or a directly
placed content item. -/
inductive StaffItem where
  | voice (number : Int) (contents : Contents)
  | item (c : Content)
deriving DecidableEq

/-- A staff (`Staff`). -/
structure Staff where
  name : String
  contents : List StaffItem
  instrument : Option String := none
deriving DecidableEq

/-- A whole score (`Score`). -/
structure Score where
  staves : List Staff
  tempo : Option TempoMark := none
  time_signature : Option TimeSignature := none
  key_signature : Option KeySignature := none
deriving DecidableEq

/-! ## Events and the event graph (`clef/engine/events.py`) -/

/-- A sounding note (`NoteEvent`). -/
structure NoteEv where
  start_time : Q
  staff_id : String
  voice_id : Int
  midi_note : Int
  duration : Q
  velocity : Nat := 80
  articulations : List String := []
  is_tied_from : Bool := false
  is_tied_to : Bool := false
  channel : Nat := 0
deriving DecidableEq

/-- A rest event (`RestEvent`). -/
structure RestEv where
  start_time : Q
  staff_id : String
  voice_id : Int
  duration : Q
deriving DecidableEq

/-- A tempo change (`TempoEvent`). -/
structure TempoEv where
  start_time : Q
  staff_id : String
  voice_id : Int
  bpm : Int
  beat_unit : Q := Q.frac 1 4
deriving DecidableEq

/-- A time signature change (`TimeSignatureEvent`). -/
structure TimeSignatureEv where
  start_time : Q
  staff_id : String
  voice_id : Int
  numerator : Int
  denominator : Int
deriving DecidableEq

/-- A dynamic marking event (`DynamicEvent`). -/
structure DynamicEv where
  start_time : Q
  staff_id : String
  voice_id : Int
  marking : String
  velocity : Nat
  is_hairpin : Bool := false
  hairpin_duration : Option Q := none
  target_velocity : Option Nat := none
deriving DecidableEq

/-- A sustain pedal event (`PedalEvent`). -/
structure PedalEv where
  start_time : Q
  staff_id : String
  voice_id : Int
  value : Nat
deriving DecidableEq

/-- An instrument change event (`ProgramChangeEvent`). -/
structure ProgramChangeEv where
  start_time : Q
  staff_id : String
  voice_id : Int
  program : Nat
  channel : Nat := 0
deriving DecidableEq

/-- A MIDI control change (`ControlChangeEvent`). -/
structure ControlChangeEv where
  start_time : Q
  staff_id : String
  voice_id : Int
  controller : Nat
  value : Nat
  channel : Nat := 0
deriving DecidableEq

/-- The closed union of event classes stored in an `EventGraph`. -/
inductive Event where
  | note (e : NoteEv)
  | rest (e : RestEv)
  | tempo (e : TempoEv)
  | timeSignature (e : TimeSignatureEv)
  | dynamic (e : DynamicEv)
  | pedal (e : PedalEv)
  | programChange (e : ProgramChangeEv)
  | controlChange (e : ControlChangeEv)
deriving DecidableEq

/-- The shared `start_time` field of the `Event` base class. -/
def Event.start_time : Event → Q
  | .note e => e.start_time
  | .rest e => e.start_time
  | .tempo e => e.start_time
  | .timeSignature e => e.start_time
  | .dynamic e => e.start_time
  | .pedal e => e.start_time
  | .programChange e => e.start_time
  | .controlChange e => e.start_time

/-- The shared `staff_id` field of the `Event` base class. -/
def Event.staff_id : Event → String
  | .note e => e.staff_id
  | .rest e => e.staff_id
  | .tempo e => e.staff_id
  | .timeSignature e => e.staff_id
  | .dynamic e => e.staff_id
  | .pedal e => e.staff_id
  | .programChange e => e.staff_id
  | .controlChange e => e.staff_id

/-- Sorting priority within the same start time (`EventGraph._event_priority`). -/
def eventPriority : Event → Nat
  | .tempo _ => 0
  | .timeSignature _ => 1
  | .programChange _ => 2
  | .dynamic _ => 3
  | .pedal _ => 4
  | .note _ => 10
  | _ => 20

/-- The sort key of `EventGraph.sort`: `(start_time, priority)`. -/
def sortKey (e : Event) : Q × Nat := (e.start_time, eventPriority e)

/-- Lexicographic boolean order on sort keys, the order Python compares the
key tuples `(Fraction, int)` with: equal fractions compare the priorities,
otherwise the fractions decide. -/
def keyLE (a b : Q × Nat) : Bool :=
  if Q.beq a.1 b.1 then decide (a.2 ≤ b.2) else Q.blt a.1 b.1

/-- Value equality of sort keys: same fraction value and same priority. -/
def keyEq (a b : Q × Nat) : Bool :=
  Q.beq a.1 b.1 && decide (a.2 = b.2)

/-- Insert an event after every earlier event whose key is `≤` its own.  This
is the characteristic step of a stable sort. -/
def insertEv (e : Event) : List Event → List Event
  | [] => [e]
  | x :: xs => if keyLE (sortKey x) (sortKey e) then x :: insertEv e xs else e :: x :: xs

/-- Insert the pending events one by one, left to right. -/
def sortEventsAux : List Event → List Event → List Event
  | acc, [] => acc
  | acc, e :: es => sortEventsAux (insertEv e acc) es

/-- Embedding of `EventGraph.sort`: Python's `list.sort` is a stable sort by
`(start_time, priority)`, and inserting each element in encounter order after
all elements with a key `≤` its own realises exactly that stable sort. -/
def sortEvents (l : List Event) : List Event := sortEventsAux [] l

/-- The event graph (`EventGraph`). -/
structure EventGraph where
  events : List Event := []
  initial_tempo : Int := 120
  initial_time_signature : Int × Int := (4, 4)
deriving DecidableEq

/-- Append an event (`EventGraph.add`). -/
def EventGraph.add (g : EventGraph) (e : Event) : EventGraph :=
  { g with events := g.events ++ [e] }

/-- Sort the events in place (`EventGraph.sort`). -/
def EventGraph.sortg (g : EventGraph) : EventGraph :=
  { g with events := sortEvents g.events }

/-- All note events, in graph order (`EventGraph.get_note_events`). -/
def EventGraph.get_note_events (g : EventGraph) : List NoteEv :=
  g.events.filterMap fun e =>
    match e with
    | .note n => some n
    | _ => none

/-! ## Association lists

Python `dict`s are embedded as association lists: `alistInsert` updates an
existing key in place and appends a new key at the end, and `alistErase`
removes a key's entry, which is exactly how insertion-ordered `dict`
assignment and `del` behave. -/

def alistLookup [DecidableEq κ] (k : κ) : List (κ × ν) → Option ν
  | [] => none
  | (k', v) :: rest => if k' = k then some v else alistLookup k rest

def alistInsert [DecidableEq κ] (k : κ) (v : ν) : List (κ × ν) → List (κ × ν)
  | [] => [(k, v)]
  | (k', v') :: rest => if k' = k then (k, v) :: rest else (k', v') :: alistInsert k v rest

def alistErase [DecidableEq κ] (k : κ) : List (κ × ν) → List (κ × ν)
  | [] => []
  | (k', v') :: rest => if k' = k then rest else (k', v') :: alistErase k rest

/-! ## Semantic analyzer (`clef/semantic/analyzer.py`)

`SemanticError` messages are Python format strings; they are embedded as
tagged values carrying the interpolated data, which abstracts only the text
formatting.  Raising is modelled with `Except`: `_add_error` appends the
error to the report and, in strict mode, short-circuits with `.error`. -/

/-- A semantic error (`SemanticError`), tagged by the site that raises it. -/
inductive SemErr where
  | measureDurationMismatch (measure_num : Option Int) (staff : Option String)
      (voice : Option Int) (actual expected : Q)
  | tieResolutionFailed (expected got : Pitch)
  | tupletActualNonpositive (actual : Int)
  | tupletNormalNonpositive (normal : Int)
  | tupletEmpty
  | pedalUpNotDown
  | unknownDynamic (marking : String)
  | unresolvedTie (pitch : Pitch) (staff : Option String) (voice : Option Int)
deriving DecidableEq

/-- A warning string, likewise tagged. -/
inductive Warn where
  | pedalAlreadyDown
  | emptySlur
  | unknownInstrument (name : String)
  | voiceDurationsDiffer (staff : Option String) (durations : List (Int × Q))
deriving DecidableEq

/-- The instrument name table of `ValidationContext.known_instruments`. -/
def knownInstruments : List String :=
  ["piano", "acoustic_grand_piano", "bright_acoustic_piano", "electric_grand_piano",
   "honky_tonk_piano", "electric_piano_1", "electric_piano_2", "harpsichord",
   "clavinet", "celesta", "glockenspiel", "music_box",
   "vibraphone", "marimba", "xylophone", "tubular_bells",
   "dulcimer", "drawbar_organ", "percussive_organ", "rock_organ",
   "church_organ", "reed_organ", "accordion", "harmonica",
   "tango_accordion", "acoustic_guitar_nylon", "acoustic_guitar_steel", "electric_guitar_jazz",
   "electric_guitar_clean", "electric_guitar_muted", "overdriven_guitar", "distortion_guitar",
   "guitar_harmonics", "acoustic_bass", "electric_bass_finger", "electric_bass_pick",
   "fretless_bass", "slap_bass_1", "slap_bass_2", "synth_bass_1",
   "synth_bass_2", "violin", "viola", "cello",
   "contrabass", "tremolo_strings", "pizzicato_strings", "orchestral_harp",
   "timpani", "string_ensemble_1", "string_ensemble_2", "synth_strings_1",
   "synth_strings_2", "choir_aahs", "voice_oohs", "synth_choir",
   "orchestra_hit", "trumpet", "trombone", "tuba",
   "muted_trumpet", "french_horn", "brass_section", "synth_brass_1",
   "synth_brass_2", "soprano_sax", "alto_sax", "tenor_sax",
   "baritone_sax", "oboe", "english_horn", "bassoon",
   "clarinet", "piccolo", "flute", "recorder",
   "pan_flute", "blown_bottle", "shakuhachi", "whistle",
   "ocarina", "lead_square", "lead_sawtooth", "lead_calliope",
   "lead_chiff", "lead_charang", "lead_voice", "lead_fifths",
   "lead_bass", "pad_new_age", "pad_warm", "pad_polysynth",
   "pad_choir", "pad_bowed", "pad_metallic", "pad_halo",
   "pad_sweep", "fx_rain", "fx_soundtrack", "fx_crystal",
   "fx_atmosphere", "fx_brightness", "fx_goblins", "fx_echoes",
   "fx_sci_fi", "sitar", "banjo", "shamisen",
   "koto", "kalimba", "bagpipe", "fiddle",
   "shanai", "tinkle_bell", "agogo", "steel_drums",
   "woodblock", "taiko_drum", "melodic_tom", "synth_drum",
   "reverse_cymbal", "guitar_fret_noise", "breath_noise", "seashore",
   "bird_tweet", "telephone_ring", "helicopter", "applause",
   "gunshot", "strings", "brass", "woodwinds",
   "organ", "guitar", "bass", "drums",
   "percussion", "synth", "choir", "voice"]

/-- The validation state (`ValidationContext`). -/
structure VCtx where
  current_time_signature : TimeSignature := { numerator := 4, denominator := 4 }
  current_tempo : Option TempoMark := none
  current_key : Option KeySignature := none
  current_staff : Option String := none
  current_voice : Option Int := none
  current_measure : Option Int := none
  pending_ties : List ((Option String × Option Int × Int) × Pitch) := []
  pedal_down : Bool := false
  errors : List SemErr := []
  warnings : List Warn := []
deriving DecidableEq

/-- Append an error and, in strict mode, raise it
(`SemanticAnalyzer._add_error`). -/
def addError (strict : Bool) (ctx : VCtx) (e : SemErr) : Except SemErr VCtx :=
  if strict then .error e else .ok { ctx with errors := ctx.errors ++ [e] }

/-- Append a warning (`SemanticAnalyzer._add_warning`). -/
def addWarning (ctx : VCtx) (w : Warn) : VCtx :=
  { ctx with warnings := ctx.warnings ++ [w] }

/-- Python `a or b` on optional measure numbers: `None` and `0` fall through. -/
def pyOrInt (a b : Option Int) : Option Int :=
  match a with
  | some n => if n = 0 then b else some n
  | none => b

mutual

/-- Duration of a measure item in whole notes
(`SemanticAnalyzer._get_item_duration`). -/
def getItemDuration : Content → Q → Q
  | .note n, s => n.duration.total_value * s
  | .chord c, s => c.duration.total_value * s
  | .rest r, s => r.duration.total_value * s
  | .tuplet actual normal cs, s => getItemDurationList cs (tupletScale normal actual * s)
  | .slur cs, s => getItemDurationList cs s
  | _, _ => 0

/-- Sum of item durations over a content list. -/
def getItemDurationList : Contents → Q → Q
  | .nil, _ => 0
  | .cons c cs, s => getItemDuration c s + getItemDurationList cs s

end

/-- The per-pitch loop of `SemanticAnalyzer._validate_note_or_chord`:
resolve a pending tie keyed by `(staff, voice, midi)` (erring when the
spellings are not enharmonically equal) and record a new pending tie when
the item is tied forward. -/
def validatePitches (strict : Bool) (tied : Bool) : List Pitch → VCtx → Except SemErr VCtx
  | [], ctx => .ok ctx
  | p :: ps, ctx => do
      let key := (ctx.current_staff, ctx.current_voice, p.midi_number)
      let ctx ←
        match alistLookup key ctx.pending_ties with
        | some expected =>
            if p.enharmonic_equal expected then
              pure { ctx with pending_ties := alistErase key ctx.pending_ties }
            else do
              let ctx ← addError strict ctx (.tieResolutionFailed expected p)
              pure { ctx with pending_ties := alistErase key ctx.pending_ties }
        | none => pure ctx
      let ctx := if tied then { ctx with pending_ties := alistInsert key p ctx.pending_ties } else ctx
      validatePitches strict tied ps ctx

/-- Tie validation for a note or chord
(`SemanticAnalyzer._validate_note_or_chord`). -/
def validateNoteOrChord (strict : Bool) (item : Content) (ctx : VCtx) : Except SemErr VCtx :=
  match item with
  | .note n => validatePitches strict n.tied [n.pitch] ctx
  | .chord c => validatePitches strict c.tied c.pitches ctx
  | _ => .ok ctx

/-- The three shape checks at the top of `SemanticAnalyzer._validate_tuplet`:
nonpositive counts and empty contents are errors. -/
def tupletChecks (strict : Bool) (actual normal : Int) (cs : Contents) (ctx : VCtx) :
    Except SemErr VCtx := do
  let ctx ← if actual ≤ 0 then addError strict ctx (.tupletActualNonpositive actual) else pure ctx
  let ctx ← if normal ≤ 0 then addError strict ctx (.tupletNormalNonpositive normal) else pure ctx
  if cs = .nil then addError strict ctx .tupletEmpty else pure ctx

/-- The contents loop of `_validate_tuplet`: notes, chords and nested tuplets
are validated (a nested tuplet inlines the recursive `_validate_tuplet`
call: its shape checks followed by its own contents loop), everything else
is skipped. -/
def validateTupletContents (strict : Bool) : Contents → VCtx → Except SemErr VCtx
  | .nil, ctx => .ok ctx
  | .cons item cs, ctx => do
      let ctx ←
        match item with
        | .note _ | .chord _ => validateNoteOrChord strict item ctx
        | .tuplet a n inner => do
            let ctx ← tupletChecks strict a n inner ctx
            validateTupletContents strict inner ctx
        | _ => pure ctx
      validateTupletContents strict cs ctx

/-- Tuplet validation (`SemanticAnalyzer._validate_tuplet`): shape checks,
then the contents loop. -/
def validateTuplet (strict : Bool) (actual normal : Int) (cs : Contents) (ctx : VCtx) :
    Except SemErr VCtx := do
  let ctx ← tupletChecks strict actual normal cs ctx
  validateTupletContents strict cs ctx

/-- The contents loop of `SemanticAnalyzer._validate_slur`. -/
def validateSlurContents (strict : Bool) : Contents → VCtx → Except SemErr VCtx
  | .nil, ctx => .ok ctx
  | .cons item cs, ctx => do
      let ctx ←
        match item with
        | .note _ | .chord _ => validateNoteOrChord strict item ctx
        | .tuplet a n inner => validateTuplet strict a n inner ctx
        | _ => pure ctx
      validateSlurContents strict cs ctx

/-- Slur validation (`SemanticAnalyzer._validate_slur`): empty slurs warn,
contents are validated. -/
def validateSlur (strict : Bool) (cs : Contents) (ctx : VCtx) : Except SemErr VCtx :=
  let ctx := if cs = .nil then addWarning ctx .emptySlur else ctx
  validateSlurContents strict cs ctx

/-- Pedal validation (`SemanticAnalyzer._validate_pedal`): the two-state
machine over `pedal_down`. -/
def validatePedal (strict : Bool) (p : Pedal) (ctx : VCtx) : Except SemErr VCtx :=
  match p.type with
  | .down =>
      let ctx := if ctx.pedal_down then addWarning ctx .pedalAlreadyDown else ctx
      .ok { ctx with pedal_down := true }
  | .up =>
      if ctx.pedal_down then
        .ok { ctx with pedal_down := false }
      else do
        let ctx ← addError strict ctx .pedalUpNotDown
        pure { ctx with pedal_down := false }
  | .change => .ok { ctx with pedal_down := true }

/-- The closed set of markings accepted by `_validate_dynamic`. -/
def validDynamics : List String :=
  ["ppp", "pp", "p", "mp", "mf", "f", "ff", "fff", "fp", "sfz", "sf"]

/-- Dynamic validation (`SemanticAnalyzer._validate_dynamic`). -/
def validateDynamic (strict : Bool) (d : Dynamic) (ctx : VCtx) : Except SemErr VCtx :=
  if validDynamics.contains d.marking then .ok ctx
  else addError strict ctx (.unknownDynamic d.marking)

/-- Instrument validation (`SemanticAnalyzer._validate_instrument`): unknown
names warn, never err. -/
def validateInstrument (instrument : String) (ctx : VCtx) : VCtx :=
  if knownInstruments.contains instrument.toLower then ctx
  else addWarning ctx (.unknownInstrument instrument)

/-- The sequential item loop of `SemanticAnalyzer._validate_measure`,
threading the accumulated duration and the expected duration (which a
mid-measure time signature change replaces). -/
def validateMeasureItems (strict : Bool) :
    Contents → Q → Q → VCtx → Except SemErr (VCtx × Q × Q)
  | .nil, actual, expected, ctx => .ok (ctx, actual, expected)
  | .cons item cs, actual, expected, ctx => do
      let actual := actual + getItemDuration item 1
      let (ctx, expected) ←
        (match item with
         | .note _ | .chord _ => do
             let ctx ← validateNoteOrChord strict item ctx
             pure (ctx, expected)
         | .tuplet a n inner => do
             let ctx ← validateTuplet strict a n inner ctx
             pure (ctx, expected)
         | .slur inner => do
             let ctx ← validateSlur strict inner ctx
             pure (ctx, expected)
         | .pedal p => do
             let ctx ← validatePedal strict p ctx
             pure (ctx, expected)
         | .dynamic d => do
             let ctx ← validateDynamic strict d ctx
             pure (ctx, expected)
         | .timeSignature t =>
             pure ({ ctx with current_time_signature := t }, t.beats_per_measure)
         | _ => pure (ctx, expected) : Except SemErr (VCtx × Q))
      validateMeasureItems strict cs actual expected ctx

/-- Measure validation, sequential branch of
`SemanticAnalyzer._validate_measure` (embedded measures never carry the
parser's untyped voice-block tuples). -/
def validateMeasure (strict : Bool) (number : Option Int) (cs : Contents) (ctx : VCtx) :
    Except SemErr VCtx := do
  let expected := ctx.current_time_signature.beats_per_measure
  let (ctx, actual, expected) ← validateMeasureItems strict cs 0 expected ctx
  if actual = expected then pure ctx
  else
    addError strict ctx
      (.measureDurationMismatch (pyOrInt number ctx.current_measure) ctx.current_staff
        ctx.current_voice actual expected)

/-- The collection loop of `SemanticAnalyzer._validate_voice`: measures are
collected while time signature and tempo directives update the context. -/
def collectVoiceMeasures : Contents → VCtx → VCtx × List (Option Int × Contents)
  | .nil, ctx => (ctx, [])
  | .cons item cs, ctx =>
      match item with
      | .measure num mcs =>
          let (ctx', rest) := collectVoiceMeasures cs ctx
          (ctx', (num, mcs) :: rest)
      | .timeSignature t => collectVoiceMeasures cs { ctx with current_time_signature := t }
      | .tempoMark t => collectVoiceMeasures cs { ctx with current_tempo := some t }
      | _ => collectVoiceMeasures cs ctx

/-- The measure loop of `_validate_voice`, with 1-based enumeration. -/
def validateVoiceMeasures (strict : Bool) :
    List (Option Int × Contents) → Int → VCtx → Except SemErr VCtx
  | [], _, ctx => .ok ctx
  | (num, mcs) :: rest, i, ctx => do
      let ctx := { ctx with current_measure := pyOrInt num (some i) }
      let ctx ← validateMeasure strict num mcs ctx
      validateVoiceMeasures strict rest (i + 1) ctx

/-- Voice validation (`SemanticAnalyzer._validate_voice`). -/
def validateVoice (strict : Bool) (number : Int) (cs : Contents) (ctx : VCtx) :
    Except SemErr VCtx :=
  let ctx := { ctx with current_voice := some number }
  let (ctx, ms) := collectVoiceMeasures cs ctx
  validateVoiceMeasures strict ms 1 ctx

/-- The collection loop of `SemanticAnalyzer._validate_staff`: voices and
direct measures are collected while directives update the context and
instrument changes are validated inline. -/
def collectStaffItems : List StaffItem → VCtx →
    VCtx × List (Int × Contents) × List (Option Int × Contents)
  | [], ctx => (ctx, [], [])
  | .voice n cs :: rest, ctx =>
      let (ctx', vs, ms) := collectStaffItems rest ctx
      (ctx', (n, cs) :: vs, ms)
  | .item c :: rest, ctx =>
      match c with
      | .measure num mcs =>
          let (ctx', vs, ms) := collectStaffItems rest ctx
          (ctx', vs, (num, mcs) :: ms)
      | .timeSignature t => collectStaffItems rest { ctx with current_time_signature := t }
      | .tempoMark t => collectStaffItems rest { ctx with current_tempo := some t }
      | .keySignature k => collectStaffItems rest { ctx with current_key := some k }
      | .instrumentChange i => collectStaffItems rest (validateInstrument i.instrument ctx)
      | _ => collectStaffItems rest ctx

/-- The voice loop of `_validate_staff`. -/
def validateVoices (strict : Bool) : List (Int × Contents) → VCtx → Except SemErr VCtx
  | [], ctx => .ok ctx
  | (n, cs) :: rest, ctx => do
      let ctx ← validateVoice strict n cs ctx
      validateVoices strict rest ctx

/-- The direct-measure loop of `_validate_staff` (validated as voice 1 with
1-based measure numbering). -/
def validateDirectMeasures (strict : Bool) :
    List (Option Int × Contents) → Int → VCtx → Except SemErr VCtx
  | [], _, ctx => .ok ctx
  | (num, mcs) :: rest, i, ctx => do
      let ctx := { ctx with current_measure := some i }
      let ctx ← validateMeasure strict num mcs ctx
      validateDirectMeasures strict rest (i + 1) ctx

/-- Total duration of a voice's measures, as `_validate_voice_alignment`
computes it. -/
def voiceTotal : Contents → Q
  | .nil => 0
  | .cons (.measure _ mcs) rest => getItemDurationList mcs 1 + voiceTotal rest
  | .cons _ rest => voiceTotal rest

/-- The per-voice loop of `_validate_voice_alignment`. -/
def voiceAlignmentLoop : List (Int × Contents) → VCtx → List (Int × Q) →
    VCtx × List (Int × Q)
  | [], ctx, acc => (ctx, acc)
  | (n, cs) :: rest, ctx, acc =>
      voiceAlignmentLoop rest { ctx with current_voice := some n } (alistInsert n (voiceTotal cs) acc)

/-- Voice alignment check (`SemanticAnalyzer._validate_voice_alignment`):
differing totals warn. -/
def validateVoiceAlignment (voices : List (Int × Contents)) (ctx : VCtx) : VCtx :=
  let (ctx, durs) := voiceAlignmentLoop voices ctx []
  match durs with
  | [] => ctx
  | (_, d0) :: _ =>
      if durs.all fun p => decide (p.2 = d0) then ctx
      else addWarning ctx (.voiceDurationsDiffer ctx.current_staff durs)

/-- Staff validation (`SemanticAnalyzer._validate_staff`). -/
def validateStaff (strict : Bool) (st : Staff) (ctx : VCtx) : Except SemErr VCtx := do
  let ctx := { ctx with current_staff := some st.name }
  let ctx :=
    match st.instrument with
    | some i => validateInstrument i ctx
    | none => ctx
  let (ctx, voices, dms) := collectStaffItems st.contents ctx
  let ctx ← validateVoices strict voices ctx
  let ctx ←
    match dms with
    | [] => pure ctx
    | _ => validateDirectMeasures strict dms 1 { ctx with current_voice := some 1 }
  let ctx := if voices.length > 1 then validateVoiceAlignment voices ctx else ctx
  pure ctx

/-- The staff loop of `SemanticAnalyzer.analyze`. -/
def analyzeStaves (strict : Bool) : List Staff → VCtx → Except SemErr VCtx
  | [], ctx => .ok ctx
  | st :: rest, ctx => do
      let ctx ← validateStaff strict st ctx
      analyzeStaves strict rest ctx

/-- The unresolved-tie loop at the end of `SemanticAnalyzer.analyze`. -/
def unresolvedTiesLoop (strict : Bool) :
    List ((Option String × Option Int × Int) × Pitch) → VCtx → Except SemErr VCtx
  | [], ctx => .ok ctx
  | (key, pitch) :: rest, ctx => do
      let ctx ← addError strict ctx (.unresolvedTie pitch key.1 key.2.1)
      unresolvedTiesLoop strict rest ctx

/-- The context `SemanticAnalyzer.analyze` builds before walking the staves:
score-level time signature, tempo and key directives applied to a fresh
context. -/
def analyzeInit (score : Score) : VCtx :=
  let ctx : VCtx := {}
  let ctx :=
    match score.time_signature with
    | some t => { ctx with current_time_signature := t }
    | none => ctx
  let ctx :=
    match score.tempo with
    | some t => { ctx with current_tempo := some t }
    | none => ctx
  match score.key_signature with
  | some k => { ctx with current_key := some k }
  | none => ctx

/-- The final raise of `SemanticAnalyzer.analyze`: only a strict run with a
non-empty error report raises (a non-strict run returns the report). -/
def analyzeFinish (strict : Bool) (ctx : VCtx) : Except SemErr VCtx :=
  match strict, ctx.errors with
  | true, e :: _ => .error e
  | _, _ => .ok ctx

/-- Whole-score analysis (`SemanticAnalyzer.analyze`).  In strict mode the
first error short-circuits via `.error`; non-strict mode only collects. -/
def analyze (strict : Bool) (score : Score) : Except SemErr VCtx := do
  let ctx ← analyzeStaves strict score.staves (analyzeInit score)
  let ctx ← unresolvedTiesLoop strict ctx.pending_ties ctx
  analyzeFinish strict ctx

/-! ## Event compiler (`clef/engine/compiler.py`) -/

/-- The General MIDI program table `GM_INSTRUMENTS`. -/
def gmInstruments : List (String × Nat) :=
  [("piano", 0), ("acoustic_grand_piano", 0), ("bright_acoustic_piano", 1),
   ("electric_grand_piano", 2), ("honky_tonk_piano", 3), ("electric_piano_1", 4),
   ("electric_piano_2", 5), ("harpsichord", 6), ("clavinet", 7),
   ("celesta", 8), ("glockenspiel", 9), ("music_box", 10),
   ("vibraphone", 11), ("marimba", 12), ("xylophone", 13),
   ("tubular_bells", 14), ("dulcimer", 15), ("drawbar_organ", 16),
   ("percussive_organ", 17), ("rock_organ", 18), ("church_organ", 19),
   ("organ", 19), ("reed_organ", 20), ("accordion", 21),
   ("harmonica", 22), ("tango_accordion", 23), ("acoustic_guitar_nylon", 24),
   ("acoustic_guitar_steel", 25), ("electric_guitar_jazz", 26), ("electric_guitar_clean", 27),
   ("electric_guitar_muted", 28), ("overdriven_guitar", 29), ("distortion_guitar", 30),
   ("guitar_harmonics", 31), ("guitar", 25), ("acoustic_bass", 32),
   ("electric_bass_finger", 33), ("electric_bass_pick", 34), ("fretless_bass", 35),
   ("slap_bass_1", 36), ("slap_bass_2", 37), ("synth_bass_1", 38),
   ("synth_bass_2", 39), ("bass", 33), ("violin", 40),
   ("viola", 41), ("cello", 42), ("contrabass", 43),
   ("tremolo_strings", 44), ("pizzicato_strings", 45), ("orchestral_harp", 46),
   ("timpani", 47), ("string_ensemble_1", 48), ("string_ensemble_2", 49),
   ("synth_strings_1", 50), ("synth_strings_2", 51), ("choir_aahs", 52),
   ("voice_oohs", 53), ("synth_choir", 54), ("orchestra_hit", 55),
   ("strings", 48), ("choir", 52), ("trumpet", 56),
   ("trombone", 57), ("tuba", 58), ("muted_trumpet", 59),
   ("french_horn", 60), ("brass_section", 61), ("synth_brass_1", 62),
   ("synth_brass_2", 63), ("brass", 61), ("soprano_sax", 64),
   ("alto_sax", 65), ("tenor_sax", 66), ("baritone_sax", 67),
   ("oboe", 68), ("english_horn", 69), ("bassoon", 70),
   ("clarinet", 71), ("piccolo", 72), ("flute", 73),
   ("recorder", 74), ("pan_flute", 75), ("blown_bottle", 76),
   ("shakuhachi", 77), ("whistle", 78), ("ocarina", 79),
   ("woodwinds", 73), ("lead_square", 80), ("lead_sawtooth", 81),
   ("lead_calliope", 82), ("lead_chiff", 83), ("lead_charang", 84),
   ("lead_voice", 85), ("lead_fifths", 86), ("lead_bass", 87),
   ("synth", 81), ("pad_new_age", 88), ("pad_warm", 89),
   ("pad_polysynth", 90), ("pad_choir", 91), ("pad_bowed", 92),
   ("pad_metallic", 93), ("pad_halo", 94), ("pad_sweep", 95),
   ("fx_rain", 96), ("fx_soundtrack", 97), ("fx_crystal", 98),
   ("fx_atmosphere", 99), ("fx_brightness", 100), ("fx_goblins", 101),
   ("fx_echoes", 102), ("fx_sci_fi", 103), ("sitar", 104),
   ("banjo", 105), ("shamisen", 106), ("koto", 107),
   ("kalimba", 108), ("bagpipe", 109), ("fiddle", 110),
   ("shanai", 111), ("tinkle_bell", 112), ("agogo", 113),
   ("steel_drums", 114), ("woodblock", 115), ("taiko_drum", 116),
   ("melodic_tom", 117), ("synth_drum", 118), ("reverse_cymbal", 119),
   ("drums", 118), ("percussion", 47), ("guitar_fret_noise", 120),
   ("breath_noise", 121), ("seashore", 122), ("bird_tweet", 123),
   ("telephone_ring", 124), ("helicopter", 125), ("applause", 126),
   ("gunshot", 127)]

/-- `GM_INSTRUMENTS.get(name.lower(), 0)`. -/
def gmProgram (name : String) : Nat :=
  (alistLookup name.toLower gmInstruments).getD 0

/-- The compiler context (`CompilerContext`). -/
structure CompCtx where
  current_time : Q := 0
  staff_id : String := ""
  voice_id : Int := 1
  channel : Nat := 0
  tempo : Int := 120
  time_signature : Int × Int := (4, 4)
  current_velocity : Nat := 80
  pending_ties : List ((String × Int × Int) × NoteEv) := []
  next_channel : Nat := 0
  staff_channels : List (String × Nat) := []
  channel_programs : List (Nat × Nat) := []
deriving DecidableEq

/-- The full compiler state: context plus the graph being built
(`EventCompiler.ctx` and `EventCompiler.graph`). -/
structure CompState where
  ctx : CompCtx := {}
  graph : EventGraph := {}
deriving DecidableEq

/-- Apply an update to the context part of the state. -/
def CompState.withCtx (s : CompState) (f : CompCtx → CompCtx) : CompState :=
  { s with ctx := f s.ctx }

/-- Append an event to the graph (`self.graph.add`). -/
def CompState.emit (s : CompState) (e : Event) : CompState :=
  { s with graph := s.graph.add e }

/-- Channel allocation (`EventCompiler._allocate_channel`): sequential from
`next_channel`, skipping 9, persistent per staff name. -/
def allocateChannel (staff_id : String) (s : CompState) : Nat × CompState :=
  match alistLookup staff_id s.ctx.staff_channels with
  | some c => (c, s)
  | none =>
      let channel := if s.ctx.next_channel = 9 then 10 else s.ctx.next_channel
      (channel, s.withCtx fun c =>
        { c with staff_channels := alistInsert staff_id channel c.staff_channels,
                 next_channel := channel + 1 })

/-- The frozenset of lower-cased articulation names built in `_compile_note`
and `_compile_chord`, embedded as a duplicate-free list. -/
def artFlags (l : List ArticulationType) : List String :=
  (l.map ArticulationType.lower_name).eraseDups

/-- The grace-note loop of `_compile_note`: each grace note is emitted at the
running offset with duration `grace_unit` and the current velocity. -/
def compileGraceLoop (grace_unit : Q) : List GraceNote → Q → CompState → CompState × Q
  | [], gd, s => (s, gd)
  | g :: rest, gd, s =>
      let ev : NoteEv :=
        { start_time := s.ctx.current_time + gd
          staff_id := s.ctx.staff_id
          voice_id := s.ctx.voice_id
          midi_note := g.pitch.midi_number
          duration := grace_unit
          velocity := s.ctx.current_velocity
          channel := s.ctx.channel }
      compileGraceLoop grace_unit rest (gd + grace_unit) (s.emit (.note ev))

/-- The alternating-note loop of the trill branch of
`EventCompiler._apply_ornament`: 8 events of duration `unit` starting at
`pos`, alternating main and auxiliary MIDI. -/
def trillEmit (main aux : Int) (unit : Q) : Nat → Nat → Q → CompState → CompState
  | _, 0, _, s => s
  | i, r + 1, pos, s =>
      let pitch := if i % 2 = 0 then main else aux
      let s := s.emit (.note
        { start_time := pos
          staff_id := s.ctx.staff_id
          voice_id := s.ctx.voice_id
          midi_note := pitch
          duration := unit
          velocity := s.ctx.current_velocity
          channel := s.ctx.channel })
      trillEmit main aux unit (i + 1) r (pos + unit) s

/-- Ornament expansion (`EventCompiler._apply_ornament`).  Note that it runs
before `_compile_note` advances `current_time`, so `current_time - duration`
is one full duration before the note's start. -/
def applyOrnament (ornament : Ornament) (note : Note) (duration : Q) (s : CompState) :
    CompState :=
  if ornament.type = OrnamentType.trill then
    let trill_note :=
      match ornament with
      | .trill (some aux) => aux.midi_number
      | _ => note.pitch.midi_number + 2
    let trill_unit := duration / Q.ofInt 8
    let current_pos := s.ctx.current_time - duration
    let main_note := note.pitch.midi_number
    trillEmit main_note trill_note trill_unit 0 8 current_pos s
  else if ornament.type = OrnamentType.mordent then
    let mordent_unit := duration / Q.ofInt 8
    let main_note := note.pitch.midi_number
    let upper_note := main_note + 2
    let start := s.ctx.current_time - duration
    let s := s.emit (.note
      { start_time := start
        staff_id := s.ctx.staff_id
        voice_id := s.ctx.voice_id
        midi_note := main_note
        duration := mordent_unit
        velocity := s.ctx.current_velocity
        channel := s.ctx.channel })
    s.emit (.note
      { start_time := start + mordent_unit
        staff_id := s.ctx.staff_id
        voice_id := s.ctx.voice_id
        midi_note := upper_note
        duration := mordent_unit
        velocity := s.ctx.current_velocity
        channel := s.ctx.channel })
  else if ornament.type = OrnamentType.turn then
    let turn_unit := duration / Q.ofInt 4
    let main_note := note.pitch.midi_number
    let upper_note := main_note + 2
    let lower_note := main_note - 2
    let start := s.ctx.current_time - duration
    let emitTurn := fun (s : CompState) (i : Nat) (pitch : Int) =>
      s.emit (.note
        { start_time := start + turn_unit * Q.ofInt i
          staff_id := s.ctx.staff_id
          voice_id := s.ctx.voice_id
          midi_note := pitch
          duration := turn_unit
          velocity := s.ctx.current_velocity
          channel := s.ctx.channel })
    let s := emitTurn s 0 upper_note
    let s := emitTurn s 1 main_note
    let s := emitTurn s 2 lower_note
    emitTurn s 3 main_note
  else s

/-- The ornament loop at the end of `_compile_note`. -/
def compileOrnaments (note : Note) (duration : Q) : List Ornament → CompState → CompState
  | [], s => s
  | o :: rest, s => compileOrnaments note duration rest (applyOrnament o note duration s)

/-- Note compilation (`EventCompiler._compile_note`): grace notes, tie
fusion via the pending-ties map, ornaments, then the cursor advances. -/
def compileNote (note : Note) (tr : Q) (s : CompState) : CompState × Q :=
  let duration := note.duration.total_value * tr
  let midi_note := note.pitch.midi_number
  let grace_unit := duration * Q.frac 1 8
  let (s, grace_duration) := compileGraceLoop grace_unit note.grace_notes 0 s
  let articulation_flags := artFlags note.articulations
  let tie_key := (s.ctx.staff_id, s.ctx.voice_id, midi_note)
  let s :=
    match alistLookup tie_key s.ctx.pending_ties with
    | some prev_event =>
        let s := s.withCtx fun c => { c with pending_ties := alistErase tie_key c.pending_ties }
        let extended : NoteEv :=
          { start_time := prev_event.start_time
            staff_id := prev_event.staff_id
            voice_id := prev_event.voice_id
            midi_note := prev_event.midi_note
            duration := prev_event.duration + duration
            velocity := prev_event.velocity
            articulations := prev_event.articulations
            is_tied_from := prev_event.is_tied_from
            is_tied_to := note.tied
            channel := prev_event.channel }
        let s := { s with graph :=
          { s.graph with events := s.graph.events.filter fun e => e ≠ Event.note prev_event } }
        let s := s.emit (.note extended)
        if note.tied then
          s.withCtx fun c => { c with pending_ties := alistInsert tie_key extended c.pending_ties }
        else s
    | none =>
        let event : NoteEv :=
          { start_time := s.ctx.current_time + grace_duration
            staff_id := s.ctx.staff_id
            voice_id := s.ctx.voice_id
            midi_note := midi_note
            duration := duration - grace_duration
            velocity := s.ctx.current_velocity
            articulations := articulation_flags
            is_tied_from := false
            is_tied_to := note.tied
            channel := s.ctx.channel }
        let s := s.emit (.note event)
        if note.tied then
          s.withCtx fun c => { c with pending_ties := alistInsert tie_key event c.pending_ties }
        else s
  let s := compileOrnaments note duration note.ornaments s
  (s.withCtx fun c => { c with current_time := c.current_time + duration }, duration)

/-- The per-pitch loop of `EventCompiler._compile_chord`, with the same tie
fusion as notes; grace notes are never consulted. -/
def compileChordPitches (duration : Q) (tied : Bool) (arts : List String) :
    List Pitch → CompState → CompState
  | [], s => s
  | pitch :: rest, s =>
      let midi_note := pitch.midi_number
      let tie_key := (s.ctx.staff_id, s.ctx.voice_id, midi_note)
      let s :=
        match alistLookup tie_key s.ctx.pending_ties with
        | some prev_event =>
            let s := s.withCtx fun c => { c with pending_ties := alistErase tie_key c.pending_ties }
            let extended : NoteEv :=
              { start_time := prev_event.start_time
                staff_id := prev_event.staff_id
                voice_id := prev_event.voice_id
                midi_note := prev_event.midi_note
                duration := prev_event.duration + duration
                velocity := prev_event.velocity
                articulations := prev_event.articulations
                is_tied_from := prev_event.is_tied_from
                is_tied_to := tied
                channel := prev_event.channel }
            let s := { s with graph :=
              { s.graph with events := s.graph.events.filter fun e => e ≠ Event.note prev_event } }
            let s := s.emit (.note extended)
            if tied then
              s.withCtx fun c =>
                { c with pending_ties := alistInsert tie_key extended c.pending_ties }
            else s
        | none =>
            let event : NoteEv :=
              { start_time := s.ctx.current_time
                staff_id := s.ctx.staff_id
                voice_id := s.ctx.voice_id
                midi_note := midi_note
                duration := duration
                velocity := s.ctx.current_velocity
                articulations := arts
                is_tied_from := false
                is_tied_to := tied
                channel := s.ctx.channel }
            let s := s.emit (.note event)
            if tied then
              s.withCtx fun c => { c with pending_ties := alistInsert tie_key event c.pending_ties }
            else s
      compileChordPitches duration tied arts rest s

/-- Chord compilation (`EventCompiler._compile_chord`). -/
def compileChord (chord : Chord) (tr : Q) (s : CompState) : CompState × Q :=
  let duration := chord.duration.total_value * tr
  let articulation_flags := artFlags chord.articulations
  let s := compileChordPitches duration chord.tied articulation_flags chord.pitches s
  (s.withCtx fun c => { c with current_time := c.current_time + duration }, duration)

/-- Rest compilation (`EventCompiler._compile_rest`). -/
def compileRest (rest : Rest) (tr : Q) (s : CompState) : CompState × Q :=
  let duration := rest.duration.total_value * tr
  let s := s.emit (.rest
    { start_time := s.ctx.current_time
      staff_id := s.ctx.staff_id
      voice_id := s.ctx.voice_id
      duration := duration })
  (s.withCtx fun c => { c with current_time := c.current_time + duration }, duration)

/-- Dynamic compilation (`EventCompiler._compile_dynamic`): updates the
running velocity and emits a `DynamicEvent`; consumes no time. -/
def compileDynamic (dynamic : Dynamic) (s : CompState) : CompState × Q :=
  let s := s.withCtx fun c => { c with current_velocity := dynamic.velocity }
  let s := s.emit (.dynamic
    { start_time := s.ctx.current_time
      staff_id := s.ctx.staff_id
      voice_id := s.ctx.voice_id
      marking := dynamic.marking
      velocity := dynamic.velocity })
  (s, 0)

/-- Hairpin compilation (`EventCompiler._compile_hairpin`). -/
def compileHairpin (hairpin : Hairpin) (s : CompState) : CompState × Q :=
  let target :=
    match hairpin.type with
    | .crescendo => min 127 (s.ctx.current_velocity + 30)
    | _ => max 20 (s.ctx.current_velocity - 30)
  let s := s.emit (.dynamic
    { start_time := s.ctx.current_time
      staff_id := s.ctx.staff_id
      voice_id := s.ctx.voice_id
      marking := hairpin.type.lower_name
      velocity := s.ctx.current_velocity
      is_hairpin := true
      hairpin_duration := some hairpin.duration
      target_velocity := some target })
  (s, 0)

/-- Pedal compilation (`EventCompiler._compile_pedal`): `PedalEvent.down`
has value 127, `PedalEvent.up` value 0, and a change is up then down. -/
def compilePedal (pedal : Pedal) (s : CompState) : CompState × Q :=
  let up : PedalEv :=
    { start_time := s.ctx.current_time
      staff_id := s.ctx.staff_id
      voice_id := s.ctx.voice_id
      value := 0 }
  let down : PedalEv := { up with value := 127 }
  match pedal.type with
  | .down => (s.emit (.pedal down), 0)
  | .up => (s.emit (.pedal up), 0)
  | .change => ((s.emit (.pedal up)).emit (.pedal down), 0)

/-- Tempo change compilation (`EventCompiler._compile_tempo`). -/
def compileTempo (tempo : TempoMark) (s : CompState) : CompState × Q :=
  let s := s.withCtx fun c => { c with tempo := tempo.bpm }
  let s := s.emit (.tempo
    { start_time := s.ctx.current_time
      staff_id := s.ctx.staff_id
      voice_id := s.ctx.voice_id
      bpm := tempo.bpm })
  (s, 0)

/-- Time signature change compilation (`EventCompiler._compile_time_signature`). -/
def compileTimeSignature (time_sig : TimeSignature) (s : CompState) : CompState × Q :=
  let s := s.withCtx fun c => { c with time_signature := (time_sig.numerator, time_sig.denominator) }
  let s := s.emit (.timeSignature
    { start_time := s.ctx.current_time
      staff_id := s.ctx.staff_id
      voice_id := s.ctx.voice_id
      numerator := time_sig.numerator
      denominator := time_sig.denominator })
  (s, 0)

/-- Instrument change compilation (`EventCompiler._compile_instrument_change`). -/
def compileInstrumentChange (change : InstrumentChange) (s : CompState) : CompState × Q :=
  let program := gmProgram change.instrument
  let s := s.withCtx fun c =>
    { c with channel_programs := alistInsert c.channel program c.channel_programs }
  let s := s.emit (.programChange
    { start_time := s.ctx.current_time
      staff_id := s.ctx.staff_id
      voice_id := s.ctx.voice_id
      program := program
      channel := s.ctx.channel })
  (s, 0)

mutual

/-- Content dispatch (`EventCompiler._compile_content`), returning the
duration consumed.  The `_compile_measure` body (sequential branch),
`_compile_tuplet` and `_compile_slur` are inlined here so that the mutual
recursion is structural: a measure compiles its items at the default ratio
1 and consumes the cursor movement; a tuplet multiplies the enclosing ratio
by `ratio()` and sums its contents' durations; a slur sums its contents'
durations at the enclosing ratio. -/
def compileContent (item : Content) (tr : Q) (s : CompState) : CompState × Q :=
  match item with
  | .measure _ cs =>
      let start := s.ctx.current_time
      let s := compileMeasureItems cs s
      (s, s.ctx.current_time - start)
  | .note n => compileNote n tr s
  | .chord c => compileChord c tr s
  | .rest r => compileRest r tr s
  | .tuplet actual normal cs => compileTupletItems cs (tupletScale normal actual * tr) 0 s
  | .slur cs => compileSlurItems cs tr 0 s
  | .dynamic d => compileDynamic d s
  | .hairpin h => compileHairpin h s
  | .pedal p => compilePedal p s
  | .tempoMark t => compileTempo t s
  | .timeSignature t => compileTimeSignature t s
  | .instrumentChange i => compileInstrumentChange i s
  | .keySignature _ => (s, 0)

/-- The item loop of the sequential branch of `_compile_measure`. -/
def compileMeasureItems (cs : Contents) (s : CompState) : CompState :=
  match cs with
  | .nil => s
  | .cons item rest => compileMeasureItems rest (compileContent item 1 s).1

/-- The content loop of `_compile_tuplet` at inner ratio `inner`. -/
def compileTupletItems (cs : Contents) (inner : Q) (total : Q) (s : CompState) :
    CompState × Q :=
  match cs with
  | .nil => (s, total)
  | .cons item rest =>
      let (s, d) := compileContent item inner s
      compileTupletItems rest inner (total + d) s

/-- The content loop of `_compile_slur` at the enclosing ratio `tr`. -/
def compileSlurItems (cs : Contents) (tr : Q) (total : Q) (s : CompState) : CompState × Q :=
  match cs with
  | .nil => (s, total)
  | .cons item rest =>
      let (s, d) := compileContent item tr s
      compileSlurItems rest tr (total + d) s

end

/-- Voice compilation (`EventCompiler._compile_voice`): sets the voice id,
resets the cursor to zero and compiles the contents. -/
def compileVoiceItems (cs : Contents) (s : CompState) : CompState :=
  match cs with
  | .nil => s
  | .cons item rest => compileVoiceItems rest (compileContent item 1 s).1

/-- The direct-content loop at the end of `_compile_staff`. -/
def compileDirectItems (items : List Content) (s : CompState) : CompState :=
  match items with
  | [] => s
  | item :: rest => compileDirectItems rest (compileContent item 1 s).1

/-- The voice loop of `_compile_staff`. -/
def compileVoices (voices : List (Int × Contents)) (s : CompState) : CompState :=
  match voices with
  | [] => s
  | (n, cs) :: rest =>
      let s := s.withCtx fun c => { c with voice_id := n, current_time := 0 }
      compileVoices rest (compileVoiceItems cs s)

/-- Split `staff.contents` into voices and direct content, preserving order,
as the partition loop in `_compile_staff` does. -/
def splitStaffContents : List StaffItem → List (Int × Contents) × List Content
  | [] => ([], [])
  | .voice n cs :: rest =>
      let (vs, ds) := splitStaffContents rest
      ((n, cs) :: vs, ds)
  | .item c :: rest =>
      let (vs, ds) := splitStaffContents rest
      (vs, c :: ds)

/-- Staff compilation (`EventCompiler._compile_staff`). -/
def compileStaff (staff : Staff) (s : CompState) : CompState :=
  let (channel, s) := allocateChannel staff.name s
  let s := s.withCtx fun c =>
    { c with staff_id := staff.name, channel := channel, current_time := 0 }
  let s :=
    match staff.instrument with
    | some instr =>
        let program := gmProgram instr
        let s := s.withCtx fun c =>
          { c with channel_programs := alistInsert c.channel program c.channel_programs }
        s.emit (.programChange
          { start_time := 0
            staff_id := staff.name
            voice_id := 0
            program := program
            channel := s.ctx.channel })
    | none => s
  let (voices, direct) := splitStaffContents staff.contents
  let s := compileVoices voices s
  match direct with
  | [] => s
  | _ =>
      let s := s.withCtx fun c => { c with voice_id := 1, current_time := 0 }
      compileDirectItems direct s

/-- The staff loop of `EventCompiler.compile`. -/
def compileStaves (staves : List Staff) (s : CompState) : CompState :=
  match staves with
  | [] => s
  | st :: rest => compileStaves rest (compileStaff st s)

/-- Whole-score compilation (`EventCompiler.compile` / `compile_score`):
fresh context and graph, optional initial tempo and time signature events,
each staff in order, then the final sort.  The full compiler state is
returned so that theorems can inspect the context. -/
def compileScoreState (score : Score) : CompState :=
  let s : CompState := {}
  let s :=
    match score.tempo with
    | some t =>
        let s := s.withCtx fun c => { c with tempo := t.bpm }
        let s := { s with graph := { s.graph with initial_tempo := t.bpm } }
        s.emit (.tempo
          { start_time := 0
            staff_id := "__global__"
            voice_id := 0
            bpm := t.bpm })
    | none => s
  let s :=
    match score.time_signature with
    | some t =>
        let s := s.withCtx fun c => { c with time_signature := (t.numerator, t.denominator) }
        let s := { s with graph :=
          { s.graph with initial_time_signature := (t.numerator, t.denominator) } }
        s.emit (.timeSignature
          { start_time := 0
            staff_id := "__global__"
            voice_id := 0
            numerator := t.numerator
            denominator := t.denominator })
    | none => s
  let s := compileStaves score.staves s
  { s with graph := s.graph.sortg }

/-- The event graph a compile returns. -/
def compile_score (score : Score) : EventGraph :=
  (compileScoreState score).graph

/-! ## Basic lemmas about the embedding -/

/-- Convenience constructor for content lists. -/
def Contents.ofList : List Content → Contents
  | [] => .nil
  | c :: cs => .cons c (Contents.ofList cs)

@[simp] theorem CompState.emit_ctx (s : CompState) (e : Event) : (s.emit e).ctx = s.ctx := rfl

@[simp] theorem CompState.emit_events (s : CompState) (e : Event) :
    (s.emit e).graph.events = s.graph.events ++ [e] := rfl

@[simp] theorem CompState.withCtx_ctx (s : CompState) (f : CompCtx → CompCtx) :
    (s.withCtx f).ctx = f s.ctx := rfl

@[simp] theorem CompState.withCtx_graph (s : CompState) (f : CompCtx → CompCtx) :
    (s.withCtx f).graph = s.graph := rfl

@[simp] theorem EventGraph.add_events (g : EventGraph) (e : Event) :
    (g.add e).events = g.events ++ [e] := rfl

theorem totalValueGo_toRat (n : Nat) : ∀ value dot_value : Q,
    Q.toRat (totalValueGo value dot_value n) =
      Q.toRat value + Q.toRat dot_value * (1 - (1 / 2 : ℚ) ^ n) := by
  induction n with
  | zero => intro v dv; simp [totalValueGo]
  | succ n ih =>
      intro v dv
      rw [totalValueGo, ih, Q.toRat_add, Q.toRat_div _ _ (by decide), Q.toRat_ofInt]
      push_cast
      rw [pow_succ]
      ring

/-! ## Claim C9 — dotted duration values -/

set_option maxRecDepth 10000

/-- Claim C9: for every duration with base value `b` and dot count `d`, the
total value `Duration.total_value` equals `b · (2 − 2^(−d))` computed in
exact rationals; in particular a triple-dotted quarter note has total value
`15/32`. -/
theorem c9_duration_total_value :
    (∀ (b : Q) (d : Nat),
        Q.toRat (Duration.total_value { base_value := b, dots := d }) =
          Q.toRat b * (2 - ((2 : ℚ) ^ d)⁻¹)) ∧
      Duration.total_value { base_value := Q.frac 1 4, dots := 3 } = Q.frac 15 32 := by
  constructor
  · intro b d
    show Q.toRat (totalValueGo b b d) = _
    rw [totalValueGo_toRat]
    rw [show ((1 / 2 : ℚ)) = ((2 : ℚ))⁻¹ by norm_num, inv_pow]
    ring
  · decide

/-! ## Claim C7 — tie fusion scenario -/

/-- The scenario S3 score: `measure { C4 h tie } measure { C4 h }` in 4/4,
in a single staff and voice. -/
def tieFusionScore : Score :=
  { staves := [{ name := "piano", contents := [.voice 1 (Contents.ofList
      [.measure none (Contents.ofList
        [.note { pitch := { name := .C, octave := 4 },
                 duration := { base_value := Q.frac 1 2 }, tied := true }]),
       .measure none (Contents.ofList
        [.note { pitch := { name := .C, octave := 4 },
                 duration := { base_value := Q.frac 1 2 } }])])] }],
    time_signature := some { numerator := 4, denominator := 4 } }

/-- Claim C7: compiling a voice consisting of `measure { C4 h tie }
measure { C4 h }` under a 4/4 time signature yields exactly one NoteEvent
for that voice: MIDI 60, start time 0, duration 1 whole note, the pending
tied note having been fused with the second note, which emits no separate
event. -/
theorem c7_tie_fusion :
    (compile_score tieFusionScore).get_note_events =
      [{ start_time := 0, staff_id := "piano", voice_id := 1, midi_note := 60,
         duration := Q.ofInt 1, velocity := 80 }] := by
  decide

/-! ## Claim C8 — pedal state machine -/

/-- Claim C8: the analyzer's pedal state machine over `pedal_down` (initially
up) satisfies, for every marking in every state: DOWN moves to down, warning
exactly when already down; UP from down moves to up with no diagnostic; UP
from up is an error (raised at once in strict mode, collected otherwise)
and leaves the pedal up; CHANGE always results in down and is never an error
or warning. -/
theorem c8_pedal_state_machine :
    (({} : VCtx).pedal_down = false) ∧
    (∀ (strict : Bool) (ctx : VCtx),
        validatePedal strict { type := .down } ctx =
          .ok { ctx with
                warnings := ctx.warnings ++ (if ctx.pedal_down then [.pedalAlreadyDown] else []),
                pedal_down := true }) ∧
    (∀ (strict : Bool) (ctx : VCtx),
        validatePedal strict { type := .up } ctx =
          if ctx.pedal_down then .ok { ctx with pedal_down := false }
          else if strict then .error .pedalUpNotDown
          else .ok { ctx with errors := ctx.errors ++ [.pedalUpNotDown], pedal_down := false }) ∧
    (∀ (strict : Bool) (ctx : VCtx),
        validatePedal strict { type := .change } ctx = .ok { ctx with pedal_down := true }) := by
  refine ⟨rfl, ?_, ?_, ?_⟩
  · intro strict ctx
    by_cases h : ctx.pedal_down <;> simp [validatePedal, addWarning, h]
  · intro strict ctx
    by_cases h : ctx.pedal_down
    · simp [validatePedal, h]
    · cases strict <;> simp [validatePedal, addError, h, Except.bind]
  · intro strict ctx
    rfl

/-! ## Claim C2 — enharmonic tie resolution -/

/-- Well-formedness of the analyzer's pending-ties map: each stored pitch's
MIDI number is the MIDI component of its key.  Every insertion the analyzer
performs has this shape. -/
def TieWF (pending : List ((Option String × Option Int × Int) × Pitch)) : Prop :=
  ∀ kv ∈ pending, kv.2.midi_number = kv.1.2.2

theorem alistLookup_mem [DecidableEq κ] : ∀ (l : List (κ × ν)) (k : κ) (v : ν),
    alistLookup k l = some v → (k, v) ∈ l := by
  intro l
  induction l with
  | nil => intro k v h; simp [alistLookup] at h
  | cons hd tl ih =>
      intro k v h
      obtain ⟨k', v'⟩ := hd
      rw [alistLookup] at h
      by_cases hk : k' = k
      · rw [if_pos hk] at h
        cases h
        subst hk
        exact List.mem_cons_self _ _
      · rw [if_neg hk] at h
        exact List.mem_cons_of_mem _ (ih _ _ h)

theorem mem_alistErase [DecidableEq κ] (k : κ) (l : List (κ × ν)) (kv : κ × ν)
    (h : kv ∈ alistErase k l) : kv ∈ l := by
  induction l with
  | nil => simp [alistErase] at h
  | cons hd tl ih =>
      rw [alistErase] at h
      split at h
      · exact List.mem_cons_of_mem _ h
      · rcases List.mem_cons.mp h with h | h
        · exact h ▸ List.mem_cons_self _ _
        · exact List.mem_cons_of_mem _ (ih h)

theorem mem_alistInsert [DecidableEq κ] (k : κ) (v : ν) (l : List (κ × ν)) (kv : κ × ν)
    (h : kv ∈ alistInsert k v l) : kv = (k, v) ∨ kv ∈ l := by
  induction l with
  | nil => simpa [alistInsert] using h
  | cons hd tl ih =>
      rw [alistInsert] at h
      split at h
      · rcases List.mem_cons.mp h with h | h
        · exact Or.inl h
        · exact Or.inr (List.mem_cons_of_mem _ h)
      · rcases List.mem_cons.mp h with h | h
        · exact Or.inr (h ▸ List.mem_cons_self _ _)
        · rcases ih h with h | h
          · exact Or.inl h
          · exact Or.inr (List.mem_cons_of_mem _ h)

theorem validatePitches_no_error (strict : Bool) (tied : Bool) :
    ∀ (ps : List Pitch) (ctx : VCtx), TieWF ctx.pending_ties →
      ∃ ctx', validatePitches strict tied ps ctx = .ok ctx' ∧
        ctx'.errors = ctx.errors ∧ ctx'.warnings = ctx.warnings ∧ TieWF ctx'.pending_ties := by
  intro ps
  induction ps with
  | nil => intro ctx h; exact ⟨ctx, rfl, rfl, rfl, h⟩
  | cons p ps ih =>
      intro ctx h
      rw [validatePitches]
      rcases hl : alistLookup (ctx.current_staff, ctx.current_voice, p.midi_number)
          ctx.pending_ties with _ | expected
      · -- no pending tie for this key
        simp only [hl]
        by_cases ht : tied
        · have h2 : TieWF (alistInsert (ctx.current_staff, ctx.current_voice, p.midi_number) p
              ctx.pending_ties) := by
            intro kv hkv
            rcases mem_alistInsert _ _ _ _ hkv with rfl | hkv
            · rfl
            · exact h kv hkv
          simpa [ht] using ih _ h2
        · simpa [ht] using ih _ h
      · -- pending tie found: the stored MIDI equals the key's MIDI, so the
        -- enharmonic check always passes
        have hmem : ((ctx.current_staff, ctx.current_voice, p.midi_number), expected) ∈
            ctx.pending_ties := alistLookup_mem _ _ _ hl
        have hm : expected.midi_number = p.midi_number := h _ hmem
        have he : p.enharmonic_equal expected = true := by
          simp [Pitch.enharmonic_equal, hm]
        simp only [hl, he]
        have h2 : TieWF (alistErase (ctx.current_staff, ctx.current_voice, p.midi_number)
            ctx.pending_ties) := fun kv hkv => h kv (mem_alistErase _ _ _ hkv)
        by_cases ht : tied
        · have h3 : TieWF (alistInsert (ctx.current_staff, ctx.current_voice, p.midi_number) p
              (alistErase (ctx.current_staff, ctx.current_voice, p.midi_number)
                ctx.pending_ties)) := by
            intro kv hkv
            rcases mem_alistInsert _ _ _ _ hkv with rfl | hkv
            · rfl
            · exact h2 kv hkv
          simpa [ht] using ih _ h3
        · simpa [ht] using ih _ h2

/-- Claim C2 (amended): a later note or chord pitch whose MIDI number matches
a pending tie always resolves the tie silently, whatever its spelling: the
pending-ties map is keyed by MIDI number and `enharmonic_equal` compares MIDI
numbers, so the tie-resolution error branch is unreachable and
`_validate_note_or_chord` never adds an error or a warning. -/
theorem c2_tie_resolution_never_errs (strict : Bool) (item : Content) (ctx : VCtx)
    (h : TieWF ctx.pending_ties) :
    ∃ ctx', validateNoteOrChord strict item ctx = .ok ctx' ∧
      ctx'.errors = ctx.errors ∧ ctx'.warnings = ctx.warnings ∧ TieWF ctx'.pending_ties := by
  match item with
  | .note n => exact validatePitches_no_error strict n.tied [n.pitch] ctx h
  | .chord c => exact validatePitches_no_error strict c.tied c.pitches ctx h
  | .rest r => exact ⟨ctx, rfl, rfl, rfl, h⟩
  | .tuplet a n cs => exact ⟨ctx, rfl, rfl, rfl, h⟩
  | .slur cs => exact ⟨ctx, rfl, rfl, rfl, h⟩
  | .dynamic d => exact ⟨ctx, rfl, rfl, rfl, h⟩
  | .hairpin hp => exact ⟨ctx, rfl, rfl, rfl, h⟩
  | .pedal p => exact ⟨ctx, rfl, rfl, rfl, h⟩
  | .tempoMark t => exact ⟨ctx, rfl, rfl, rfl, h⟩
  | .timeSignature t => exact ⟨ctx, rfl, rfl, rfl, h⟩
  | .keySignature k => exact ⟨ctx, rfl, rfl, rfl, h⟩
  | .instrumentChange i => exact ⟨ctx, rfl, rfl, rfl, h⟩
  | .measure num cs => exact ⟨ctx, rfl, rfl, rfl, h⟩

/-- The C2 scenario: `C#4 h tie` then `Db4 h` in one 4/4 measure — enharmonic
MIDI 61 with different notational spellings. -/
def enharmonicTieScore : Score :=
  { staves := [{ name := "piano", contents := [.voice 1 (Contents.ofList
      [.measure none (Contents.ofList
        [.note { pitch := { name := .C, octave := 4, accidental := some .sharp },
                 duration := { base_value := Q.frac 1 2 }, tied := true },
         .note { pitch := { name := .D, octave := 4, accidental := some .flat },
                 duration := { base_value := Q.frac 1 2 } }])])] }],
    time_signature := some { numerator := 4, denominator := 4 } }

/-- Claim C2 is false on the code: analyzing `C#4 h tie` followed by `Db4 h`
(same MIDI number, different spelling) reports no error at all, in either
mode, where the claim demands a tie-resolution error. -/
theorem c2_counterexample :
    (analyze false enharmonicTieScore).toOption.map VCtx.errors = some [] ∧
    (analyze true enharmonicTieScore).toOption.map VCtx.errors = some [] := by
  decide

/-- A context with a pending tie on C#4 (MIDI 61) in staff piano, voice 1. -/
def c2WitnessCtx : VCtx :=
  { current_staff := some "piano", current_voice := some 1,
    pending_ties := [((some "piano", some 1, 61),
      { name := .C, octave := 4, accidental := some .sharp })] }

/-- The Db4 quarter note that resolves the C#4 tie with a different spelling. -/
def c2WitnessItem : Content :=
  .note { pitch := { name := .D, octave := 4, accidental := some .flat },
          duration := { base_value := Q.frac 1 4 } }

/-! ## Claim C6 — event graph ordering -/

theorem keyLE_iff (a b : Q × Nat) :
    keyLE a b = true ↔
      (Q.toRat a.1 < Q.toRat b.1 ∨ (Q.toRat a.1 = Q.toRat b.1 ∧ a.2 ≤ b.2)) := by
  rw [keyLE]
  by_cases h : Q.beq a.1 b.1 = true
  · rw [if_pos h, decide_eq_true_iff]
    have he := (Q.beq_iff_toRat a.1 b.1).mp h
    constructor
    · intro hle; exact Or.inr ⟨he, hle⟩
    · rintro (hlt | ⟨_, hle⟩)
      · exact absurd he (ne_of_lt hlt)
      · exact hle
  · rw [if_neg h, Q.blt_iff_toRat]
    have hne : Q.toRat a.1 ≠ Q.toRat b.1 := fun hh => h ((Q.beq_iff_toRat _ _).mpr hh)
    constructor
    · intro hlt; exact Or.inl hlt
    · rintro (hlt | ⟨heq, _⟩)
      · exact hlt
      · exact absurd heq hne

theorem keyEq_iff (a b : Q × Nat) :
    keyEq a b = true ↔ (Q.toRat a.1 = Q.toRat b.1 ∧ a.2 = b.2) := by
  rw [keyEq, Bool.and_eq_true, decide_eq_true_iff, Q.beq_iff_toRat]

theorem keyLE_total (a b : Q × Nat) : keyLE a b = true ∨ keyLE b a = true := by
  rw [keyLE_iff, keyLE_iff]
  rcases lt_trichotomy (Q.toRat a.1) (Q.toRat b.1) with h | h | h
  · exact Or.inl (Or.inl h)
  · rcases Nat.le_total a.2 b.2 with h2 | h2
    · exact Or.inl (Or.inr ⟨h, h2⟩)
    · exact Or.inr (Or.inr ⟨h.symm, h2⟩)
  · exact Or.inr (Or.inl h)

theorem keyLE_trans {a b c : Q × Nat} (h1 : keyLE a b = true) (h2 : keyLE b c = true) :
    keyLE a c = true := by
  rw [keyLE_iff] at h1 h2 ⊢
  rcases h1 with h1 | ⟨h1e, h1le⟩ <;> rcases h2 with h2 | ⟨h2e, h2le⟩
  · exact Or.inl (lt_trans h1 h2)
  · exact Or.inl (h2e ▸ h1)
  · exact Or.inl (h1e ▸ h2)
  · exact Or.inr ⟨h1e.trans h2e, le_trans h1le h2le⟩

theorem keyLE_of_keyEq {a b : Q × Nat} (h : keyEq a b = true) : keyLE a b = true := by
  rw [keyEq_iff] at h
  rw [keyLE_iff]
  exact Or.inr ⟨h.1, Nat.le_of_eq h.2⟩

theorem keyEq_symm {a b : Q × Nat} (h : keyEq a b = true) : keyEq b a = true := by
  rw [keyEq_iff] at h ⊢
  exact ⟨h.1.symm, h.2.symm⟩

theorem keyEq_trans {a b c : Q × Nat} (h1 : keyEq a b = true) (h2 : keyEq b c = true) :
    keyEq a c = true := by
  rw [keyEq_iff] at h1 h2 ⊢
  exact ⟨h1.1.trans h2.1, h1.2.trans h2.2⟩

theorem keyLE_congr_right {x y e : Q × Nat} (hy : keyEq y e = true) (h : keyLE x y = true) :
    keyLE x e = true :=
  keyLE_trans h (keyLE_of_keyEq hy)

/-- The sortedness the claim asserts: adjacent (hence all) pairs are
nondecreasing in `(start_time, priority)`. -/
def SortedK (l : List Event) : Prop :=
  List.Pairwise (fun a b => keyLE (sortKey a) (sortKey b) = true) l

theorem mem_insertEv (e : Event) : ∀ (l : List Event) (x : Event),
    x ∈ insertEv e l ↔ x = e ∨ x ∈ l := by
  intro l
  induction l with
  | nil => intro x; simp [insertEv]
  | cons y ys ih =>
      intro x
      rw [insertEv]
      split
      · rw [List.mem_cons, ih]
        constructor
        · rintro (rfl | h | h)
          · exact Or.inr (List.mem_cons_self _ _)
          · exact Or.inl h
          · exact Or.inr (List.mem_cons_of_mem _ h)
        · rintro (rfl | h)
          · exact Or.inr (Or.inl rfl)
          · rcases List.mem_cons.mp h with rfl | h
            · exact Or.inl rfl
            · exact Or.inr (Or.inr h)
      · rw [List.mem_cons]

theorem sortedK_insertEv (e : Event) : ∀ l, SortedK l → SortedK (insertEv e l) := by
  intro l
  induction l with
  | nil => intro _; exact List.pairwise_singleton _ _
  | cons x xs ih =>
      intro h
      rw [SortedK, List.pairwise_cons] at h
      obtain ⟨hx, hxs⟩ := h
      rw [insertEv]
      by_cases hc : keyLE (sortKey x) (sortKey e) = true
      · rw [if_pos hc, SortedK, List.pairwise_cons]
        refine ⟨?_, ih hxs⟩
        intro y hy
        rcases (mem_insertEv e xs y).mp hy with rfl | hy
        · exact hc
        · exact hx y hy
      · rw [if_neg hc, SortedK, List.pairwise_cons]
        refine ⟨?_, List.Pairwise.cons hx hxs⟩
        intro y hy
        rcases List.mem_cons.mp hy with rfl | hy
        · exact (keyLE_total _ _).resolve_left hc
        · exact keyLE_trans ((keyLE_total _ _).resolve_left hc) (hx y hy)

theorem sortedK_sortAux : ∀ (pending acc : List Event),
    SortedK acc → SortedK (sortEventsAux acc pending) := by
  intro pending
  induction pending with
  | nil => intro acc h; exact h
  | cons e es ih => intro acc h; exact ih _ (sortedK_insertEv e acc h)

theorem filter_insertEv (k : Q × Nat) (e : Event) : ∀ l, SortedK l →
    (insertEv e l).filter (fun x => keyEq (sortKey x) k) =
      l.filter (fun x => keyEq (sortKey x) k) ++
        (if keyEq (sortKey e) k then [e] else []) := by
  intro l
  induction l with
  | nil =>
      intro _
      rw [insertEv]
      simp only [List.filter, List.nil_append]
      cases h : keyEq (sortKey e) k <;> simp [h]
  | cons x xs ih =>
      intro h
      rw [SortedK, List.pairwise_cons] at h
      obtain ⟨hx, hxs⟩ := h
      rw [insertEv]
      by_cases hc : keyLE (sortKey x) (sortKey e) = true
      · rw [if_pos hc, List.filter_cons, List.filter_cons]
        rw [ih hxs]
        cases hxk : keyEq (sortKey x) k <;> simp
      · rw [if_neg hc]
        by_cases hek : keyEq (sortKey e) k = true
        · have hnone : ∀ y ∈ x :: xs, ¬ (keyEq (sortKey y) k = true) := by
            intro y hy hyk
            have hye : keyEq (sortKey y) (sortKey e) = true :=
              keyEq_trans hyk (keyEq_symm hek)
            rcases List.mem_cons.mp hy with rfl | hymem
            · exact hc (keyLE_of_keyEq hye)
            · exact hc (keyLE_congr_right hye (hx y hymem))
          have hfil : (x :: xs).filter (fun y => keyEq (sortKey y) k) = [] := by
            rw [List.filter_eq_nil_iff]
            intro a ha
            exact fun hcon => hnone a ha hcon
          rw [List.filter_cons, if_pos hek, hfil, if_pos hek]
          simp
        · have hek' : keyEq (sortKey e) k = false := by
            cases hkk : keyEq (sortKey e) k
            · rfl
            · exact absurd hkk hek
          rw [List.filter_cons, hek']
          simp only [Bool.false_eq_true, if_false, if_neg hek, List.append_nil]

theorem filter_sortAux (k : Q × Nat) : ∀ (pending acc : List Event), SortedK acc →
    (sortEventsAux acc pending).filter (fun x => keyEq (sortKey x) k) =
      acc.filter (fun x => keyEq (sortKey x) k) ++
        pending.filter (fun x => keyEq (sortKey x) k) := by
  intro pending
  induction pending with
  | nil => intro acc h; simp [sortEventsAux]
  | cons e es ih =>
      intro acc h
      rw [sortEventsAux, ih _ (sortedK_insertEv e acc h), filter_insertEv k e acc h,
        List.append_assoc, List.filter_cons]
      cases hek : keyEq (sortKey e) k <;> simp

/-- Claim C6: after `sort()` on any event list, every pair of events in list
order is nondecreasing in `(start_time, priority)` lexicographically — with
priorities Tempo 0, TimeSignature 1, ProgramChange 2, Dynamic 3, Pedal 4,
Note 10, other 20 — and events with value-equal `(start_time, priority)`
keys keep their insertion order (the sort is stable: the subsequence at any
fixed key equals the input's subsequence at that key). -/
theorem c6_sort_ordering (l : List Event) :
    List.Pairwise (fun a b => keyLE (sortKey a) (sortKey b) = true) (sortEvents l) ∧
      ∀ k : Q × Nat,
        (sortEvents l).filter (fun e => keyEq (sortKey e) k) =
          l.filter (fun e => keyEq (sortKey e) k) := by
  constructor
  · exact sortedK_sortAux l [] List.Pairwise.nil
  · intro k
    have h := filter_sortAux k l [] List.Pairwise.nil
    simpa [sortEvents] using h

/-- Witness for the amended claim C2 at a concrete input: a pending tie on
C#4 (MIDI 61) is resolved by a Db4 note without any error being recorded. -/
theorem c2_amended_witness :
    ∃ ctx', validateNoteOrChord false c2WitnessItem c2WitnessCtx = .ok ctx' ∧
      ctx'.errors = c2WitnessCtx.errors ∧ ctx'.warnings = c2WitnessCtx.warnings ∧
      TieWF ctx'.pending_ties :=
  c2_tie_resolution_never_errs false c2WitnessItem c2WitnessCtx (by unfold TieWF; decide)

/-! ## Claim C3 — trill expansion -/

/-- A single trilled quarter note C4 at the start of a voice. -/
def trillScore : Score :=
  { staves := [{ name := "p", contents := [.voice 1 (Contents.ofList
      [.measure none (Contents.ofList
        [.note { pitch := { name := .C, octave := 4 },
                 duration := { base_value := Q.frac 1 4 },
                 ornaments := [.trill none] }])])] }] }

/-- Claim C3 evaluated at the failing input: compiling a trilled quarter note
C4 (duration `D = 1/4`, nominal start 0) yields nine note events, not eight —
the original NoteEvent at start 0 with full duration `1/4` is kept, and the
eight `D/8` trill alternations are emitted at `-8/32 … -1/32`, every one of
them before the note's nominal start (because `_apply_ornament` computes
`current_time - duration` before the cursor has advanced). -/
theorem c3_code_eval :
    (compile_score trillScore).get_note_events =
      [{ start_time := Q.fracInt (-8) 32, staff_id := "p", voice_id := 1, midi_note := 60,
         duration := Q.frac 1 32 },
       { start_time := Q.fracInt (-7) 32, staff_id := "p", voice_id := 1, midi_note := 62,
         duration := Q.frac 1 32 },
       { start_time := Q.fracInt (-6) 32, staff_id := "p", voice_id := 1, midi_note := 60,
         duration := Q.frac 1 32 },
       { start_time := Q.fracInt (-5) 32, staff_id := "p", voice_id := 1, midi_note := 62,
         duration := Q.frac 1 32 },
       { start_time := Q.fracInt (-4) 32, staff_id := "p", voice_id := 1, midi_note := 60,
         duration := Q.frac 1 32 },
       { start_time := Q.fracInt (-3) 32, staff_id := "p", voice_id := 1, midi_note := 62,
         duration := Q.frac 1 32 },
       { start_time := Q.fracInt (-2) 32, staff_id := "p", voice_id := 1, midi_note := 60,
         duration := Q.frac 1 32 },
       { start_time := Q.fracInt (-1) 32, staff_id := "p", voice_id := 1, midi_note := 62,
         duration := Q.frac 1 32 },
       { start_time := 0, staff_id := "p", voice_id := 1, midi_note := 60,
         duration := Q.frac 1 4 }] := by
  decide

/-! ## Compiler invariants shared by claims C1 and C5

The lemmas below track, through every compiler function, which parts of the
context can change, where the channels of emitted note events come from, and
where their velocities come from. -/

mutual

/-- No `Dynamic` item occurs anywhere in this content. -/
def noDynContent : Content → Bool
  | .dynamic _ => false
  | .tuplet _ _ cs => noDynContents cs
  | .slur cs => noDynContents cs
  | .measure _ cs => noDynContents cs
  | _ => true

/-- No `Dynamic` item occurs anywhere in this content list. -/
def noDynContents : Contents → Bool
  | .nil => true
  | .cons c cs => noDynContent c && noDynContents cs

end

/-- No `Dynamic` item occurs anywhere in this staff. -/
def noDynStaff (st : Staff) : Bool :=
  st.contents.all fun item =>
    match item with
    | .voice _ cs => noDynContents cs
    | .item c => noDynContent c

/-- Every pending tied note event carries the current running velocity. -/
def PendVel (s : CompState) : Prop :=
  ∀ kv ∈ s.ctx.pending_ties, (kv.2 : NoteEv).velocity = s.ctx.current_velocity

/-- All channels in sight are bounded by `b`: the active channel, the
channel of every note event in the graph, and the channel of every pending
tied note event. -/
def ChanInv (b : Nat) (s : CompState) : Prop :=
  s.ctx.channel ≤ b ∧
    (∀ n : NoteEv, Event.note n ∈ s.graph.events → n.channel ≤ b) ∧
    (∀ kv ∈ s.ctx.pending_ties, (kv.2 : NoteEv).channel ≤ b)

/-- The context fields a content item can never change: the channel map, the
next free channel, the active channel, and the staff and voice ids. -/
def CtxQuiet (c c' : CompCtx) : Prop :=
  c'.staff_channels = c.staff_channels ∧ c'.next_channel = c.next_channel ∧
    c'.channel = c.channel ∧ c'.staff_id = c.staff_id ∧ c'.voice_id = c.voice_id

/-- Every note event of `r` was already in `s`, or was emitted on the active
channel, or is a fusion carrying a pending tied note's channel. -/
def NewNotesChan (s r : CompState) : Prop :=
  ∀ n : NoteEv, Event.note n ∈ r.graph.events → Event.note n ∈ s.graph.events ∨
    n.channel = s.ctx.channel ∨
    ∃ kv ∈ s.ctx.pending_ties, n.channel = (kv.2 : NoteEv).channel

/-- Every pending tie of `r` was already pending in `s`, or stores an event
on the active channel, or inherits a previously pending event's channel. -/
def NewPendChan (s r : CompState) : Prop :=
  ∀ kv ∈ r.ctx.pending_ties, kv ∈ s.ctx.pending_ties ∨
    (kv.2 : NoteEv).channel = s.ctx.channel ∨
    ∃ kv' ∈ s.ctx.pending_ties, (kv.2 : NoteEv).channel = (kv'.2 : NoteEv).channel

/-- The channel bookkeeping facts that hold for every compiled content item. -/
def StepFacts (s r : CompState) : Prop :=
  CtxQuiet s.ctx r.ctx ∧ NewNotesChan s r ∧ NewPendChan s r

/-- The velocity bookkeeping facts that hold for every dynamics-free compiled
content item: the running velocity is unchanged, and (when pending ties carry
the running velocity) every new note event carries it too. -/
def NewNotesVel (s r : CompState) : Prop :=
  r.ctx.current_velocity = s.ctx.current_velocity ∧
    (PendVel s → PendVel r ∧
      ∀ n : NoteEv, Event.note n ∈ r.graph.events → Event.note n ∈ s.graph.events ∨
        n.velocity = s.ctx.current_velocity)

/-- The combined facts, the velocity half guarded by a dynamics-freeness flag. -/
def AllFacts (nd : Bool) (s r : CompState) : Prop :=
  StepFacts s r ∧ (nd = true → NewNotesVel s r)

theorem StepFacts.rfl_step (s : CompState) : StepFacts s s :=
  ⟨⟨rfl, rfl, rfl, rfl, rfl⟩, fun _ h => Or.inl h, fun _ h => Or.inl h⟩

theorem NewNotesVel.rfl_vel (s : CompState) : NewNotesVel s s :=
  ⟨rfl, fun h => ⟨h, fun _ hn => Or.inl hn⟩⟩

theorem AllFacts.rfl_all (nd : Bool) (s : CompState) : AllFacts nd s s :=
  ⟨StepFacts.rfl_step s, fun _ => NewNotesVel.rfl_vel s⟩

theorem StepFacts.trans_step {s m r : CompState} (h1 : StepFacts s m) (h2 : StepFacts m r) :
    StepFacts s r := by
  obtain ⟨⟨q1, q2, q3, q4, q5⟩, hn1, hp1⟩ := h1
  obtain ⟨⟨q1', q2', q3', q4', q5'⟩, hn2, hp2⟩ := h2
  refine ⟨⟨q1'.trans q1, q2'.trans q2, q3'.trans q3, q4'.trans q4, q5'.trans q5⟩, ?_, ?_⟩
  · intro n hn
    rcases hn2 n hn with h | h | ⟨kv, hkv, hck⟩
    · exact hn1 n h
    · exact Or.inr (Or.inl (h.trans q3))
    · rcases hp1 kv hkv with h | h | ⟨kv', hkv', h⟩
      · exact Or.inr (Or.inr ⟨kv, h, hck⟩)
      · exact Or.inr (Or.inl (hck.trans h))
      · exact Or.inr (Or.inr ⟨kv', hkv', hck.trans h⟩)
  · intro kv hkv
    rcases hp2 kv hkv with h | h | ⟨kv', hkv', hck⟩
    · exact hp1 kv h
    · exact Or.inr (Or.inl (h.trans q3))
    · rcases hp1 kv' hkv' with h | h | ⟨kv'', hkv'', h⟩
      · exact Or.inr (Or.inr ⟨kv', h, hck⟩)
      · exact Or.inr (Or.inl (hck.trans h))
      · exact Or.inr (Or.inr ⟨kv'', hkv'', hck.trans h⟩)

theorem NewNotesVel.trans_vel {s m r : CompState}
    (h1 : NewNotesVel s m) (h2 : NewNotesVel m r) : NewNotesVel s r := by
  obtain ⟨hv1, hr1⟩ := h1
  obtain ⟨hv2, hr2⟩ := h2
  refine ⟨hv2.trans hv1, ?_⟩
  intro hps
  obtain ⟨hpm, hnm⟩ := hr1 hps
  obtain ⟨hpr, hnr⟩ := hr2 hpm
  refine ⟨hpr, ?_⟩
  intro n hn
  rcases hnr n hn with h | h
  · exact hnm n h
  · exact Or.inr (h.trans hv1)

theorem AllFacts.trans_all {nd1 nd2 : Bool} {s m r : CompState}
    (h1 : AllFacts nd1 s m) (h2 : AllFacts nd2 m r) : AllFacts (nd1 && nd2) s r := by
  refine ⟨h1.1.trans_step h2.1, ?_⟩
  intro hb
  rw [Bool.and_eq_true] at hb
  exact NewNotesVel.trans_vel (h1.2 hb.1) (h2.2 hb.2)

theorem ChanInv_of_StepFacts {s r : CompState} (hf : StepFacts s r) {b : Nat}
    (h : ChanInv b s) : ChanInv b r := by
  obtain ⟨⟨_, _, q3, _, _⟩, hn, hp⟩ := hf
  obtain ⟨hc, hg, hpd⟩ := h
  refine ⟨q3 ▸ hc, ?_, ?_⟩
  · intro n hmem
    rcases hn n hmem with hh | hh | ⟨kv, hkv, hh⟩
    · exact hg n hh
    · exact hh ▸ hc
    · exact hh ▸ hpd kv hkv
  · intro kv hkv
    rcases hp kv hkv with hh | hh | ⟨kv', hkv', hh⟩
    · exact hpd kv hh
    · exact hh ▸ hc
    · exact hh ▸ hpd kv' hkv'

theorem AllFacts.of_true {s r : CompState} (h : AllFacts true s r) (nd : Bool) :
    AllFacts nd s r :=
  ⟨h.1, fun _ => h.2 rfl⟩

/-- Facts for a step that only emits events and moves the cursor: the
pending map is untouched, the quiet fields and the velocity are unchanged,
and every new note event is on the active channel at the running velocity. -/
theorem allFacts_emit_chain {s r : CompState} (nd : Bool)
    (hq : CtxQuiet s.ctx r.ctx)
    (hvel : r.ctx.current_velocity = s.ctx.current_velocity)
    (hpend : r.ctx.pending_ties = s.ctx.pending_ties)
    (hnew : ∀ n : NoteEv, Event.note n ∈ r.graph.events →
      Event.note n ∈ s.graph.events ∨
        (n.channel = s.ctx.channel ∧ n.velocity = s.ctx.current_velocity)) :
    AllFacts nd s r := by
  refine ⟨⟨hq, ?_, ?_⟩, ?_⟩
  · intro n hn
    rcases hnew n hn with h | h
    · exact Or.inl h
    · exact Or.inr (Or.inl h.1)
  · intro kv hkv
    exact Or.inl (hpend ▸ hkv)
  · intro _
    refine ⟨hvel, ?_⟩
    intro hps
    refine ⟨?_, ?_⟩
    · intro kv hkv
      rw [hvel, hpend] at *
      exact hps kv (hpend ▸ hkv)
    · intro n hn
      rcases hnew n hn with h | h
      · exact Or.inl h
      · exact Or.inr h.2

theorem compileGraceLoop_facts (gu : Q) : ∀ (gs : List GraceNote) (gd : Q) (s : CompState),
    (compileGraceLoop gu gs gd s).1.ctx = s.ctx ∧
      ∀ n : NoteEv, Event.note n ∈ (compileGraceLoop gu gs gd s).1.graph.events →
        Event.note n ∈ s.graph.events ∨
          (n.channel = s.ctx.channel ∧ n.velocity = s.ctx.current_velocity) := by
  intro gs
  induction gs with
  | nil => intro gd s; exact ⟨rfl, fun n hn => Or.inl hn⟩
  | cons g rest ih =>
      intro gd s
      rw [compileGraceLoop]
      obtain ⟨ihctx, ihev⟩ := ih (gd + gu) (s.emit _)
      refine ⟨by rw [ihctx]; rfl, ?_⟩
      intro n hn
      rcases ihev n hn with h | h
      · rw [CompState.emit_events, List.mem_append] at h
        rcases h with h | h
        · exact Or.inl h
        · rcases List.mem_singleton.mp h with h
          cases h
          exact Or.inr ⟨rfl, rfl⟩
      · exact Or.inr h

theorem trillEmit_facts (main aux : Int) (unit : Q) :
    ∀ (count i : Nat) (pos : Q) (s : CompState),
      (trillEmit main aux unit i count pos s).ctx = s.ctx ∧
        ∀ n : NoteEv, Event.note n ∈ (trillEmit main aux unit i count pos s).graph.events →
          Event.note n ∈ s.graph.events ∨
            (n.channel = s.ctx.channel ∧ n.velocity = s.ctx.current_velocity) := by
  intro count
  induction count with
  | zero => intro i pos s; exact ⟨rfl, fun n hn => Or.inl hn⟩
  | succ c ih =>
      intro i pos s
      rw [trillEmit]
      obtain ⟨ihctx, ihev⟩ := ih (i + 1) (pos + unit) (s.emit _)
      refine ⟨by rw [ihctx]; rfl, ?_⟩
      intro n hn
      rcases ihev n hn with h | h
      · rw [CompState.emit_events, List.mem_append] at h
        rcases h with h | h
        · exact Or.inl h
        · rcases List.mem_singleton.mp h with h
          cases h
          exact Or.inr ⟨rfl, rfl⟩
      · exact Or.inr h

theorem applyOrnament_trill_case (tn : Int) (note : Note) (duration : Q) (s : CompState) :
    (trillEmit note.pitch.midi_number tn (duration / Q.ofInt 8) 0 8
        (s.ctx.current_time - duration) s).ctx = s.ctx ∧
      ∀ n : NoteEv, Event.note n ∈ (trillEmit note.pitch.midi_number tn (duration / Q.ofInt 8) 0 8
          (s.ctx.current_time - duration) s).graph.events →
        Event.note n ∈ s.graph.events ∨
          (n.channel = s.ctx.channel ∧ n.velocity = s.ctx.current_velocity) :=
  trillEmit_facts _ _ _ 8 0 _ s

theorem applyOrnament_two_emits (s : CompState) (e1 e2 : NoteEv)
    (hc1 : e1.channel = s.ctx.channel) (hv1 : e1.velocity = s.ctx.current_velocity)
    (hc2 : e2.channel = s.ctx.channel) (hv2 : e2.velocity = s.ctx.current_velocity) :
    ((s.emit (.note e1)).emit (.note e2)).ctx = s.ctx ∧
      ∀ n : NoteEv, Event.note n ∈ ((s.emit (.note e1)).emit (.note e2)).graph.events →
        Event.note n ∈ s.graph.events ∨
          (n.channel = s.ctx.channel ∧ n.velocity = s.ctx.current_velocity) := by
  refine ⟨rfl, ?_⟩
  intro n hn
  simp only [CompState.emit_events, List.mem_append, List.mem_singleton] at hn
  rcases hn with (h | h) | h
  · exact Or.inl h
  · cases h; exact Or.inr ⟨hc1, hv1⟩
  · cases h; exact Or.inr ⟨hc2, hv2⟩

theorem applyOrnament_facts (o : Ornament) (note : Note) (duration : Q) (s : CompState) :
    (applyOrnament o note duration s).ctx = s.ctx ∧
      ∀ n : NoteEv, Event.note n ∈ (applyOrnament o note duration s).graph.events →
        Event.note n ∈ s.graph.events ∨
          (n.channel = s.ctx.channel ∧ n.velocity = s.ctx.current_velocity) := by
  have hturn : ∀ (e1 e2 e3 e4 : NoteEv), e1.channel = s.ctx.channel →
      e1.velocity = s.ctx.current_velocity → e2.channel = s.ctx.channel →
      e2.velocity = s.ctx.current_velocity → e3.channel = s.ctx.channel →
      e3.velocity = s.ctx.current_velocity → e4.channel = s.ctx.channel →
      e4.velocity = s.ctx.current_velocity →
      ((((s.emit (.note e1)).emit (.note e2)).emit (.note e3)).emit (.note e4)).ctx = s.ctx ∧
        ∀ n : NoteEv,
          Event.note n ∈
            ((((s.emit (.note e1)).emit (.note e2)).emit (.note e3)).emit
              (.note e4)).graph.events →
          Event.note n ∈ s.graph.events ∨
            (n.channel = s.ctx.channel ∧ n.velocity = s.ctx.current_velocity) := by
    intro e1 e2 e3 e4 hc1 hv1 hc2 hv2 hc3 hv3 hc4 hv4
    refine ⟨rfl, ?_⟩
    intro n hn
    simp only [CompState.emit_events, List.mem_append, List.mem_singleton] at hn
    rcases hn with (((h | h) | h) | h) | h
    · exact Or.inl h
    · cases h; exact Or.inr ⟨hc1, hv1⟩
    · cases h; exact Or.inr ⟨hc2, hv2⟩
    · cases h; exact Or.inr ⟨hc3, hv3⟩
    · cases h; exact Or.inr ⟨hc4, hv4⟩
  cases o with
  | mark t =>
      cases t with
      | mordent =>
          simp only [applyOrnament, Ornament.type]
          norm_num
          exact applyOrnament_two_emits s _ _ rfl rfl rfl rfl
      | turn =>
          simp only [applyOrnament, Ornament.type]
          norm_num
          exact hturn _ _ _ _ rfl rfl rfl rfl rfl rfl rfl rfl
      | inverted_turn =>
          simp only [applyOrnament, Ornament.type]
          norm_num
          exact ⟨rfl, fun n hn => Or.inl hn⟩
      | shake =>
          simp only [applyOrnament, Ornament.type]
          norm_num
          exact ⟨rfl, fun n hn => Or.inl hn⟩
      | trill =>
          simp only [applyOrnament, Ornament.type]
          norm_num
          exact applyOrnament_trill_case _ note duration s
  | trill aux =>
      cases aux with
      | none =>
          simp only [applyOrnament, Ornament.type]
          norm_num
          exact applyOrnament_trill_case _ note duration s
      | some p =>
          simp only [applyOrnament, Ornament.type]
          norm_num
          exact applyOrnament_trill_case _ note duration s

theorem compileOrnaments_facts (note : Note) (duration : Q) :
    ∀ (os : List Ornament) (s : CompState),
      (compileOrnaments note duration os s).ctx = s.ctx ∧
        ∀ n : NoteEv, Event.note n ∈ (compileOrnaments note duration os s).graph.events →
          Event.note n ∈ s.graph.events ∨
            (n.channel = s.ctx.channel ∧ n.velocity = s.ctx.current_velocity) := by
  intro os
  induction os with
  | nil => intro s; exact ⟨rfl, fun n hn => Or.inl hn⟩
  | cons o rest ih =>
      intro s
      rw [compileOrnaments]
      obtain ⟨actx, aev⟩ := applyOrnament_facts o note duration s
      obtain ⟨ihctx, ihev⟩ := ih (applyOrnament o note duration s)
      refine ⟨by rw [ihctx, actx], ?_⟩
      intro n hn
      rcases ihev n hn with h | h
      · exact aev n h
      · rw [actx] at h
        exact Or.inr h

/-- Emit-only steps that additionally move the cursor are covered by
`allFacts_emit_chain`; this specialisation handles a trailing pure
`current_time` update. -/
theorem allFacts_time_update (nd : Bool) (s : CompState) (g : CompCtx → Q) :
    AllFacts nd s (s.withCtx fun c => { c with current_time := g c }) := by
  refine allFacts_emit_chain nd ⟨rfl, rfl, rfl, rfl, rfl⟩ rfl rfl ?_
  intro n hn
  exact Or.inl hn

theorem compileRest_facts (rest : Rest) (tr : Q) (s : CompState) :
    AllFacts true s (compileRest rest tr s).1 := by
  rw [compileRest]
  refine allFacts_emit_chain true ⟨rfl, rfl, rfl, rfl, rfl⟩ rfl rfl ?_
  intro n hn
  simp only [CompState.withCtx_graph, CompState.emit_events, List.mem_append,
    List.mem_singleton] at hn
  rcases hn with h | h
  · exact Or.inl h
  · cases h

theorem compileDynamic_facts (d : Dynamic) (s : CompState) :
    AllFacts false s (compileDynamic d s).1 := by
  refine ⟨⟨⟨rfl, rfl, rfl, rfl, rfl⟩, ?_, ?_⟩, ?_⟩
  · intro n hn
    simp only [compileDynamic, CompState.emit_events, CompState.emit_ctx,
      CompState.withCtx_graph, List.mem_append, List.mem_singleton] at hn
    rcases hn with h | h
    · exact Or.inl h
    · cases h
  · intro kv hkv
    exact Or.inl hkv
  · intro h
    cases h

theorem compileHairpin_facts (h : Hairpin) (s : CompState) :
    AllFacts true s (compileHairpin h s).1 := by
  rw [compileHairpin]
  refine allFacts_emit_chain true ⟨rfl, rfl, rfl, rfl, rfl⟩ rfl rfl ?_
  intro n hn
  simp only [CompState.emit_events, List.mem_append, List.mem_singleton] at hn
  rcases hn with h | h
  · exact Or.inl h
  · cases h

theorem compilePedal_facts (p : Pedal) (s : CompState) :
    AllFacts true s (compilePedal p s).1 := by
  rw [compilePedal]
  cases p.type <;>
    · refine allFacts_emit_chain true ⟨rfl, rfl, rfl, rfl, rfl⟩ rfl rfl ?_
      intro n hn
      simp only [CompState.emit_events, List.mem_append, List.mem_singleton] at hn
      first
      | rcases hn with (h | h) | h
        · exact Or.inl h
        · cases h
        · cases h
      | rcases hn with h | h
        · exact Or.inl h
        · cases h

theorem compileTempo_facts (t : TempoMark) (s : CompState) :
    AllFacts true s (compileTempo t s).1 := by
  rw [compileTempo]
  refine allFacts_emit_chain true ⟨rfl, rfl, rfl, rfl, rfl⟩ rfl rfl ?_
  intro n hn
  simp only [CompState.emit_events, CompState.withCtx_graph, List.mem_append,
    List.mem_singleton] at hn
  rcases hn with h | h
  · exact Or.inl h
  · cases h

theorem compileTimeSignature_facts (t : TimeSignature) (s : CompState) :
    AllFacts true s (compileTimeSignature t s).1 := by
  rw [compileTimeSignature]
  refine allFacts_emit_chain true ⟨rfl, rfl, rfl, rfl, rfl⟩ rfl rfl ?_
  intro n hn
  simp only [CompState.emit_events, CompState.withCtx_graph, List.mem_append,
    List.mem_singleton] at hn
  rcases hn with h | h
  · exact Or.inl h
  · cases h

theorem compileInstrumentChange_facts (i : InstrumentChange) (s : CompState) :
    AllFacts true s (compileInstrumentChange i s).1 := by
  rw [compileInstrumentChange]
  refine allFacts_emit_chain true ⟨rfl, rfl, rfl, rfl, rfl⟩ rfl rfl ?_
  intro n hn
  simp only [CompState.emit_events, CompState.withCtx_graph, List.mem_append,
    List.mem_singleton] at hn
  rcases hn with h | h
  · exact Or.inl h
  · cases h

/-- Master constructor for `AllFacts true`: field-level facts about the
result state suffice.  New note events and new pending entries either sit on
the active channel at the running velocity, or inherit both from a pending
tied event (whose velocity is the running one whenever `PendVel` holds). -/
theorem allFacts_general (s r : CompState)
    (hq : CtxQuiet s.ctx r.ctx)
    (hvel : r.ctx.current_velocity = s.ctx.current_velocity)
    (hnotes : ∀ n : NoteEv, Event.note n ∈ r.graph.events → Event.note n ∈ s.graph.events ∨
      (n.channel = s.ctx.channel ∧ n.velocity = s.ctx.current_velocity) ∨
      ∃ kv ∈ s.ctx.pending_ties, n.channel = (kv.2 : NoteEv).channel ∧
        (PendVel s → n.velocity = s.ctx.current_velocity))
    (hpend : ∀ kv ∈ r.ctx.pending_ties, kv ∈ s.ctx.pending_ties ∨
      ((kv.2 : NoteEv).channel = s.ctx.channel ∧ kv.2.velocity = s.ctx.current_velocity) ∨
      ∃ kv' ∈ s.ctx.pending_ties, (kv.2 : NoteEv).channel = (kv'.2 : NoteEv).channel ∧
        (PendVel s → kv.2.velocity = s.ctx.current_velocity)) :
    AllFacts true s r := by
  refine ⟨⟨hq, ?_, ?_⟩, ?_⟩
  · intro n hn
    rcases hnotes n hn with h | h | ⟨kv, hkv, hc, _⟩
    · exact Or.inl h
    · exact Or.inr (Or.inl h.1)
    · exact Or.inr (Or.inr ⟨kv, hkv, hc⟩)
  · intro kv hkv
    rcases hpend kv hkv with h | h | ⟨kv', hkv', hc, _⟩
    · exact Or.inl h
    · exact Or.inr (Or.inl h.1)
    · exact Or.inr (Or.inr ⟨kv', hkv', hc⟩)
  · intro _
    refine ⟨hvel, ?_⟩
    intro hps
    constructor
    · intro kv hkv
      rw [hvel]
      rcases hpend kv hkv with h | h | ⟨kv', hkv', _, hv⟩
      · exact hps kv h
      · exact h.2
      · exact hv hps
    · intro n hn
      rcases hnotes n hn with h | h | ⟨kv, hkv, _, hv⟩
      · exact Or.inl h
      · exact Or.inr h.2
      · exact Or.inr (hv hps)

theorem compileNote_facts (note : Note) (tr : Q) (s : CompState) :
    AllFacts true s (compileNote note tr s).1 := by
  rcases hg : compileGraceLoop (note.duration.total_value * tr * Q.frac 1 8)
      note.grace_notes 0 s with ⟨s1, gd⟩
  have hgf := compileGraceLoop_facts (note.duration.total_value * tr * Q.frac 1 8)
      note.grace_notes 0 s
  rw [hg] at hgf
  obtain ⟨hg_ctx, hg_ev⟩ := hgf
  have hstep1 : AllFacts true s s1 := by
    refine allFacts_emit_chain true ?_ ?_ ?_ hg_ev <;> rw [hg_ctx]
    exact ⟨rfl, rfl, rfl, rfl, rfl⟩
  have hfinal : ∀ s2 : CompState, AllFacts true s1 s2 →
      AllFacts true s
        ((compileOrnaments note (note.duration.total_value * tr) note.ornaments s2).withCtx
          fun c => { c with current_time := c.current_time + note.duration.total_value * tr }) := by
    intro s2 h2
    obtain ⟨octx, oev⟩ :=
      compileOrnaments_facts note (note.duration.total_value * tr) note.ornaments s2
    have h3 : AllFacts true s2
        (compileOrnaments note (note.duration.total_value * tr) note.ornaments s2) := by
      refine allFacts_emit_chain true ?_ ?_ ?_ oev <;> rw [octx]
      exact ⟨rfl, rfl, rfl, rfl, rfl⟩
    have h4 := allFacts_time_update true
      (compileOrnaments note (note.duration.total_value * tr) note.ornaments s2)
      (fun c => c.current_time + note.duration.total_value * tr)
    exact ((hstep1.trans_all h2).trans_all h3).trans_all h4
  simp only [compileNote, hg]
  rcases hl : alistLookup (s1.ctx.staff_id, s1.ctx.voice_id, note.pitch.midi_number)
      s1.ctx.pending_ties with _ | prev
  · -- no pending tie: a fresh event is emitted, perhaps registered as pending
    simp only [hl]
    apply hfinal
    by_cases ht : note.tied
    · rw [if_pos ht]
      refine allFacts_general s1 _ ⟨rfl, rfl, rfl, rfl, rfl⟩ rfl ?_ ?_
      · intro n hn
        simp only [CompState.withCtx_graph, CompState.emit_events, List.append_eq,
          List.mem_append, List.mem_singleton, List.mem_filter, Event.note.injEq] at hn
        rcases hn with h | rfl
        · exact Or.inl h
        · exact Or.inr (Or.inl ⟨rfl, rfl⟩)
      · intro kv hkv
        simp only [CompState.withCtx_ctx, CompState.emit_ctx] at hkv
        rcases mem_alistInsert _ _ _ _ hkv with rfl | h
        · exact Or.inr (Or.inl ⟨rfl, rfl⟩)
        · exact Or.inl h
    · rw [if_neg ht]
      refine allFacts_general s1 _ ⟨rfl, rfl, rfl, rfl, rfl⟩ rfl ?_ ?_
      · intro n hn
        simp only [CompState.emit_events, List.append_eq, List.mem_append,
          List.mem_singleton, List.mem_filter, Event.note.injEq] at hn
        rcases hn with h | rfl
        · exact Or.inl h
        · exact Or.inr (Or.inl ⟨rfl, rfl⟩)
      · intro kv hkv
        exact Or.inl hkv
  · -- pending tie found: the previous event is removed and a fusion emitted
    simp only [hl]
    apply hfinal
    have hprev : ((s1.ctx.staff_id, s1.ctx.voice_id, note.pitch.midi_number), prev) ∈
        s1.ctx.pending_ties := alistLookup_mem _ _ _ hl
    by_cases ht : note.tied
    · rw [if_pos ht]
      refine allFacts_general s1 _ ⟨rfl, rfl, rfl, rfl, rfl⟩ rfl ?_ ?_
      · intro n hn
        simp only [CompState.withCtx_graph, CompState.emit_events, List.append_eq,
          List.mem_append, List.mem_singleton, List.mem_filter, Event.note.injEq] at hn
        rcases hn with h | rfl
        · exact Or.inl h.1
        · exact Or.inr (Or.inr ⟨(_, prev), hprev, rfl, fun hps => hps ((s1.ctx.staff_id, s1.ctx.voice_id, note.pitch.midi_number), prev) hprev⟩)
      · intro kv hkv
        simp only [CompState.withCtx_ctx, CompState.emit_ctx] at hkv
        rcases mem_alistInsert _ _ _ _ hkv with rfl | h
        · exact Or.inr (Or.inr ⟨(_, prev), hprev, rfl, fun hps => hps ((s1.ctx.staff_id, s1.ctx.voice_id, note.pitch.midi_number), prev) hprev⟩)
        · exact Or.inl (mem_alistErase _ _ _ h)
    · rw [if_neg ht]
      refine allFacts_general s1 _ ⟨rfl, rfl, rfl, rfl, rfl⟩ rfl ?_ ?_
      · intro n hn
        simp only [CompState.emit_events, List.append_eq, List.mem_append,
          List.mem_singleton, List.mem_filter, Event.note.injEq] at hn
        rcases hn with h | rfl
        · exact Or.inl h.1
        · exact Or.inr (Or.inr ⟨(_, prev), hprev, rfl, fun hps => hps ((s1.ctx.staff_id, s1.ctx.voice_id, note.pitch.midi_number), prev) hprev⟩)
      · intro kv hkv
        simp only [CompState.emit_ctx] at hkv
        exact Or.inl (mem_alistErase _ _ _ hkv)

theorem compileChordPitches_facts (duration : Q) (tied : Bool) (arts : List String) :
    ∀ (ps : List Pitch) (s : CompState),
      AllFacts true s (compileChordPitches duration tied arts ps s) := by
  intro ps
  induction ps with
  | nil => intro s; exact AllFacts.rfl_all true s
  | cons p rest ih =>
      intro s
      rw [compileChordPitches]
      rcases hl : alistLookup (s.ctx.staff_id, s.ctx.voice_id, p.midi_number)
          s.ctx.pending_ties with _ | prev
      · simp only [hl]
        have hstep : ∀ s' : CompState, AllFacts true s s' →
            AllFacts true s (compileChordPitches duration tied arts rest s') :=
          fun s' h => h.trans_all (ih s')
        apply hstep
        by_cases ht : tied = true
        · rw [if_pos ht]
          refine allFacts_general s _ ⟨rfl, rfl, rfl, rfl, rfl⟩ rfl ?_ ?_
          · intro n hn
            simp only [CompState.withCtx_graph, CompState.emit_events, List.append_eq,
              List.mem_append, List.mem_singleton, List.mem_filter, Event.note.injEq] at hn
            rcases hn with h | rfl
            · exact Or.inl h
            · exact Or.inr (Or.inl ⟨rfl, rfl⟩)
          · intro kv hkv
            simp only [CompState.withCtx_ctx, CompState.emit_ctx] at hkv
            rcases mem_alistInsert _ _ _ _ hkv with rfl | h
            · exact Or.inr (Or.inl ⟨rfl, rfl⟩)
            · exact Or.inl h
        · rw [if_neg ht]
          refine allFacts_general s _ ⟨rfl, rfl, rfl, rfl, rfl⟩ rfl ?_ ?_
          · intro n hn
            simp only [CompState.emit_events, List.append_eq, List.mem_append,
              List.mem_singleton, List.mem_filter, Event.note.injEq] at hn
            rcases hn with h | rfl
            · exact Or.inl h
            · exact Or.inr (Or.inl ⟨rfl, rfl⟩)
          · intro kv hkv
            exact Or.inl hkv
      · simp only [hl]
        have hprev : ((s.ctx.staff_id, s.ctx.voice_id, p.midi_number), prev) ∈
            s.ctx.pending_ties := alistLookup_mem _ _ _ hl
        have hstep : ∀ s' : CompState, AllFacts true s s' →
            AllFacts true s (compileChordPitches duration tied arts rest s') :=
          fun s' h => h.trans_all (ih s')
        apply hstep
        by_cases ht : tied = true
        · rw [if_pos ht]
          refine allFacts_general s _ ⟨rfl, rfl, rfl, rfl, rfl⟩ rfl ?_ ?_
          · intro n hn
            simp only [CompState.withCtx_graph, CompState.emit_events, List.append_eq,
              List.mem_append, List.mem_singleton, List.mem_filter, Event.note.injEq] at hn
            rcases hn with h | rfl
            · exact Or.inl h.1
            · exact Or.inr (Or.inr ⟨(_, prev), hprev, rfl,
                fun hps => hps ((s.ctx.staff_id, s.ctx.voice_id, p.midi_number), prev) hprev⟩)
          · intro kv hkv
            simp only [CompState.withCtx_ctx, CompState.emit_ctx] at hkv
            rcases mem_alistInsert _ _ _ _ hkv with rfl | h
            · exact Or.inr (Or.inr ⟨(_, prev), hprev, rfl,
                fun hps => hps ((s.ctx.staff_id, s.ctx.voice_id, p.midi_number), prev) hprev⟩)
            · exact Or.inl (mem_alistErase _ _ _ h)
        · rw [if_neg ht]
          refine allFacts_general s _ ⟨rfl, rfl, rfl, rfl, rfl⟩ rfl ?_ ?_
          · intro n hn
            simp only [CompState.emit_events, List.append_eq, List.mem_append,
              List.mem_singleton, List.mem_filter, Event.note.injEq] at hn
            rcases hn with h | rfl
            · exact Or.inl h.1
            · exact Or.inr (Or.inr ⟨(_, prev), hprev, rfl,
                fun hps => hps ((s.ctx.staff_id, s.ctx.voice_id, p.midi_number), prev) hprev⟩)
          · intro kv hkv
            simp only [CompState.emit_ctx] at hkv
            exact Or.inl (mem_alistErase _ _ _ hkv)

theorem compileChord_facts (chord : Chord) (tr : Q) (s : CompState) :
    AllFacts true s (compileChord chord tr s).1 := by
  rw [compileChord]
  have h1 := compileChordPitches_facts (chord.duration.total_value * tr) chord.tied
    (artFlags chord.articulations) chord.pitches s
  have h2 := allFacts_time_update true
    (compileChordPitches (chord.duration.total_value * tr) chord.tied
      (artFlags chord.articulations) chord.pitches s)
    (fun c => c.current_time + chord.duration.total_value * tr)
  exact h1.trans_all h2

mutual

/-- Every compiled content item satisfies the channel bookkeeping facts, and
the velocity bookkeeping facts when it contains no dynamic marking. -/
theorem contentFacts (item : Content) (tr : Q) (s : CompState) :
    AllFacts (noDynContent item) s (compileContent item tr s).1 := by
  cases item with
  | note n => exact (compileNote_facts n tr s).of_true _
  | chord c => exact (compileChord_facts c tr s).of_true _
  | rest r => exact (compileRest_facts r tr s).of_true _
  | dynamic d => exact compileDynamic_facts d s
  | hairpin h => exact (compileHairpin_facts h s).of_true _
  | pedal p => exact (compilePedal_facts p s).of_true _
  | tempoMark t => exact (compileTempo_facts t s).of_true _
  | timeSignature t => exact (compileTimeSignature_facts t s).of_true _
  | instrumentChange i => exact (compileInstrumentChange_facts i s).of_true _
  | keySignature k => exact AllFacts.rfl_all _ s
  | measure num cs => exact measureItemsFacts cs s
  | tuplet actual normal cs => exact tupletItemsFacts cs (tupletScale normal actual * tr) 0 s
  | slur cs => exact slurItemsFacts cs tr 0 s

/-- The measure item loop preserves the bookkeeping facts. -/
theorem measureItemsFacts (cs : Contents) (s : CompState) :
    AllFacts (noDynContents cs) s (compileMeasureItems cs s) := by
  cases cs with
  | nil => exact AllFacts.rfl_all _ s
  | cons item rest =>
      exact (contentFacts item 1 s).trans_all (measureItemsFacts rest (compileContent item 1 s).1)

/-- The tuplet item loop preserves the bookkeeping facts. -/
theorem tupletItemsFacts (cs : Contents) (inner total : Q) (s : CompState) :
    AllFacts (noDynContents cs) s (compileTupletItems cs inner total s).1 := by
  cases cs with
  | nil => exact AllFacts.rfl_all _ s
  | cons item rest =>
      rcases hc : compileContent item inner s with ⟨s1, d⟩
      have h1 := contentFacts item inner s
      rw [hc] at h1
      rw [compileTupletItems, hc]
      exact h1.trans_all (tupletItemsFacts rest inner (total + d) s1)

/-- The slur item loop preserves the bookkeeping facts. -/
theorem slurItemsFacts (cs : Contents) (tr total : Q) (s : CompState) :
    AllFacts (noDynContents cs) s (compileSlurItems cs tr total s).1 := by
  cases cs with
  | nil => exact AllFacts.rfl_all _ s
  | cons item rest =>
      rcases hc : compileContent item tr s with ⟨s1, d⟩
      have h1 := contentFacts item tr s
      rw [hc] at h1
      rw [compileSlurItems, hc]
      exact h1.trans_all (slurItemsFacts rest tr (total + d) s1)

end

/-! ## Staff-level bookkeeping

Inside one staff the voice loop changes `voice_id` and resets the cursor, so
the content-level `CtxQuiet` does not survive it; the channel bookkeeping
does.  `VoiceFacts` is the part of `AllFacts` that holds across the whole
voice and direct-content loops of `_compile_staff`. -/

/-- The context fields the voice and direct-content loops never change. -/
def ChanQuiet (c c' : CompCtx) : Prop :=
  c'.staff_channels = c.staff_channels ∧ c'.next_channel = c.next_channel ∧
    c'.channel = c.channel

/-- Channel and (for dynamics-free contents) velocity bookkeeping across the
loops inside one staff. -/
def VoiceFacts (nd : Bool) (s r : CompState) : Prop :=
  ChanQuiet s.ctx r.ctx ∧ NewNotesChan s r ∧ NewPendChan s r ∧
    (nd = true → NewNotesVel s r)

theorem VoiceFacts.of_allFacts {nd : Bool} {s r : CompState} (h : AllFacts nd s r) :
    VoiceFacts nd s r :=
  ⟨⟨h.1.1.1, h.1.1.2.1, h.1.1.2.2.1⟩, h.1.2.1, h.1.2.2, h.2⟩

theorem VoiceFacts.rfl_voice (nd : Bool) (s : CompState) : VoiceFacts nd s s :=
  ⟨⟨rfl, rfl, rfl⟩, fun _ h => Or.inl h, fun _ h => Or.inl h, fun _ => NewNotesVel.rfl_vel s⟩

theorem VoiceFacts.trans_voice {nd1 nd2 : Bool} {s m r : CompState}
    (h1 : VoiceFacts nd1 s m) (h2 : VoiceFacts nd2 m r) : VoiceFacts (nd1 && nd2) s r := by
  obtain ⟨⟨q1, q2, q3⟩, hn1, hp1, hv1⟩ := h1
  obtain ⟨⟨q1', q2', q3'⟩, hn2, hp2, hv2⟩ := h2
  refine ⟨⟨q1'.trans q1, q2'.trans q2, q3'.trans q3⟩, ?_, ?_, ?_⟩
  · intro n hn
    rcases hn2 n hn with h | h | ⟨kv, hkv, hck⟩
    · exact hn1 n h
    · exact Or.inr (Or.inl (h.trans q3))
    · rcases hp1 kv hkv with h | h | ⟨kv', hkv', h⟩
      · exact Or.inr (Or.inr ⟨kv, h, hck⟩)
      · exact Or.inr (Or.inl (hck.trans h))
      · exact Or.inr (Or.inr ⟨kv', hkv', hck.trans h⟩)
  · intro kv hkv
    rcases hp2 kv hkv with h | h | ⟨kv', hkv', hck⟩
    · exact hp1 kv h
    · exact Or.inr (Or.inl (h.trans q3))
    · rcases hp1 kv' hkv' with h | h | ⟨kv'', hkv'', h⟩
      · exact Or.inr (Or.inr ⟨kv', h, hck⟩)
      · exact Or.inr (Or.inl (hck.trans h))
      · exact Or.inr (Or.inr ⟨kv'', hkv'', hck.trans h⟩)
  · intro hb
    rw [Bool.and_eq_true] at hb
    exact NewNotesVel.trans_vel (hv1 hb.1) (hv2 hb.2)

theorem ChanInv_of_VoiceFacts {nd : Bool} {s r : CompState} (hf : VoiceFacts nd s r)
    {b : Nat} (h : ChanInv b s) : ChanInv b r := by
  obtain ⟨⟨_, _, q3⟩, hn, hp, _⟩ := hf
  obtain ⟨hc, hg, hpd⟩ := h
  refine ⟨q3 ▸ hc, ?_, ?_⟩
  · intro n hmem
    rcases hn n hmem with hh | hh | ⟨kv, hkv, hh⟩
    · exact hg n hh
    · exact hh ▸ hc
    · exact hh ▸ hpd kv hkv
  · intro kv hkv
    rcases hp kv hkv with hh | hh | ⟨kv', hkv', hh⟩
    · exact hpd kv hh
    · exact hh ▸ hc
    · exact hh ▸ hpd kv' hkv'

/-- A pure context tweak that leaves the channel fields, the pending map and
the velocity alone satisfies all staff-level facts. -/
theorem voiceFacts_withCtx (nd : Bool) (s : CompState) (f : CompCtx → CompCtx)
    (h1 : (f s.ctx).staff_channels = s.ctx.staff_channels)
    (h2 : (f s.ctx).next_channel = s.ctx.next_channel)
    (h3 : (f s.ctx).channel = s.ctx.channel)
    (h4 : (f s.ctx).pending_ties = s.ctx.pending_ties)
    (h5 : (f s.ctx).current_velocity = s.ctx.current_velocity) :
    VoiceFacts nd s (s.withCtx f) := by
  refine ⟨⟨h1, h2, h3⟩, fun n hn => Or.inl hn, ?_, ?_⟩
  · intro kv hkv
    rw [CompState.withCtx_ctx, h4] at hkv
    exact Or.inl hkv
  · intro _
    refine ⟨h5, ?_⟩
    intro hps
    refine ⟨?_, fun n hn => Or.inl hn⟩
    intro kv hkv
    rw [CompState.withCtx_ctx, h4] at hkv
    rw [CompState.withCtx_ctx, h5]
    exact hps kv hkv

/-- The voice-items loop satisfies the staff-level facts. -/
theorem compileVoiceItems_facts : ∀ (cs : Contents) (s : CompState),
    VoiceFacts (noDynContents cs) s (compileVoiceItems cs s)
  | .nil, s => VoiceFacts.rfl_voice _ s
  | .cons item rest, s =>
      (VoiceFacts.of_allFacts (contentFacts item 1 s)).trans_voice
        (compileVoiceItems_facts rest (compileContent item 1 s).1)

/-- The direct-content loop satisfies the staff-level facts. -/
theorem compileDirectItems_facts : ∀ (items : List Content) (s : CompState),
    VoiceFacts (items.all noDynContent) s (compileDirectItems items s)
  | [], s => VoiceFacts.rfl_voice _ s
  | item :: rest, s =>
      (VoiceFacts.of_allFacts (contentFacts item 1 s)).trans_voice
        (compileDirectItems_facts rest (compileContent item 1 s).1)

/-- The voice loop satisfies the staff-level facts. -/
theorem compileVoices_facts : ∀ (voices : List (Int × Contents)) (s : CompState),
    VoiceFacts (voices.all fun v => noDynContents v.2) s (compileVoices voices s)
  | [], s => VoiceFacts.rfl_voice _ s
  | (n, cs) :: rest, s =>
      ((voiceFacts_withCtx true s
          (fun c => { c with voice_id := n, current_time := 0 }) rfl rfl rfl rfl rfl).trans_voice
        (compileVoiceItems_facts cs _)).trans_voice
        (compileVoices_facts rest _)

/-- `_allocate_channel` leaves the pending map, the graph and the running
velocity alone, in both of its branches. -/
theorem allocateChannel_frame (staff_id : String) (s : CompState) :
    (allocateChannel staff_id s).2.ctx.pending_ties = s.ctx.pending_ties ∧
      (allocateChannel staff_id s).2.graph = s.graph ∧
      (allocateChannel staff_id s).2.ctx.current_velocity = s.ctx.current_velocity := by
  rw [allocateChannel]
  rcases alistLookup staff_id s.ctx.staff_channels with _ | c
  · exact ⟨rfl, rfl, rfl⟩
  · exact ⟨rfl, rfl, rfl⟩

/-- A state transition that changes none of the velocity-relevant data
satisfies the velocity facts. -/
theorem newNotesVel_of_eq {s r : CompState}
    (hv : r.ctx.current_velocity = s.ctx.current_velocity)
    (hp : r.ctx.pending_ties = s.ctx.pending_ties)
    (hg : r.graph.events = s.graph.events) : NewNotesVel s r := by
  refine ⟨hv, ?_⟩
  intro hps
  refine ⟨?_, fun n hn => Or.inl (hg ▸ hn)⟩
  intro kv hkv
  rw [hv]
  exact hps kv (hp ▸ hkv)

/-- Emitting a non-note event satisfies the velocity facts. -/
theorem newNotesVel_emit_nonnote (s : CompState) (e : Event)
    (he : ∀ n : NoteEv, e ≠ Event.note n) : NewNotesVel s (s.emit e) := by
  refine ⟨rfl, ?_⟩
  intro hps
  refine ⟨hps, ?_⟩
  intro n hn
  rw [CompState.emit_events] at hn
  rcases List.mem_append.mp hn with h | h
  · exact Or.inl h
  · rw [List.mem_singleton] at h
    exact absurd h.symm (he n)

/-- A dynamics-free staff item list splits into dynamics-free voices and
dynamics-free direct content. -/
theorem splitStaff_noDyn : ∀ items : List StaffItem,
    (items.all fun item =>
      match item with
      | .voice _ cs => noDynContents cs
      | .item c => noDynContent c) = true →
    ((splitStaffContents items).1.all fun v => noDynContents v.2) = true ∧
      ((splitStaffContents items).2.all noDynContent) = true := by
  intro items
  induction items with
  | nil => intro _; exact ⟨rfl, rfl⟩
  | cons hd tl ih =>
      intro h
      rw [List.all_cons, Bool.and_eq_true] at h
      obtain ⟨hhd, htl⟩ := h
      obtain ⟨h1, h2⟩ := ih htl
      cases hd with
      | voice n cs =>
          rw [splitStaffContents]
          refine ⟨?_, ?_⟩
          · rw [show (splitStaffContents tl).1 = (splitStaffContents tl).fst from rfl] at h1
            simpa [h1] using hhd
          · exact h2
      | item c =>
          rw [splitStaffContents]
          refine ⟨h1, ?_⟩
          simpa [h2] using hhd

theorem VoiceFacts.weaken {nd : Bool} {s r : CompState} (h : VoiceFacts nd s r) :
    VoiceFacts false s r :=
  ⟨h.1, h.2.1, h.2.2.1, fun hb => Bool.noConfusion hb⟩

/-- Emitting a non-note event satisfies the staff-level facts. -/
theorem voiceFacts_emit_nonnote (nd : Bool) (s : CompState) (e : Event)
    (he : ∀ n : NoteEv, e ≠ Event.note n) : VoiceFacts nd s (s.emit e) := by
  refine ⟨⟨rfl, rfl, rfl⟩, ?_, fun kv hkv => Or.inl hkv,
    fun _ => newNotesVel_emit_nonnote s e he⟩
  intro n hn
  rw [CompState.emit_events] at hn
  rcases List.mem_append.mp hn with h | h
  · exact Or.inl h
  · rw [List.mem_singleton] at h
    exact absurd h.symm (he n)

/-- Everything `_compile_staff` runs after allocating the channel and pointing
the context at the staff satisfies the staff-level facts from that state. -/
theorem compileStaff_chan (st : Staff) (s : CompState) :
    VoiceFacts false
      ((allocateChannel st.name s).2.withCtx fun c =>
        { c with staff_id := st.name, channel := (allocateChannel st.name s).1,
                 current_time := 0 })
      (compileStaff st s) := by
  rw [compileStaff]
  rcases ha : allocateChannel st.name s with ⟨ch, s1⟩
  set s2 := s1.withCtx fun c =>
    { c with staff_id := st.name, channel := ch, current_time := 0 } with hs2
  rcases hsp : splitStaffContents st.contents with ⟨voices, direct⟩
  cases hi : st.instrument with
  | none =>
      cases direct with
      | nil => exact (compileVoices_facts voices s2).weaken
      | cons c0 cs0 =>
          exact ((compileVoices_facts voices s2).weaken.trans_voice
            ((voiceFacts_withCtx false (compileVoices voices s2)
              (fun c => { c with voice_id := 1, current_time := 0 })
              rfl rfl rfl rfl rfl).trans_voice
              (compileDirectItems_facts (c0 :: cs0)
                ((compileVoices voices s2).withCtx fun c =>
                  { c with voice_id := 1, current_time := 0 })).weaken))
  | some instr =>
      set s3 := s2.withCtx fun c =>
        { c with channel_programs :=
            alistInsert c.channel (gmProgram instr) c.channel_programs } with hs3
      set s4 := s3.emit (Event.programChange
        { start_time := 0, staff_id := st.name, voice_id := 0,
          program := gmProgram instr, channel := s3.ctx.channel }) with hs4
      have hpre : VoiceFacts false s2 s4 :=
        (voiceFacts_withCtx false s2
          (fun c =>
            { c with channel_programs :=
                alistInsert c.channel (gmProgram instr) c.channel_programs })
          rfl rfl rfl rfl rfl).trans_voice
          (voiceFacts_emit_nonnote false s3
            (Event.programChange
              { start_time := 0, staff_id := st.name, voice_id := 0,
                program := gmProgram instr, channel := s3.ctx.channel })
            (fun n h => Event.noConfusion h))
      cases direct with
      | nil => exact hpre.trans_voice (compileVoices_facts voices s4).weaken
      | cons c0 cs0 =>
          exact hpre.trans_voice ((compileVoices_facts voices s4).weaken.trans_voice
            ((voiceFacts_withCtx false (compileVoices voices s4)
              (fun c => { c with voice_id := 1, current_time := 0 })
              rfl rfl rfl rfl rfl).trans_voice
              (compileDirectItems_facts (c0 :: cs0)
                ((compileVoices voices s4).withCtx fun c =>
                  { c with voice_id := 1, current_time := 0 })).weaken))

theorem mem_sortAux : ∀ (pending acc : List Event) (x : Event),
    x ∈ sortEventsAux acc pending ↔ x ∈ acc ∨ x ∈ pending := by
  intro pending
  induction pending with
  | nil => intro acc x; simp [sortEventsAux]
  | cons e es ih =>
      intro acc x
      rw [sortEventsAux, ih (insertEv e acc) x, mem_insertEv e acc x, List.mem_cons]
      tauto

theorem mem_sortEvents (l : List Event) (x : Event) : x ∈ sortEvents l ↔ x ∈ l := by
  rw [sortEvents, mem_sortAux]
  simp

theorem alistLookup_none_not_mem [DecidableEq κ] :
    ∀ (m : List (κ × ν)) (k : κ), alistLookup k m = none ↔ k ∉ m.map Prod.fst := by
  intro m
  induction m with
  | nil => intro k; simp [alistLookup]
  | cons hd tl ih =>
      intro k
      obtain ⟨k', v'⟩ := hd
      rw [alistLookup, List.map_cons]
      by_cases hk : k' = k
      · subst hk
        simp
      · rw [if_neg hk, ih, List.mem_cons]
        constructor
        · intro h hc
          rcases hc with hc | hc
          · exact hk hc.symm
          · exact h hc
        · intro h hc
          exact h (Or.inr hc)

theorem alistInsert_keys [DecidableEq κ] (k : κ) (v : ν) :
    ∀ m : List (κ × ν), k ∉ m.map Prod.fst →
      (alistInsert k v m).map Prod.fst = m.map Prod.fst ++ [k] := by
  intro m
  induction m with
  | nil => intro _; rfl
  | cons hd tl ih =>
      intro h
      obtain ⟨k', v'⟩ := hd
      rw [List.map_cons] at h
      have hk : ¬ k' = k := fun hc => h (by rw [hc]; exact List.mem_cons_self _ _)
      rw [alistInsert, if_neg hk, List.map_cons, List.map_cons,
        ih (fun hc => h (List.mem_cons_of_mem _ hc)), List.cons_append]

/-- The number of staves in the list whose name is new: not among `seen` and
not the name of an earlier staff of the list.  With `seen` the allocated
staff names, this counts the channel allocations the staves will make. -/
def newStaffCount : List Staff → List String → Nat
  | [], _ => 0
  | st :: rest, seen =>
      if st.name ∈ seen then newStaffCount rest seen
      else newStaffCount rest (st.name :: seen) + 1

theorem newStaffCount_congr : ∀ (staves : List Staff) (seen seen' : List String),
    (∀ x, x ∈ seen ↔ x ∈ seen') →
    newStaffCount staves seen = newStaffCount staves seen' := by
  intro staves
  induction staves with
  | nil => intro _ _ _; rfl
  | cons st rest ih =>
      intro seen seen' h
      rw [newStaffCount, newStaffCount]
      by_cases hm : st.name ∈ seen
      · rw [if_pos hm, if_pos ((h _).mp hm)]
        exact ih _ _ h
      · rw [if_neg hm, if_neg (fun hc => hm ((h _).mpr hc))]
        refine congrArg (· + 1) (ih _ _ ?_)
        intro x
        rw [List.mem_cons, List.mem_cons, h x]

/-- Transport a channel bound along a step that keeps the note events, the
pending map, and sets the active channel to a bounded value. -/
theorem chanInv_set_channel {s r : CompState} {b ch : Nat} (hch : ch ≤ b)
    (hc : r.ctx.channel = ch) (hg : r.graph.events = s.graph.events)
    (hp : r.ctx.pending_ties = s.ctx.pending_ties) (h : ChanInv b s) : ChanInv b r :=
  ⟨hc ▸ hch, fun n hn => h.2.1 n (hg ▸ hn), fun kv hkv => h.2.2 kv (hp ▸ hkv)⟩

/-- The staff loop keeps every channel within 15 as long as at most 15
distinct staff names remain to be allocated, where `k` counts the names
already allocated. -/
theorem compileStaves_chanInv : ∀ (staves : List Staff) (s : CompState) (k : Nat),
    s.ctx.next_channel = (if k ≤ 9 then k else k + 1) →
    k + newStaffCount staves (s.ctx.staff_channels.map Prod.fst) ≤ 15 →
    (∀ kv ∈ s.ctx.staff_channels, kv.2 ≤ 15) →
    ChanInv 15 s →
    ChanInv 15 (compileStaves staves s)
  | [], _, _, _, _, _, hinv => hinv
  | st :: rest, s, k, hk, hcnt, hmap, hinv => by
      rw [compileStaves]
      have hstep := compileStaff_chan st s
      have hframe := allocateChannel_frame st.name s
      rcases hl : alistLookup st.name s.ctx.staff_channels with _ | c
      · -- a fresh staff name: allocate the next channel, skipping 9
        have hmem : st.name ∉ s.ctx.staff_channels.map Prod.fst :=
          (alistLookup_none_not_mem _ _).mp hl
        have hch1 : (allocateChannel st.name s).1 =
            (if s.ctx.next_channel = 9 then 10 else s.ctx.next_channel) := by
          rw [allocateChannel, hl]
        have hsc1 : (allocateChannel st.name s).2.ctx.staff_channels =
            alistInsert st.name ((allocateChannel st.name s).1) s.ctx.staff_channels := by
          rw [allocateChannel, hl]
          rfl
        have hnc1 : (allocateChannel st.name s).2.ctx.next_channel =
            (allocateChannel st.name s).1 + 1 := by
          rw [allocateChannel, hl]
          rfl
        have hk15 : k + 1 ≤ 15 := by
          rw [newStaffCount, if_neg hmem] at hcnt
          omega
        have hch : (allocateChannel st.name s).1 ≤ 15 := by
          rw [hch1, hk]
          split_ifs <;> omega
        have hpre : ChanInv 15 ((allocateChannel st.name s).2.withCtx fun c =>
            { c with staff_id := st.name, channel := (allocateChannel st.name s).1,
                     current_time := 0 }) := by
          refine chanInv_set_channel hch rfl ?_ ?_ hinv
          · show (allocateChannel st.name s).2.graph.events = s.graph.events
            rw [hframe.2.1]
          · exact hframe.1
        have hinv2 : ChanInv 15 (compileStaff st s) := ChanInv_of_VoiceFacts hstep hpre
        have hsc : (compileStaff st s).ctx.staff_channels =
            alistInsert st.name ((allocateChannel st.name s).1) s.ctx.staff_channels :=
          hstep.1.1.trans hsc1
        have hnc : (compileStaff st s).ctx.next_channel = (allocateChannel st.name s).1 + 1 :=
          hstep.1.2.1.trans hnc1
        refine compileStaves_chanInv rest (compileStaff st s) (k + 1) ?_ ?_ ?_ hinv2
        · rw [hnc, hch1, hk]
          split_ifs <;> omega
        · rw [hsc, alistInsert_keys _ _ _ hmem]
          have hcong := newStaffCount_congr rest
            (s.ctx.staff_channels.map Prod.fst ++ [st.name])
            (st.name :: s.ctx.staff_channels.map Prod.fst)
            (fun x => by rw [List.mem_append, List.mem_singleton, List.mem_cons]; tauto)
          rw [hcong]
          rw [newStaffCount, if_neg hmem] at hcnt
          omega
        · rw [hsc]
          intro kv hkv
          rcases mem_alistInsert _ _ _ _ hkv with rfl | hkv
          · exact hch
          · exact hmap kv hkv
      · -- a known staff name: reuse its channel, nothing else changes
        have hall1 : (allocateChannel st.name s).1 = c := by
          rw [allocateChannel, hl]
        have hall2 : (allocateChannel st.name s).2 = s := by
          rw [allocateChannel, hl]
        have hc15 : c ≤ 15 := hmap (st.name, c) (alistLookup_mem _ _ _ hl)
        have hpre : ChanInv 15 ((allocateChannel st.name s).2.withCtx fun cc =>
            { cc with staff_id := st.name, channel := (allocateChannel st.name s).1,
                      current_time := 0 }) := by
          refine chanInv_set_channel (by rw [hall1]; exact hc15) rfl ?_ ?_ hinv
          · show (allocateChannel st.name s).2.graph.events = s.graph.events
            rw [hall2]
          · show (allocateChannel st.name s).2.ctx.pending_ties = s.ctx.pending_ties
            rw [hall2]
        have hinv2 : ChanInv 15 (compileStaff st s) := ChanInv_of_VoiceFacts hstep hpre
        have hsc : (compileStaff st s).ctx.staff_channels = s.ctx.staff_channels :=
          hstep.1.1.trans (by rw [hall2]; rfl)
        have hnc : (compileStaff st s).ctx.next_channel = s.ctx.next_channel :=
          hstep.1.2.1.trans (by rw [hall2]; rfl)
        refine compileStaves_chanInv rest (compileStaff st s) k ?_ ?_ ?_ hinv2
        · rw [hnc, hk]
        · rw [hsc]
          have hmem : st.name ∈ s.ctx.staff_channels.map Prod.fst := by
            by_contra hcon
            rw [← alistLookup_none_not_mem s.ctx.staff_channels st.name] at hcon
            rw [hcon] at hl
            exact Option.noConfusion hl
          rw [newStaffCount, if_pos hmem] at hcnt
          exact hcnt
        · rw [hsc]
          exact hmap

/-- Compiling a dynamics-free staff preserves the running velocity and emits
every new note event at that velocity (when the pending map carried it). -/
theorem compileStaff_vel (st : Staff) (s : CompState) (hnd : noDynStaff st = true) :
    NewNotesVel s (compileStaff st s) := by
  have hsplit := splitStaff_noDyn st.contents hnd
  rw [compileStaff]
  rcases ha : allocateChannel st.name s with ⟨ch, s1⟩
  obtain ⟨hap, hag, hav⟩ := allocateChannel_frame st.name s
  rw [ha] at hap hag hav
  have h1 : NewNotesVel s s1 := newNotesVel_of_eq hav hap (by rw [hag])
  rcases hsp : splitStaffContents st.contents with ⟨voices, direct⟩
  rw [hsp] at hsplit
  have hv : (voices.all fun v => noDynContents v.2) = true := hsplit.1
  have hd : (direct.all noDynContent) = true := hsplit.2
  have hV : ∀ x : CompState, NewNotesVel s x → NewNotesVel s (compileVoices voices x) :=
    fun x hx => hx.trans_vel ((compileVoices_facts voices x).2.2.2 hv)
  have hD : ∀ x : CompState, NewNotesVel s x → NewNotesVel s (compileDirectItems direct x) :=
    fun x hx => hx.trans_vel ((compileDirectItems_facts direct x).2.2.2 hd)
  have h2 : NewNotesVel s (s1.withCtx fun c =>
      { c with staff_id := st.name, channel := ch, current_time := 0 }) :=
    h1.trans_vel (newNotesVel_of_eq (s := s1) rfl rfl rfl)
  cases hi : st.instrument with
  | none =>
      cases direct with
      | nil => exact hV _ h2
      | cons c0 cs0 =>
          exact hD _ ((hV _ h2).trans_vel
            (newNotesVel_of_eq (s := compileVoices voices (s1.withCtx fun c =>
              { c with staff_id := st.name, channel := ch, current_time := 0 }))
              (r := (compileVoices voices (s1.withCtx fun c =>
                { c with staff_id := st.name, channel := ch, current_time := 0 })).withCtx
                fun c => { c with voice_id := 1, current_time := 0 }) rfl rfl rfl))
  | some instr =>
      have h3 : NewNotesVel s ((s1.withCtx fun c =>
          { c with staff_id := st.name, channel := ch, current_time := 0 }).withCtx fun c =>
          { c with channel_programs :=
              alistInsert c.channel (gmProgram instr) c.channel_programs }) :=
        h2.trans_vel (newNotesVel_of_eq
          (s := s1.withCtx fun c =>
            { c with staff_id := st.name, channel := ch, current_time := 0 }) rfl rfl rfl)
      have h4 : NewNotesVel s (((s1.withCtx fun c =>
          { c with staff_id := st.name, channel := ch, current_time := 0 }).withCtx fun c =>
          { c with channel_programs :=
              alistInsert c.channel (gmProgram instr) c.channel_programs }).emit
          (Event.programChange
            { start_time := 0, staff_id := st.name, voice_id := 0,
              program := gmProgram instr,
              channel := (((s1.withCtx fun c =>
                { c with staff_id := st.name, channel := ch, current_time := 0 }).withCtx fun c =>
                { c with channel_programs :=
                    alistInsert c.channel (gmProgram instr) c.channel_programs })).ctx.channel })) :=
        h3.trans_vel (newNotesVel_emit_nonnote _ _ (fun n h => Event.noConfusion h))
      cases direct with
      | nil => exact hV _ h4
      | cons c0 cs0 =>
          exact hD _ ((hV _ h4).trans_vel (newNotesVel_of_eq
            (s := compileVoices voices (((s1.withCtx fun c =>
              { c with staff_id := st.name, channel := ch, current_time := 0 }).withCtx fun c =>
              { c with channel_programs :=
                  alistInsert c.channel (gmProgram instr) c.channel_programs }).emit
              (Event.programChange
                { start_time := 0, staff_id := st.name, voice_id := 0,
                  program := gmProgram instr,
                  channel := (((s1.withCtx fun c =>
                    { c with staff_id := st.name, channel := ch, current_time := 0 }).withCtx
                    fun c =>
                    { c with channel_programs :=
                        alistInsert c.channel (gmProgram instr) c.channel_programs })).ctx.channel })))
            (r := (compileVoices voices (((s1.withCtx fun c =>
              { c with staff_id := st.name, channel := ch, current_time := 0 }).withCtx fun c =>
              { c with channel_programs :=
                  alistInsert c.channel (gmProgram instr) c.channel_programs }).emit
              (Event.programChange
                { start_time := 0, staff_id := st.name, voice_id := 0,
                  program := gmProgram instr,
                  channel := (((s1.withCtx fun c =>
                    { c with staff_id := st.name, channel := ch, current_time := 0 }).withCtx
                    fun c =>
                    { c with channel_programs :=
                        alistInsert c.channel (gmProgram instr) c.channel_programs })).ctx.channel }))).withCtx
              fun c => { c with voice_id := 1, current_time := 0 }) rfl rfl rfl))


/-! ## Claim C1 — velocity propagation -/

/-- The claim's per-staff velocity rule, read off an event list: the velocity
of the last dynamic event of the same staff at or before the note's start,
or 80 if there is none.  Modelled from the spec's words, to be compared with
the compiler. -/
def specVelOn (events : List Event) (n : NoteEv) : Nat :=
  events.foldl
    (fun acc e =>
      match e with
      | .dynamic d =>
          if d.staff_id = n.staff_id && Q.ble d.start_time n.start_time then d.velocity
          else acc
      | _ => acc) 80

/-- Claim C1's property as a boolean check over a compiled graph. -/
def c1SpecHolds (g : EventGraph) : Bool :=
  g.events.all fun e =>
    match e with
    | .note n => n.velocity = specVelOn g.events n
    | _ => true

/-- Two staves: staff `a` opens with `ff` before a whole note, staff `b` has
only a whole note and no dynamics at all. -/
def crossStaffDynScore : Score :=
  { staves :=
      [{ name := "a", contents := [.voice 1 (Contents.ofList
          [.measure none (Contents.ofList
            [.dynamic { marking := "ff" },
             .note { pitch := { name := .C, octave := 4 },
                     duration := { base_value := Q.ofInt 1 } }])])] },
       { name := "b", contents := [.voice 1 (Contents.ofList
          [.measure none (Contents.ofList
            [.note { pitch := { name := .C, octave := 4 },
                     duration := { base_value := Q.ofInt 1 } }])])] }],
    time_signature := some { numerator := 4, denominator := 4 } }

/-- Claim C1 is false on the code: in `crossStaffDynScore` the note of staff
`b` — a staff containing no dynamic marking — is emitted with velocity 112,
inherited from the `ff` of staff `a`, where the claim demands 80.  The
running velocity is global to the compile, not per staff. -/
theorem c1_counterexample :
    c1SpecHolds (compile_score crossStaffDynScore) = false ∧
    Event.note { start_time := 0, staff_id := "b", voice_id := 1, midi_note := 60,
                 duration := Q.ofInt 1, velocity := 112, channel := 1 }
      ∈ (compile_score crossStaffDynScore).events := by
  constructor
  · decide
  · decide

/-- Claim C1 (amended): the running velocity starts at 80, each dynamic
marking sets it to that marking's velocity, and it is global to the compile:
a dynamics-free content item or staff preserves it and emits every new note
event at it (given that pending tied notes carry it), staff boundaries
included — so a dynamic in one staff does carry into later staves. -/
theorem c1_velocity_propagation :
    (({} : CompCtx).current_velocity = 80) ∧
    (∀ (d : Dynamic) (s : CompState),
        (compileDynamic d s).1.ctx.current_velocity = d.velocity) ∧
    (∀ (item : Content) (tr : Q) (s : CompState),
        noDynContent item = true → PendVel s →
        (compileContent item tr s).1.ctx.current_velocity = s.ctx.current_velocity ∧
        ∀ n : NoteEv, Event.note n ∈ (compileContent item tr s).1.graph.events →
          Event.note n ∈ s.graph.events ∨ n.velocity = s.ctx.current_velocity) ∧
    (∀ (st : Staff) (s : CompState),
        noDynStaff st = true → PendVel s →
        (compileStaff st s).ctx.current_velocity = s.ctx.current_velocity ∧
        ∀ n : NoteEv, Event.note n ∈ (compileStaff st s).graph.events →
          Event.note n ∈ s.graph.events ∨ n.velocity = s.ctx.current_velocity) := by
  refine ⟨rfl, fun d s => rfl, ?_, ?_⟩
  · intro item tr s hnd hp
    have h := (contentFacts item tr s).2 hnd
    exact ⟨h.1, fun n hn => (h.2 hp).2 n hn⟩
  · intro st s hnd hp
    have h := compileStaff_vel st s hnd
    exact ⟨h.1, fun n hn => (h.2 hp).2 n hn⟩

/-- A one-note staff with no dynamics. -/
def c1WitnessStaff : Staff :=
  { name := "w",
    contents := [.item (.note
      { pitch := { name := .C, octave := 4 },
        duration := { base_value := Q.frac 1 4 } })] }

/-- Witness for the amended claim C1 at concrete inputs: the fresh context
starts at 80, an `ff` sets the running velocity to 112, and compiling a
dynamics-free staff from the fresh state keeps the velocity at 80 and emits
only notes carrying it. -/
theorem c1_amended_witness :
    (({} : CompCtx).current_velocity = 80) ∧
    (compileDynamic { marking := "ff" } {}).1.ctx.current_velocity =
      Dynamic.velocity { marking := "ff" } ∧
    ((compileStaff c1WitnessStaff {}).ctx.current_velocity =
        ({} : CompState).ctx.current_velocity ∧
      ∀ n : NoteEv, Event.note n ∈ (compileStaff c1WitnessStaff {}).graph.events →
        Event.note n ∈ ({} : CompState).graph.events ∨
          n.velocity = ({} : CompState).ctx.current_velocity) :=
  ⟨c1_velocity_propagation.1,
   c1_velocity_propagation.2.1 { marking := "ff" } {},
   c1_velocity_propagation.2.2.2 c1WitnessStaff {} (by decide) (fun kv hkv => nomatch hkv)⟩

/-! ## Claim C5 — channel allocation -/

/-- Claim C5 (amended): channels are allocated sequentially from 0 (the fresh
context's `next_channel` is 0), skipping 9; an already-mapped staff name
reuses its channel and changes nothing; a fresh name takes
`next_channel` (or 10 when that is 9), records itself in the map and bumps
`next_channel`; and every note event's channel is at most 15 provided the
score uses at most 15 distinct staff names. -/
theorem c5_channel_allocation :
    (({} : CompCtx).next_channel = 0) ∧
    (∀ (staff_id : String) (s : CompState) (c : Nat),
        alistLookup staff_id s.ctx.staff_channels = some c →
        allocateChannel staff_id s = (c, s)) ∧
    (∀ (staff_id : String) (s : CompState),
        alistLookup staff_id s.ctx.staff_channels = none →
        (allocateChannel staff_id s).1 =
          (if s.ctx.next_channel = 9 then 10 else s.ctx.next_channel) ∧
        (allocateChannel staff_id s).2.ctx.staff_channels =
          alistInsert staff_id ((allocateChannel staff_id s).1) s.ctx.staff_channels ∧
        (allocateChannel staff_id s).2.ctx.next_channel =
          (allocateChannel staff_id s).1 + 1) ∧
    (∀ score : Score, newStaffCount score.staves [] ≤ 15 →
        ∀ n : NoteEv, Event.note n ∈ (compile_score score).events → n.channel ≤ 15) := by
  refine ⟨rfl, ?_, ?_, ?_⟩
  · intro staff_id s c hl
    rw [allocateChannel, hl]
  · intro staff_id s hl
    refine ⟨?_, ?_, ?_⟩
    · rw [allocateChannel, hl]
    · rw [allocateChannel, hl]
      rfl
    · rw [allocateChannel, hl]
      rfl
  · intro score hsc n hn
    have key : ∀ s0 : CompState,
        s0.ctx.next_channel = 0 → s0.ctx.staff_channels = [] →
        s0.ctx.pending_ties = [] → s0.ctx.channel = 0 →
        (∀ m : NoteEv, Event.note m ∉ s0.graph.events) →
        ChanInv 15 (compileStaves score.staves s0) := by
      intro s0 h1 h2 h3 h4 h5
      refine compileStaves_chanInv score.staves s0 0 ?_ ?_ ?_ ?_
      · rw [h1]
        rfl
      · rw [h2]
        simpa using hsc
      · rw [h2]
        intro kv hkv
        exact absurd hkv (List.not_mem_nil kv)
      · refine ⟨?_, ?_, ?_⟩
        · rw [h4]
          omega
        · intro m hm
          exact absurd hm (h5 m)
        · rw [h3]
          intro kv hkv
          exact absurd hkv (List.not_mem_nil kv)
    rcases ht : score.tempo with _ | t <;> rcases hts : score.time_signature with _ | ts <;>
      simp only [compile_score, compileScoreState, ht, hts, EventGraph.sortg] at hn <;>
      rw [mem_sortEvents] at hn
    · exact (key _ rfl rfl rfl rfl
        (fun m hm => absurd hm (List.not_mem_nil _))).2.1 n hn
    · exact (key _ rfl rfl rfl rfl
        (fun m hm => by simp [CompState.emit_events] at hm)).2.1 n hn
    · exact (key _ rfl rfl rfl rfl
        (fun m hm => by simp [CompState.emit_events] at hm)).2.1 n hn
    · exact (key _ rfl rfl rfl rfl
        (fun m hm => by simp [CompState.emit_events] at hm)).2.1 n hn

/-- Sixteen staves with sixteen distinct names, one whole note each. -/
def sixteenStaffScore : Score :=
  { staves := (["a", "b", "c", "d", "e", "f", "g", "h", "i", "j", "k", "l", "m",
      "n", "o", "p"].map
      fun nm => ({ name := nm, contents := [.item (.note
        { pitch := { name := .C, octave := 4 },
          duration := { base_value := Q.ofInt 1 } })] } : Staff)) }

/-- Claim C5 is false on the code: with sixteen distinct staves the sixteenth
(the fifteen channels 0-8 and 10-15 being taken) is allocated channel 16,
and its note event leaves the MIDI range `[0, 15]` — `_allocate_channel`
never wraps around. -/
theorem c5_counterexample :
    Event.note { start_time := 0, staff_id := "p", voice_id := 1, midi_note := 60,
                 duration := Q.ofInt 1, velocity := 80, channel := 16 }
      ∈ (compile_score sixteenStaffScore).events ∧
    ¬ (∀ n : NoteEv, Event.note n ∈ (compile_score sixteenStaffScore).events →
        n.channel ≤ 15) := by
  constructor
  · decide
  · intro h
    exact absurd
      (h { start_time := 0, staff_id := "p", voice_id := 1, midi_note := 60,
           duration := Q.ofInt 1, velocity := 80, channel := 16 } (by decide))
      (by decide)

/-- A state whose channel map already holds `piano`, with `next_channel` 4. -/
def c5WitnessState : CompState :=
  { ctx := { staff_channels := [("piano", 3)], next_channel := 4 } }

/-- Witness for the amended claim C5 at concrete inputs: a mapped name reuses
its channel with the state untouched, a fresh name takes `next_channel`, and
a one-staff score compiles with every note channel within 15. -/
theorem c5_amended_witness :
    allocateChannel "piano" c5WitnessState = (3, c5WitnessState) ∧
    (allocateChannel "organ" c5WitnessState).1 =
      (if c5WitnessState.ctx.next_channel = 9 then 10 else c5WitnessState.ctx.next_channel) ∧
    (∀ n : NoteEv, Event.note n ∈ (compile_score tieFusionScore).events → n.channel ≤ 15) :=
  ⟨c5_channel_allocation.2.1 "piano" c5WitnessState 3 (by decide),
   (c5_channel_allocation.2.2.1 "organ" c5WitnessState (by decide)).1,
   c5_channel_allocation.2.2.2 tieFusionScore (by decide)⟩

/-! ## Claim C10 — grace notes on chords -/

theorem alistLookup_insert_ne [DecidableEq kk] {j k : kk} (h : j ≠ k) (v : vv) :
    ∀ m : List (kk × vv), alistLookup j (alistInsert k v m) = alistLookup j m := by
  intro m
  induction m with
  | nil =>
      simp [alistInsert, alistLookup, if_neg (show ¬ k = j from fun hc => h hc.symm)]
  | cons hd tl ih =>
      obtain ⟨k0, v0⟩ := hd
      rw [alistInsert]
      by_cases hk : k0 = k
      · subst hk
        simp [alistLookup, if_neg (show ¬ k0 = j from fun hc => h hc.symm)]
      · rw [if_neg hk]
        simp only [alistLookup]
        by_cases hj : k0 = j
        · rw [if_pos hj, if_pos hj]
        · rw [if_neg hj, if_neg hj, ih]

/-- The note event `_compile_chord` builds for one chord pitch in the
no-pending-tie branch. -/
def chordPitchEv (duration : Q) (tied : Bool) (arts : List String) (s : CompState)
    (p : Pitch) : NoteEv :=
  { start_time := s.ctx.current_time, staff_id := s.ctx.staff_id,
    voice_id := s.ctx.voice_id, midi_note := p.midi_number,
    duration := duration, velocity := s.ctx.current_velocity,
    articulations := arts, is_tied_from := false, is_tied_to := tied,
    channel := s.ctx.channel }

/-- The per-pitch loop of `_compile_chord` in the clean case — no chord pitch
resolves a pending tie and the pitches have pairwise distinct MIDI numbers —
appends exactly one note event per pitch, at the cursor, with the given
duration and the running velocity. -/
theorem compileChordPitches_clean (duration : Q) (tied : Bool) (arts : List String) :
    ∀ (ps : List Pitch) (s : CompState),
      (∀ p ∈ ps, alistLookup (s.ctx.staff_id, s.ctx.voice_id, p.midi_number)
        s.ctx.pending_ties = none) →
      ps.Pairwise (fun p q => p.midi_number ≠ q.midi_number) →
      (compileChordPitches duration tied arts ps s).graph.events =
        s.graph.events ++ ps.map (fun p =>
          Event.note (chordPitchEv duration tied arts s p)) := by
  intro ps
  induction ps with
  | nil => intro s _ _; simp [compileChordPitches]
  | cons p rest ih =>
      intro s hnone hpw
      rw [List.pairwise_cons] at hpw
      obtain ⟨hhead, htail⟩ := hpw
      rw [compileChordPitches]
      rw [hnone p (List.mem_cons_self _ _)]
      cases htd : tied with
      | false =>
          rw [htd] at ih
          refine (ih (s.emit (Event.note (chordPitchEv duration false arts s p)))
            (fun q hq => hnone q (List.mem_cons_of_mem _ hq)) htail).trans ?_
          simp [chordPitchEv, List.append_assoc]
      | true =>
          rw [htd] at ih
          set ev := chordPitchEv duration true arts s p with hev
          set key := (s.ctx.staff_id, s.ctx.voice_id, p.midi_number) with hkey
          refine (ih ((s.emit (Event.note ev)).withCtx
              fun c => { c with pending_ties := alistInsert key ev c.pending_ties })
            ?_ htail).trans ?_
          · intro q hq
            show alistLookup (s.ctx.staff_id, s.ctx.voice_id, q.midi_number)
              (alistInsert key ev s.ctx.pending_ties) = none
            rw [hkey, alistLookup_insert_ne
              (fun hc => (hhead q hq)
                ((congrArg (fun t : String × Int × Int => t.2.2) hc).symm))]
            exact hnone q (List.mem_cons_of_mem _ hq)
          · simp [hev, chordPitchEv, List.append_assoc]

theorem compileGraceLoop_events_len (gu : Q) : ∀ (gs : List GraceNote) (gd : Q)
    (s : CompState), (compileGraceLoop gu gs gd s).1.graph.events.length =
      s.graph.events.length + gs.length := by
  intro gs
  induction gs with
  | nil => intro gd s; rfl
  | cons g rest ih =>
      intro gd s
      rw [compileGraceLoop, ih]
      simp only [CompState.emit_events, List.length_append, List.length_cons,
        List.length_nil]
      omega

theorem compileGraceLoop_ctx (gu : Q) : ∀ (gs : List GraceNote) (gd : Q) (s : CompState),
    (compileGraceLoop gu gs gd s).1.ctx = s.ctx := by
  intro gs
  induction gs with
  | nil => intro gd s; rfl
  | cons g rest ih =>
      intro gd s
      rw [compileGraceLoop, ih]
      rfl

/-- Claim C10 as stated, as a proposition over the compiler: a chord with
grace notes compiles to exactly one note event per pitch at the cursor with
the full scaled duration, the grace notes contributing nothing. -/
def ClaimC10 : Prop :=
  ∀ (c : Chord) (tr : Q) (s : CompState), c.grace_notes ≠ [] →
    (compileChord c tr s).1.graph.events =
      s.graph.events ++ c.pitches.map (fun p => Event.note
        (chordPitchEv (c.duration.total_value * tr) c.tied (artFlags c.articulations) s p))

/-- The pending note event of a compiled `C4 h tie` in staff piano, voice 1. -/
def c10PrevEv : NoteEv :=
  { start_time := 0, staff_id := "piano", voice_id := 1, midi_note := 60,
    duration := Q.frac 1 2, velocity := 80, is_tied_to := true }

/-- The compiler state after `C4 h tie` in staff piano, voice 1: the half
note's event is in the graph and pending under key `("piano", 1, 60)`. -/
def c10PendingState : CompState :=
  { ctx := { staff_id := "piano", voice_id := 1, current_time := Q.frac 1 2,
             pending_ties := [(("piano", 1, 60), c10PrevEv)] },
    graph := { events := [Event.note c10PrevEv] } }

/-- A chord `<C4, E4> h` carrying a grace note D4. -/
def c10Chord : Chord :=
  { pitches := [{ name := .C, octave := 4 }, { name := .E, octave := 4 }],
    duration := { base_value := Q.frac 1 2 },
    grace_notes := [{ pitch := { name := .D, octave := 4 } }] }

/-- `C4 h tie` then `<C4, E4> h` with a grace note on the chord, in 4/4. -/
def tieChordScore : Score :=
  { staves := [{ name := "piano", contents := [.voice 1 (Contents.ofList
      [.measure none (Contents.ofList
        [.note { pitch := { name := .C, octave := 4 },
                 duration := { base_value := Q.frac 1 2 }, tied := true },
         .chord c10Chord])])] }],
    time_signature := some { numerator := 4, denominator := 4 } }

/-- Claim C10 is false on the code: when a chord pitch resolves a pending tie
the compiler fuses it with the pending note event instead of emitting a fresh
event for that pitch, so the chord does not produce one event per pitch.  The
whole-score compile of `C4 h tie` followed by `<C4, E4> h` yields two note
events, not the three the claim predicts. -/
theorem c10_counterexample :
    ¬ ClaimC10 ∧ (compile_score tieChordScore).get_note_events.length = 2 := by
  constructor
  · intro h
    have := h c10Chord 1 c10PendingState (by decide)
    exact absurd this (by decide)
  · decide

/-- Claim C10 (amended): grace notes attached to a chord are dropped — the
compiled result does not depend on them at all — and when no chord pitch
resolves a pending tie and the pitches have distinct MIDI numbers, the chord
emits exactly one note event per pitch at the cursor with the full
tuplet-scaled duration; a single note with grace notes, by contrast, emits
one event per grace note before its own. -/
theorem c10_chord_graces :
    (∀ (c : Chord) (tr : Q) (s : CompState),
        compileChord c tr s = compileChord { c with grace_notes := [] } tr s) ∧
    (∀ (c : Chord) (tr : Q) (s : CompState),
        (∀ p ∈ c.pitches, alistLookup (s.ctx.staff_id, s.ctx.voice_id, p.midi_number)
          s.ctx.pending_ties = none) →
        c.pitches.Pairwise (fun p q => p.midi_number ≠ q.midi_number) →
        (compileChord c tr s).1.graph.events =
          s.graph.events ++ c.pitches.map (fun p => Event.note
            (chordPitchEv (c.duration.total_value * tr) c.tied
              (artFlags c.articulations) s p))) ∧
    (∀ (note : Note) (tr : Q) (s : CompState),
        alistLookup (s.ctx.staff_id, s.ctx.voice_id, note.pitch.midi_number)
          s.ctx.pending_ties = none →
        note.ornaments = [] →
        (compileNote note tr s).1.graph.events.length =
          s.graph.events.length + note.grace_notes.length + 1) := by
  refine ⟨?_, ?_, ?_⟩
  · intro c tr s
    cases c
    rfl
  · intro c tr s hnone hpw
    rw [compileChord]
    exact compileChordPitches_clean _ c.tied _ c.pitches s hnone hpw
  · intro note tr s hnone horn
    rcases hg : compileGraceLoop (note.duration.total_value * tr * Q.frac 1 8)
      note.grace_notes 0 s with ⟨sg, gd⟩
    have hctx : sg.ctx = s.ctx := by
      have h0 := compileGraceLoop_ctx (note.duration.total_value * tr * Q.frac 1 8)
        note.grace_notes 0 s
      rw [hg] at h0
      exact h0
    have hlen : sg.graph.events.length = s.graph.events.length + note.grace_notes.length := by
      have h0 := compileGraceLoop_events_len (note.duration.total_value * tr * Q.frac 1 8)
        note.grace_notes 0 s
      rw [hg] at h0
      exact h0
    simp only [compileNote, hg, hctx, hnone, horn, compileOrnaments]
    cases htd : note.tied with
    | false =>
        simp only [htd, Bool.false_eq_true, if_false, CompState.withCtx_graph,
          CompState.emit_events, List.length_append, List.length_cons, List.length_nil]
        omega
    | true =>
        simp only [htd, if_true, CompState.withCtx_graph, CompState.emit_events,
          List.length_append, List.length_cons, List.length_nil]
        omega

/-- Witness for the amended claim C10 at concrete inputs: the chord compiles
identically with its grace note removed, and from the fresh state it emits
exactly its two pitch events. -/
theorem c10_amended_witness :
    compileChord c10Chord 1 {} = compileChord { c10Chord with grace_notes := [] } 1 {} ∧
    (compileChord c10Chord 1 {}).1.graph.events =
      ({} : CompState).graph.events ++ c10Chord.pitches.map (fun p => Event.note
        (chordPitchEv (c10Chord.duration.total_value * 1) c10Chord.tied
          (artFlags c10Chord.articulations) {} p)) :=
  ⟨c10_chord_graces.1 c10Chord 1 {},
   c10_chord_graces.2.1 c10Chord 1 {} (by decide) (by decide)⟩

/-! ## Claim C4 — strict and non-strict analysis

`NStepG` relates one analyzer step run non-strictly and strictly from the
same context: the non-strict run always succeeds and appends some list of
new errors to the report, and the strict run returns the same result when
that list is empty and raises the first new error otherwise. -/

def NStepG {α : Type} (proj : α → VCtx) (ctx : VCtx) (rF rT : Except SemErr α) : Prop :=
  ∃ a, rF = .ok a ∧ ∃ newE, (proj a).errors = ctx.errors ++ newE ∧
    (newE = [] → rT = .ok a) ∧ ∀ e rest, newE = e :: rest → rT = .error e

theorem NStepG.pure {α : Type} (proj : α → VCtx) (ctx : VCtx) (a : α)
    (h : (proj a).errors = ctx.errors) : NStepG proj ctx (.ok a) (.ok a) :=
  ⟨a, rfl, [], by simp [h], fun _ => rfl, fun e rest hx => absurd hx (by simp)⟩

theorem NStepG.congr_base {α : Type} {proj : α → VCtx} {ctx ctx' : VCtx}
    {rF rT : Except SemErr α} (h : NStepG proj ctx' rF rT)
    (he : ctx'.errors = ctx.errors) : NStepG proj ctx rF rT := by
  obtain ⟨a, h1, newE, h2, h3, h4⟩ := h
  exact ⟨a, h1, newE, by rw [h2, he], h3, h4⟩

theorem NStepG.bind {α β : Type} {p : α → VCtx} {q : β → VCtx} {ctx : VCtx}
    {fF fT : Except SemErr α} {gF gT : α → Except SemErr β}
    (h1 : NStepG p ctx fF fT)
    (h2 : ∀ a, fF = .ok a → NStepG q (p a) (gF a) (gT a)) :
    NStepG q ctx (fF >>= gF) (fT >>= gT) := by
  obtain ⟨a, hfF, newE1, hE1, hnil1, hcons1⟩ := h1
  obtain ⟨b, hgF, newE2, hE2, hnil2, hcons2⟩ := h2 a hfF
  refine ⟨b, ?_, newE1 ++ newE2, ?_, ?_, ?_⟩
  · rw [hfF]
    show gF a = .ok b
    exact hgF
  · rw [hE2, hE1, List.append_assoc]
  · intro hne
    obtain ⟨hn1, hn2⟩ := List.append_eq_nil.mp hne
    rw [hnil1 hn1]
    show gT a = .ok b
    exact hnil2 hn2
  · intro e rest hcons
    cases newE1 with
    | nil =>
        rw [List.nil_append] at hcons
        rw [hnil1 rfl]
        show gT a = .error e
        exact hcons2 e rest hcons
    | cons e1 r1 =>
        rw [List.cons_append] at hcons
        injection hcons with he _
        rw [hcons1 e1 r1 rfl, he]
        rfl

theorem addError_nstep (ctx : VCtx) (e : SemErr) :
    NStepG id ctx (addError false ctx e) (addError true ctx e) := by
  refine ⟨{ ctx with errors := ctx.errors ++ [e] }, rfl, [e], rfl, ?_, ?_⟩
  · intro h
    exact absurd h (by simp)
  · intro e' rest h
    injection h with h1 _
    rw [addError, if_pos rfl, h1]

theorem NStepG.ite {α : Type} {proj : α → VCtx} {ctx : VCtx} (cond : Prop)
    [Decidable cond] {aF aT bF bT : Except SemErr α}
    (ha : cond → NStepG proj ctx aF aT) (hb : ¬ cond → NStepG proj ctx bF bT) :
    NStepG proj ctx (if cond then aF else bF) (if cond then aT else bT) := by
  by_cases h : cond
  · rw [if_pos h, if_pos h]
    exact ha h
  · rw [if_neg h, if_neg h]
    exact hb h

/-- One optional error check of the shape `if cond then addError … else ok`. -/
theorem condError_nstep (ctx : VCtx) (e : SemErr) (cond : Prop) [Decidable cond] :
    NStepG id ctx (if cond then addError false ctx e else .ok ctx)
      (if cond then addError true ctx e else .ok ctx) := by
  by_cases h : cond
  · rw [if_pos h, if_pos h]
    exact addError_nstep ctx e
  · rw [if_neg h, if_neg h]
    exact NStepG.pure id ctx ctx rfl

theorem validatePitches_nstep (tied : Bool) : ∀ (ps : List Pitch) (ctx : VCtx),
    NStepG id ctx (validatePitches false tied ps ctx) (validatePitches true tied ps ctx) := by
  intro ps
  induction ps with
  | nil => intro ctx; exact NStepG.pure id ctx ctx rfl
  | cons p rest ih =>
      intro ctx
      rw [validatePitches, validatePitches]
      rcases hl : alistLookup (ctx.current_staff, ctx.current_voice, p.midi_number)
        ctx.pending_ties with _ | expected
      · refine NStepG.bind (NStepG.pure id ctx ctx rfl) ?_
        intro a ha
        injection ha with ha'
        subst ha'
        exact (ih _).congr_base (by cases tied <;> rfl)
      · refine NStepG.ite (p.enharmonic_equal expected = true) ?_ ?_
        · intro he
          refine NStepG.bind (NStepG.pure id ctx
            { ctx with
              pending_ties := alistErase
                (ctx.current_staff, ctx.current_voice, p.midi_number) ctx.pending_ties }
            rfl) ?_
          intro a ha
          injection ha with ha'
          subst ha'
          exact (ih _).congr_base (by cases tied <;> rfl)
        · intro he
          refine NStepG.bind (addError_nstep ctx (.tieResolutionFailed expected p)) ?_
          intro c1 _
          refine NStepG.bind (NStepG.pure id c1
            { c1 with
              pending_ties := alistErase
                (ctx.current_staff, ctx.current_voice, p.midi_number) c1.pending_ties }
            rfl) ?_
          intro a ha
          injection ha with ha'
          subst ha'
          exact (ih _).congr_base (by cases tied <;> rfl)

theorem validateNoteOrChord_nstep (item : Content) (ctx : VCtx) :
    NStepG id ctx (validateNoteOrChord false item ctx) (validateNoteOrChord true item ctx) := by
  cases item with
  | note n => exact validatePitches_nstep n.tied [n.pitch] ctx
  | chord c => exact validatePitches_nstep c.tied c.pitches ctx
  | rest r => exact NStepG.pure id ctx ctx rfl
  | tuplet a n cs => exact NStepG.pure id ctx ctx rfl
  | slur cs => exact NStepG.pure id ctx ctx rfl
  | dynamic d => exact NStepG.pure id ctx ctx rfl
  | hairpin h => exact NStepG.pure id ctx ctx rfl
  | pedal p => exact NStepG.pure id ctx ctx rfl
  | tempoMark t => exact NStepG.pure id ctx ctx rfl
  | timeSignature t => exact NStepG.pure id ctx ctx rfl
  | keySignature k => exact NStepG.pure id ctx ctx rfl
  | instrumentChange i => exact NStepG.pure id ctx ctx rfl
  | measure num cs => exact NStepG.pure id ctx ctx rfl

theorem NStepG.bind_pureA {α β : Type} {p : α → VCtx} {q : β → VCtx} {ctx : VCtx}
    (a0 : α) (h0 : (p a0).errors = ctx.errors) {gF gT : α → Except SemErr β}
    (h : NStepG q (p a0) (gF a0) (gT a0)) :
    NStepG q ctx (Except.ok a0 >>= gF) (Except.ok a0 >>= gT) :=
  NStepG.bind (NStepG.pure p ctx a0 h0) (fun a ha => by
    injection ha with ha'
    subst ha'
    exact h)

theorem tupletChecks_nstep (a n : Int) (cs : Contents) (ctx : VCtx) :
    NStepG id ctx (tupletChecks false a n cs ctx) (tupletChecks true a n cs ctx) := by
  rw [tupletChecks, tupletChecks]
  have tail : ∀ b : VCtx, NStepG id b
      (if cs = Contents.nil then addError false b .tupletEmpty else pure b)
      (if cs = Contents.nil then addError true b .tupletEmpty else pure b) :=
    fun b => condError_nstep b .tupletEmpty (cs = Contents.nil)
  have mid : ∀ b : VCtx, NStepG id b
      (if n ≤ 0 then addError false b (.tupletNormalNonpositive n) >>= fun c =>
          (if cs = Contents.nil then addError false c .tupletEmpty else pure c)
        else pure b >>= fun c =>
          (if cs = Contents.nil then addError false c .tupletEmpty else pure c))
      (if n ≤ 0 then addError true b (.tupletNormalNonpositive n) >>= fun c =>
          (if cs = Contents.nil then addError true c .tupletEmpty else pure c)
        else pure b >>= fun c =>
          (if cs = Contents.nil then addError true c .tupletEmpty else pure c)) := by
    intro b
    refine NStepG.ite (n ≤ 0) ?_ ?_
    · intro h
      exact NStepG.bind (addError_nstep b (.tupletNormalNonpositive n)) (fun c _ => tail c)
    · intro h
      exact NStepG.bind_pureA (p := id) (q := id) b rfl (tail b)
  refine NStepG.ite (a ≤ 0) ?_ ?_
  · intro h
    exact NStepG.bind (addError_nstep ctx (.tupletActualNonpositive a)) (fun c _ => mid c)
  · intro h
    exact NStepG.bind_pureA (p := id) (q := id) ctx rfl (mid ctx)

theorem validateTupletContents_nstep : ∀ (cs : Contents) (ctx : VCtx),
    NStepG id ctx (validateTupletContents false cs ctx) (validateTupletContents true cs ctx)
  | .nil, ctx => NStepG.pure id ctx ctx rfl
  | .cons item cs, ctx => by
      cases item with
      | note n =>
          exact NStepG.bind (validateNoteOrChord_nstep (.note n) ctx)
            (fun b _ => validateTupletContents_nstep cs b)
      | chord c =>
          exact NStepG.bind (validateNoteOrChord_nstep (.chord c) ctx)
            (fun b _ => validateTupletContents_nstep cs b)
      | tuplet a2 n2 inner =>
          refine NStepG.bind (tupletChecks_nstep a2 n2 inner ctx) ?_
          intro b _
          exact NStepG.bind (validateTupletContents_nstep inner b)
            (fun c _ => validateTupletContents_nstep cs c)
      | rest r => exact NStepG.bind_pureA (p := id) (q := id) ctx rfl (validateTupletContents_nstep cs ctx)
      | slur cs2 => exact NStepG.bind_pureA (p := id) (q := id) ctx rfl (validateTupletContents_nstep cs ctx)
      | dynamic d => exact NStepG.bind_pureA (p := id) (q := id) ctx rfl (validateTupletContents_nstep cs ctx)
      | hairpin h => exact NStepG.bind_pureA (p := id) (q := id) ctx rfl (validateTupletContents_nstep cs ctx)
      | pedal p => exact NStepG.bind_pureA (p := id) (q := id) ctx rfl (validateTupletContents_nstep cs ctx)
      | tempoMark t => exact NStepG.bind_pureA (p := id) (q := id) ctx rfl (validateTupletContents_nstep cs ctx)
      | timeSignature t =>
          exact NStepG.bind_pureA (p := id) (q := id) ctx rfl (validateTupletContents_nstep cs ctx)
      | keySignature k =>
          exact NStepG.bind_pureA (p := id) (q := id) ctx rfl (validateTupletContents_nstep cs ctx)
      | instrumentChange i =>
          exact NStepG.bind_pureA (p := id) (q := id) ctx rfl (validateTupletContents_nstep cs ctx)
      | measure num cs2 =>
          exact NStepG.bind_pureA (p := id) (q := id) ctx rfl (validateTupletContents_nstep cs ctx)

theorem validateTuplet_nstep (a n : Int) (cs : Contents) (ctx : VCtx) :
    NStepG id ctx (validateTuplet false a n cs ctx) (validateTuplet true a n cs ctx) := by
  rw [validateTuplet, validateTuplet]
  exact NStepG.bind (tupletChecks_nstep a n cs ctx)
    (fun b _ => validateTupletContents_nstep cs b)

theorem validateSlurContents_nstep : ∀ (cs : Contents) (ctx : VCtx),
    NStepG id ctx (validateSlurContents false cs ctx) (validateSlurContents true cs ctx)
  | .nil, ctx => NStepG.pure id ctx ctx rfl
  | .cons item cs, ctx => by
      cases item with
      | note n =>
          exact NStepG.bind (validateNoteOrChord_nstep (.note n) ctx)
            (fun b _ => validateSlurContents_nstep cs b)
      | chord c =>
          exact NStepG.bind (validateNoteOrChord_nstep (.chord c) ctx)
            (fun b _ => validateSlurContents_nstep cs b)
      | tuplet a2 n2 inner =>
          exact NStepG.bind (validateTuplet_nstep a2 n2 inner ctx)
            (fun b _ => validateSlurContents_nstep cs b)
      | rest r => exact NStepG.bind_pureA (p := id) (q := id) ctx rfl (validateSlurContents_nstep cs ctx)
      | slur cs2 => exact NStepG.bind_pureA (p := id) (q := id) ctx rfl (validateSlurContents_nstep cs ctx)
      | dynamic d => exact NStepG.bind_pureA (p := id) (q := id) ctx rfl (validateSlurContents_nstep cs ctx)
      | hairpin h => exact NStepG.bind_pureA (p := id) (q := id) ctx rfl (validateSlurContents_nstep cs ctx)
      | pedal p => exact NStepG.bind_pureA (p := id) (q := id) ctx rfl (validateSlurContents_nstep cs ctx)
      | tempoMark t => exact NStepG.bind_pureA (p := id) (q := id) ctx rfl (validateSlurContents_nstep cs ctx)
      | timeSignature t =>
          exact NStepG.bind_pureA (p := id) (q := id) ctx rfl (validateSlurContents_nstep cs ctx)
      | keySignature k =>
          exact NStepG.bind_pureA (p := id) (q := id) ctx rfl (validateSlurContents_nstep cs ctx)
      | instrumentChange i =>
          exact NStepG.bind_pureA (p := id) (q := id) ctx rfl (validateSlurContents_nstep cs ctx)
      | measure num cs2 =>
          exact NStepG.bind_pureA (p := id) (q := id) ctx rfl (validateSlurContents_nstep cs ctx)

theorem validateSlur_nstep (cs : Contents) (ctx : VCtx) :
    NStepG id ctx (validateSlur false cs ctx) (validateSlur true cs ctx) := by
  rw [validateSlur, validateSlur]
  exact (validateSlurContents_nstep cs
    (if cs = Contents.nil then addWarning ctx .emptySlur else ctx)).congr_base
    (by split <;> rfl)

theorem validatePedal_nstep (p : Pedal) (ctx : VCtx) :
    NStepG id ctx (validatePedal false p ctx) (validatePedal true p ctx) := by
  obtain ⟨pt⟩ := p
  cases pt with
  | down =>
      refine NStepG.pure id ctx
        { (if ctx.pedal_down then addWarning ctx .pedalAlreadyDown else ctx) with
          pedal_down := true } ?_
      by_cases h : ctx.pedal_down = true
      · rw [if_pos h]
        rfl
      · rw [if_neg h]
        rfl
  | up =>
      show NStepG id ctx
        (if ctx.pedal_down = true then (.ok { ctx with pedal_down := false } : Except SemErr VCtx)
         else addError false ctx .pedalUpNotDown >>= fun a =>
           pure { a with pedal_down := false })
        (if ctx.pedal_down = true then (.ok { ctx with pedal_down := false } : Except SemErr VCtx)
         else addError true ctx .pedalUpNotDown >>= fun a =>
           pure { a with pedal_down := false })
      refine NStepG.ite (ctx.pedal_down = true) ?_ ?_
      · intro h
        exact NStepG.pure id ctx { ctx with pedal_down := false } rfl
      · intro h
        refine NStepG.bind (addError_nstep ctx .pedalUpNotDown) ?_
        intro a _
        exact NStepG.pure id a { a with pedal_down := false } rfl
  | change => exact NStepG.pure id ctx { ctx with pedal_down := true } rfl

theorem validateDynamic_nstep (d : Dynamic) (ctx : VCtx) :
    NStepG id ctx (validateDynamic false d ctx) (validateDynamic true d ctx) := by
  rw [validateDynamic, validateDynamic]
  by_cases h : validDynamics.contains d.marking = true
  · rw [if_pos h, if_pos h]
    exact NStepG.pure id ctx ctx rfl
  · rw [if_neg h, if_neg h]
    exact addError_nstep ctx (.unknownDynamic d.marking)

theorem validateMeasureItems_nstep : ∀ (cs : Contents) (ac ex : Q) (ctx : VCtx),
    NStepG (fun x : VCtx × Q × Q => x.1) ctx
      (validateMeasureItems false cs ac ex ctx) (validateMeasureItems true cs ac ex ctx)
  | .nil, ac, ex, ctx => NStepG.pure _ ctx (ctx, ac, ex) rfl
  | .cons item cs, ac, ex, ctx => by
      cases item with
      | note n =>
          refine NStepG.bind (p := fun y : VCtx × Q => y.1)
            (NStepG.bind (p := id) (q := fun y : VCtx × Q => y.1) (validateNoteOrChord_nstep (.note n) ctx)
              (fun b _ => NStepG.pure (fun y : VCtx × Q => y.1) b (b, ex) rfl)) ?_
          intro y _
          obtain ⟨cy, ey⟩ := y
          exact (validateMeasureItems_nstep cs (ac + getItemDuration (.note n) 1) ey cy)
      | chord c =>
          refine NStepG.bind (p := fun y : VCtx × Q => y.1)
            (NStepG.bind (p := id) (q := fun y : VCtx × Q => y.1) (validateNoteOrChord_nstep (.chord c) ctx)
              (fun b _ => NStepG.pure (fun y : VCtx × Q => y.1) b (b, ex) rfl)) ?_
          intro y _
          obtain ⟨cy, ey⟩ := y
          exact (validateMeasureItems_nstep cs (ac + getItemDuration (.chord c) 1) ey cy)
      | tuplet a2 n2 inner =>
          refine NStepG.bind (p := fun y : VCtx × Q => y.1)
            (NStepG.bind (p := id) (q := fun y : VCtx × Q => y.1) (validateTuplet_nstep a2 n2 inner ctx)
              (fun b _ => NStepG.pure (fun y : VCtx × Q => y.1) b (b, ex) rfl)) ?_
          intro y _
          obtain ⟨cy, ey⟩ := y
          exact (validateMeasureItems_nstep cs (ac + getItemDuration (.tuplet a2 n2 inner) 1)
              ey cy)
      | slur inner =>
          refine NStepG.bind (p := fun y : VCtx × Q => y.1)
            (NStepG.bind (p := id) (q := fun y : VCtx × Q => y.1) (validateSlur_nstep inner ctx)
              (fun b _ => NStepG.pure (fun y : VCtx × Q => y.1) b (b, ex) rfl)) ?_
          intro y _
          obtain ⟨cy, ey⟩ := y
          exact (validateMeasureItems_nstep cs (ac + getItemDuration (.slur inner) 1) ey cy)
      | pedal p =>
          refine NStepG.bind (p := fun y : VCtx × Q => y.1)
            (NStepG.bind (p := id) (q := fun y : VCtx × Q => y.1) (validatePedal_nstep p ctx)
              (fun b _ => NStepG.pure (fun y : VCtx × Q => y.1) b (b, ex) rfl)) ?_
          intro y _
          obtain ⟨cy, ey⟩ := y
          exact (validateMeasureItems_nstep cs (ac + getItemDuration (.pedal p) 1) ey cy)
      | dynamic d =>
          refine NStepG.bind (p := fun y : VCtx × Q => y.1)
            (NStepG.bind (p := id) (q := fun y : VCtx × Q => y.1) (validateDynamic_nstep d ctx)
              (fun b _ => NStepG.pure (fun y : VCtx × Q => y.1) b (b, ex) rfl)) ?_
          intro y _
          obtain ⟨cy, ey⟩ := y
          exact (validateMeasureItems_nstep cs (ac + getItemDuration (.dynamic d) 1) ey cy)
      | timeSignature t =>
          exact NStepG.bind_pureA (p := fun y : VCtx × Q => y.1) (q := fun x : VCtx × Q × Q => x.1)
            ({ ctx with current_time_signature := t }, t.beats_per_measure) rfl
            (validateMeasureItems_nstep cs (ac + getItemDuration (.timeSignature t) 1)
              t.beats_per_measure { ctx with current_time_signature := t })
      | rest r =>
          exact NStepG.bind_pureA (p := fun y : VCtx × Q => y.1) (q := fun x : VCtx × Q × Q => x.1) (ctx, ex) rfl
            (validateMeasureItems_nstep cs (ac + getItemDuration (.rest r) 1) ex ctx)
      | hairpin h =>
          exact NStepG.bind_pureA (p := fun y : VCtx × Q => y.1) (q := fun x : VCtx × Q × Q => x.1) (ctx, ex) rfl
            (validateMeasureItems_nstep cs (ac + getItemDuration (.hairpin h) 1) ex ctx)
      | tempoMark t =>
          exact NStepG.bind_pureA (p := fun y : VCtx × Q => y.1) (q := fun x : VCtx × Q × Q => x.1) (ctx, ex) rfl
            (validateMeasureItems_nstep cs (ac + getItemDuration (.tempoMark t) 1) ex ctx)
      | keySignature k =>
          exact NStepG.bind_pureA (p := fun y : VCtx × Q => y.1) (q := fun x : VCtx × Q × Q => x.1) (ctx, ex) rfl
            (validateMeasureItems_nstep cs (ac + getItemDuration (.keySignature k) 1) ex ctx)
      | instrumentChange i =>
          exact NStepG.bind_pureA (p := fun y : VCtx × Q => y.1) (q := fun x : VCtx × Q × Q => x.1) (ctx, ex) rfl
            (validateMeasureItems_nstep cs (ac + getItemDuration (.instrumentChange i) 1)
              ex ctx)
      | measure num cs2 =>
          exact NStepG.bind_pureA (p := fun y : VCtx × Q => y.1) (q := fun x : VCtx × Q × Q => x.1) (ctx, ex) rfl
            (validateMeasureItems_nstep cs (ac + getItemDuration (.measure num cs2) 1) ex ctx)

theorem validateMeasure_nstep (num : Option Int) (cs : Contents) (ctx : VCtx) :
    NStepG id ctx (validateMeasure false num cs ctx) (validateMeasure true num cs ctx) := by
  rw [validateMeasure, validateMeasure]
  refine NStepG.bind (validateMeasureItems_nstep cs 0
    ctx.current_time_signature.beats_per_measure ctx) ?_
  intro x _
  obtain ⟨cx, ax, ex⟩ := x
  show NStepG id cx
    (if ax = ex then pure cx
     else addError false cx (.measureDurationMismatch (pyOrInt num cx.current_measure)
       cx.current_staff cx.current_voice ax ex))
    (if ax = ex then pure cx
     else addError true cx (.measureDurationMismatch (pyOrInt num cx.current_measure)
       cx.current_staff cx.current_voice ax ex))
  by_cases hae : ax = ex
  · rw [if_pos hae, if_pos hae]
    exact NStepG.pure id cx cx rfl
  · rw [if_neg hae, if_neg hae]
    exact addError_nstep cx _

theorem collectVoiceMeasures_errors : ∀ (cs : Contents) (ctx : VCtx),
    (collectVoiceMeasures cs ctx).1.errors = ctx.errors
  | .nil, _ => rfl
  | .cons item cs, ctx => by
      cases item with
      | measure num mcs => exact collectVoiceMeasures_errors cs ctx
      | timeSignature t => exact collectVoiceMeasures_errors cs _
      | tempoMark t => exact collectVoiceMeasures_errors cs _
      | note n => exact collectVoiceMeasures_errors cs ctx
      | chord c => exact collectVoiceMeasures_errors cs ctx
      | rest r => exact collectVoiceMeasures_errors cs ctx
      | tuplet a2 n2 inner => exact collectVoiceMeasures_errors cs ctx
      | slur inner => exact collectVoiceMeasures_errors cs ctx
      | dynamic d => exact collectVoiceMeasures_errors cs ctx
      | hairpin h => exact collectVoiceMeasures_errors cs ctx
      | pedal p => exact collectVoiceMeasures_errors cs ctx
      | keySignature k => exact collectVoiceMeasures_errors cs ctx
      | instrumentChange i => exact collectVoiceMeasures_errors cs ctx

theorem validateVoiceMeasures_nstep : ∀ (ms : List (Option Int × Contents)) (i : Int)
    (ctx : VCtx), NStepG id ctx (validateVoiceMeasures false ms i ctx)
      (validateVoiceMeasures true ms i ctx)
  | [], _, ctx => NStepG.pure id ctx ctx rfl
  | (num, mcs) :: rest, i, ctx => by
      rw [validateVoiceMeasures, validateVoiceMeasures]
      refine NStepG.bind ((validateMeasure_nstep num mcs
        { ctx with current_measure := pyOrInt num (some i) }).congr_base rfl) ?_
      intro a _
      exact validateVoiceMeasures_nstep rest (i + 1) a

theorem validateVoice_nstep (number : Int) (cs : Contents) (ctx : VCtx) :
    NStepG id ctx (validateVoice false number cs ctx) (validateVoice true number cs ctx) := by
  rw [validateVoice, validateVoice]
  exact (validateVoiceMeasures_nstep
      (collectVoiceMeasures cs { ctx with current_voice := some number }).2 1
      (collectVoiceMeasures cs { ctx with current_voice := some number }).1).congr_base
    (collectVoiceMeasures_errors cs { ctx with current_voice := some number })

theorem validateInstrument_errors (i : String) (ctx : VCtx) :
    (validateInstrument i ctx).errors = ctx.errors := by
  rw [validateInstrument]
  split <;> rfl

theorem collectStaffItems_errors : ∀ (items : List StaffItem) (ctx : VCtx),
    (collectStaffItems items ctx).1.errors = ctx.errors
  | [], _ => rfl
  | .voice n cs :: rest, ctx => collectStaffItems_errors rest ctx
  | .item c :: rest, ctx => by
      cases c with
      | measure num mcs => exact collectStaffItems_errors rest ctx
      | timeSignature t => exact collectStaffItems_errors rest _
      | tempoMark t => exact collectStaffItems_errors rest _
      | keySignature k => exact collectStaffItems_errors rest _
      | instrumentChange i =>
          exact (collectStaffItems_errors rest
            (validateInstrument i.instrument ctx)).trans
            (validateInstrument_errors i.instrument ctx)
      | note n => exact collectStaffItems_errors rest ctx
      | chord cc => exact collectStaffItems_errors rest ctx
      | rest r => exact collectStaffItems_errors rest ctx
      | tuplet a2 n2 inner => exact collectStaffItems_errors rest ctx
      | slur inner => exact collectStaffItems_errors rest ctx
      | dynamic d => exact collectStaffItems_errors rest ctx
      | hairpin h => exact collectStaffItems_errors rest ctx
      | pedal p => exact collectStaffItems_errors rest ctx

theorem validateVoices_nstep : ∀ (voices : List (Int × Contents)) (ctx : VCtx),
    NStepG id ctx (validateVoices false voices ctx) (validateVoices true voices ctx)
  | [], ctx => NStepG.pure id ctx ctx rfl
  | (n, cs) :: rest, ctx => by
      rw [validateVoices, validateVoices]
      exact NStepG.bind (validateVoice_nstep n cs ctx)
        (fun a _ => validateVoices_nstep rest a)

theorem validateDirectMeasures_nstep : ∀ (ms : List (Option Int × Contents)) (i : Int)
    (ctx : VCtx), NStepG id ctx (validateDirectMeasures false ms i ctx)
      (validateDirectMeasures true ms i ctx)
  | [], _, ctx => NStepG.pure id ctx ctx rfl
  | (num, mcs) :: rest, i, ctx => by
      rw [validateDirectMeasures, validateDirectMeasures]
      refine NStepG.bind ((validateMeasure_nstep num mcs
        { ctx with current_measure := some i }).congr_base rfl) ?_
      intro a _
      exact validateDirectMeasures_nstep rest (i + 1) a

theorem voiceAlignmentLoop_errors : ∀ (vs : List (Int × Contents)) (ctx : VCtx)
    (acc : List (Int × Q)), (voiceAlignmentLoop vs ctx acc).1.errors = ctx.errors
  | [], _, _ => rfl
  | (n, cs) :: rest, ctx, acc =>
      voiceAlignmentLoop_errors rest { ctx with current_voice := some n }
        (alistInsert n (voiceTotal cs) acc)

theorem validateVoiceAlignment_errors (vs : List (Int × Contents)) (ctx : VCtx) :
    (validateVoiceAlignment vs ctx).errors = ctx.errors := by
  have h0 := voiceAlignmentLoop_errors vs ctx []
  rw [validateVoiceAlignment]
  rcases hvl : voiceAlignmentLoop vs ctx [] with ⟨c2, durs⟩
  rw [hvl] at h0
  cases durs with
  | nil => exact h0
  | cons hd tl =>
      obtain ⟨nn, d0⟩ := hd
      show (if (((nn, d0) :: tl).all fun p => decide (p.2 = d0)) = true then c2
        else addWarning c2
          (.voiceDurationsDiffer c2.current_staff ((nn, d0) :: tl))).errors = ctx.errors
      split
      · exact h0
      · exact h0

theorem validateStaff_nstep (st : Staff) (ctx : VCtx) :
    NStepG id ctx (validateStaff false st ctx) (validateStaff true st ctx) := by
  rw [validateStaff, validateStaff]
  have hX : (match st.instrument with
      | some i => validateInstrument i { ctx with current_staff := some st.name }
      | none => { ctx with current_staff := some st.name }).errors = ctx.errors := by
    cases st.instrument with
    | none => rfl
    | some i => exact validateInstrument_errors i _
  have h0 := collectStaffItems_errors st.contents
    (match st.instrument with
     | some i => validateInstrument i { ctx with current_staff := some st.name }
     | none => { ctx with current_staff := some st.name })
  rcases hcs : collectStaffItems st.contents
    (match st.instrument with
     | some i => validateInstrument i { ctx with current_staff := some st.name }
     | none => { ctx with current_staff := some st.name }) with ⟨c3, voices, dms⟩
  rw [hcs] at h0
  refine NStepG.congr_base ?_ (h0.trans hX)
  refine NStepG.bind (validateVoices_nstep voices c3) ?_
  intro c4 _
  cases dms with
  | nil =>
      refine NStepG.bind (p := id) (NStepG.pure id c4 c4 rfl) ?_
      intro c5 h5
      injection h5 with h5'
      subst h5'
      refine NStepG.pure id c4 _ ?_
      split
      · exact validateVoiceAlignment_errors voices c4
      · rfl
  | cons d ds =>
      refine NStepG.bind (p := id)
        ((validateDirectMeasures_nstep (d :: ds) 1
          { c4 with current_voice := some 1 }).congr_base rfl) ?_
      intro c5 _
      refine NStepG.pure id c5 _ ?_
      split
      · exact validateVoiceAlignment_errors voices c5
      · rfl

theorem analyzeStaves_nstep : ∀ (staves : List Staff) (ctx : VCtx),
    NStepG id ctx (analyzeStaves false staves ctx) (analyzeStaves true staves ctx)
  | [], ctx => NStepG.pure id ctx ctx rfl
  | st :: rest, ctx => by
      rw [analyzeStaves, analyzeStaves]
      exact NStepG.bind (validateStaff_nstep st ctx)
        (fun a _ => analyzeStaves_nstep rest a)

theorem unresolvedTiesLoop_nstep : ∀ (ties : List ((Option String × Option Int × Int) × Pitch))
    (ctx : VCtx), NStepG id ctx (unresolvedTiesLoop false ties ctx)
      (unresolvedTiesLoop true ties ctx)
  | [], ctx => NStepG.pure id ctx ctx rfl
  | (key, pitch) :: rest, ctx => by
      rw [unresolvedTiesLoop, unresolvedTiesLoop]
      exact NStepG.bind (addError_nstep ctx (.unresolvedTie pitch key.1 key.2.1))
        (fun a _ => unresolvedTiesLoop_nstep rest a)

theorem analyzeInit_errors (score : Score) : (analyzeInit score).errors = [] := by
  rw [analyzeInit]
  rcases score.time_signature with _ | ts <;> rcases score.tempo with _ | t <;>
    rcases score.key_signature with _ | k <;> rfl

/-- Claim C4 (amended): for every score the non-strict analysis never raises —
it returns the context with every collected error — and the strict analysis
returns the same error-free context when nothing was collected, and raises
exactly the first collected error otherwise. -/
theorem c4_strict_vs_collect (score : Score) :
    (∃ ctx, analyze false score = .ok ctx) ∧
    ∀ ctx, analyze false score = .ok ctx →
      (ctx.errors = [] → analyze true score = .ok ctx) ∧
      (∀ e rest, ctx.errors = e :: rest → analyze true score = .error e) := by
  have hassoc : ∀ strict : Bool, analyze strict score =
      ((analyzeStaves strict score.staves (analyzeInit score) >>= fun c =>
        unresolvedTiesLoop strict c.pending_ties c) >>= analyzeFinish strict) := by
    intro strict
    rw [analyze, bind_assoc]
  have hmain := NStepG.bind (q := id)
    (analyzeStaves_nstep score.staves (analyzeInit score))
    (fun a _ => unresolvedTiesLoop_nstep a.pending_ties a)
  obtain ⟨cf, hcf, newE, hE, hnil, hcons⟩ := hmain
  rw [analyzeInit_errors, List.nil_append] at hE
  have hFok : analyzeFinish false cf = .ok cf := by
    delta analyzeFinish
    cases cf.errors <;> rfl
  have hfalse : analyze false score = .ok cf := by
    rw [hassoc false, hcf]
    show analyzeFinish false cf = .ok cf
    exact hFok
  refine ⟨⟨cf, hfalse⟩, ?_⟩
  intro ctx hctx
  have hceq : ctx = cf := by
    rw [hfalse] at hctx
    injection hctx with h
    exact h.symm
  subst hceq
  constructor
  · intro hce
    rw [hassoc true, hnil (by rw [← hE]; exact hce)]
    show analyzeFinish true ctx = .ok ctx
    delta analyzeFinish
    rw [hce]
  · intro e rest hce
    rw [hassoc true, hcons e rest (hE ▸ hce)]
    rfl

/-- Two measures that each fill only a quarter of 4/4: two duration-mismatch
errors. -/
def shortMeasureScore : Score :=
  { staves := [{ name := "piano", contents := [.voice 1 (Contents.ofList
      [.measure none (Contents.ofList
        [.note { pitch := { name := .C, octave := 4 },
                 duration := { base_value := Q.frac 1 4 } }]),
       .measure none (Contents.ofList
        [.note { pitch := { name := .D, octave := 4 },
                 duration := { base_value := Q.frac 1 4 } }])])] }],
    time_signature := some { numerator := 4, denominator := 4 } }

/-- The context the non-strict analysis of `shortMeasureScore` returns. -/
def c4BadCtx : VCtx := (analyze false shortMeasureScore).toOption.getD {}

/-- A single full measure in 4/4: no errors. -/
def c4OkScore : Score :=
  { staves := [{ name := "piano", contents := [.voice 1 (Contents.ofList
      [.measure none (Contents.ofList
        [.note { pitch := { name := .C, octave := 4 },
                 duration := { base_value := Q.ofInt 1 } }])])] }],
    time_signature := some { numerator := 4, denominator := 4 } }

/-- The context the non-strict analysis of `c4OkScore` returns. -/
def c4OkCtx : VCtx := (analyze false c4OkScore).toOption.getD {}

/-- Claim C4 is false on the code: the non-strict analysis of a score with
two duration-mismatch errors returns them without raising — `analyze` only
raises in strict mode — so "raises at the end iff at least one error was
collected" fails. -/
theorem c4_counterexample :
    (¬ ∀ (score : Score) (ctx : VCtx), analyze false score = .ok ctx → ctx.errors = []) ∧
    c4BadCtx.errors.length = 2 := by
  constructor
  · intro h
    exact absurd (h shortMeasureScore c4BadCtx rfl) (by decide)
  · decide

/-- Witness for the amended claim C4 at concrete inputs: the error-free score
analyzes identically in both modes, and on the two-error score the strict run
raises exactly the first collected error. -/
theorem c4_amended_witness :
    analyze true c4OkScore = .ok c4OkCtx ∧
    analyze true shortMeasureScore =
      .error (SemErr.measureDurationMismatch (some 1) (some "piano") (some 1)
        (Q.frac 1 4) (Q.ofInt 1)) :=
  ⟨((c4_strict_vs_collect c4OkScore).2 c4OkCtx rfl).1 (by decide),
   ((c4_strict_vs_collect shortMeasureScore).2 c4BadCtx rfl).2
     (SemErr.measureDurationMismatch (some 1) (some "piano") (some 1)
       (Q.frac 1 4) (Q.ofInt 1))
     [SemErr.measureDurationMismatch (some 2) (some "piano") (some 1)
       (Q.frac 1 4) (Q.ofInt 1)]
     (by decide)⟩

end Clef

